import Mathlib

/-!
Maps of SWI-Prolog (`src/pl-map.c`)

A shallow embedding of `pl-map.c`.  The Prolog stacks are one address space of
cells (`Store`); a pointer is an address and pointer arithmetic is arithmetic
on addresses, so that reads behind the last argument of a term read
whatever cell lies there, as in C.  The macros and functions of `pl-incl.h`,
`pl-fli.c` and the C library that `pl-map.c` uses but does not define are the
fields of `Host`.  A cell (`word`, a tagged machine word), a pointer to a cell
(`Word`, an address) and a handle to a term reference (`term_t`, `0` being the
null handle) are natural numbers.  Loops carry an explicit iteration budget;
`none` means that the budget was exhausted, never a result of the C code.

`assert(arity%2 == 1)` is not part of the control flow (it compiles away in
production builds); theorems that need it state it as a hypothesis.  `int`
values are unbounded integers: arities are bounded by the size of the stacks.
-/

namespace PlMap

/-- The cells of the stacks, by address. -/
abbrev Store := Nat → Nat

/-- Assignment `*a = w`. -/
def store (mem : Store) (a : Nat) (w : Nat) : Store :=
  fun x => if x = a then w else mem x

/-- The part of the engine state (`LD` and the static data of `pl-map.c`) that
the map code reads or writes. -/
structure PlState where
  /-- the cells of the stacks -/
  mem : Store
  /-- top of the global stack: the first free cell -/
  gTop : Nat
  /-- limit of the global stack -/
  gMax : Nat
  /-- the static table `map_functors[CACHED_MAP_FUNCTORS]` -/
  map_functors : Nat → Nat

/-- What `pl-map.c` uses from `pl-incl.h`, `pl-fli.c`, `pl-prims.c` and libc and
does not define itself.  Every field is a parameter of the development. -/
structure Host where
  /-- In C: `isRef(w)` -/
  isRef : Nat → Bool
  /-- In C: `unRef(w)` -/
  unRef : Nat → Nat
  /-- In C: `deRef(p)`, `deRef2(p, q)`: the cell at the end of the reference chain
  that starts in cell `p` -/
  deRef : Store → Nat → Nat
  /-- In C: `linkVal(p)`: the word that makes a cell share the value of cell `p` -/
  linkVal : Store → Nat → Nat
  /-- In C: `setVar(w)`: the word of an unbound variable -/
  setVar : Nat
  /-- In C: `isTerm(w)` -/
  isTerm : Nat → Bool
  /-- In C: `valueTerm(w)`: address of the functor cell of a compound -/
  valueTerm : Nat → Nat
  /-- In C: `consPtr(p, TAG_COMPOUND|STG_GLOBAL)` -/
  consPtr : Nat → Nat
  /-- In C: `isAtom(w)` -/
  isAtom : Nat → Bool
  /-- In C: `isTaggedInt(w)` -/
  isTaggedInt : Nat → Bool
  /-- In C: `arityFunctor(f)`, `valueFunctor(f)->arity` -/
  arityFunctor : Nat → Nat
  /-- In C: `nameFunctor(f)`, `valueFunctor(f)->name` -/
  nameFunctor : Nat → Nat
  /-- In C: `lookupFunctorDef(name, arity)` -/
  lookupFunctorDef : Nat → Nat → Nat
  /-- the atom `map` -/
  ATOM_map : Nat
  /-- the functor of `Name-Value` -/
  FUNCTOR_minus2 : Nat
  /-- the functor of `Name=Value` -/
  FUNCTOR_equals2 : Nat
  /-- the functor of `Name:Value` -/
  FUNCTOR_colon2 : Nat
  /-- In C: `compareStandard(p, q, eq)`: zero iff the two values are structurally
  equal -/
  compareStandard : Store → Nat → Nat → Bool → Int
  /-- In C: `valTermRef(t)`: the cell of a term reference -/
  valTermRef : Nat → Nat
  /-- In C: `PL_new_term_ref()`: a fresh term reference, `0` if there is none -/
  PL_new_term_ref : PlState → Nat × PlState
  /-- In C: `PL_put_term(t1, t2)` -/
  PL_put_term : Store → Nat → Nat → Store
  /-- In C: `PL_is_list(t)` -/
  PL_is_list : Store → Nat → Bool
  /-- In C: `lengthList(t, TRUE)`: the length of a proper list, negative otherwise -/
  lengthList : Store → Nat → Int
  /-- In C: `isList(w)`: `w` is a list cell `'.'/2` -/
  isList : Store → Nat → Bool
  /-- In C: `HeadList(p)` -/
  HeadList : Store → Nat → Nat
  /-- In C: `TailList(p)` -/
  TailList : Store → Nat → Nat
  /-- In C: `canBind(w)`: `w` is an unbound or attributed variable -/
  canBind : Nat → Bool
  /-- In C: `unify_ptrs(p, q, ALLOW_GC|ALLOW_SHIFT)`: the return value and the state
  it leaves -/
  unify_ptrs : PlState → Nat → Nat → Bool × PlState
  /-- In C: `_PL_unify_atomic(t, w)`: the return value and the state it leaves -/
  _PL_unify_atomic : PlState → Nat → Nat → Bool × PlState
  /-- In C: `exception_term`: is an exception pending -/
  exception_term : PlState → Bool
  /-- In C: `PL_open_foreign_frame()`: the state with the frame open, `none` if the
  frame cannot be opened (the call returns 0).  The handle of a frame is
  represented by the state in which it was opened. -/
  PL_open_foreign_frame : PlState → Option PlState
  /-- In C: `PL_close_foreign_frame(fid)` -/
  PL_close_foreign_frame : PlState → PlState → PlState
  /-- In C: `PL_rewind_foreign_frame(fid)`: undo what was done since the frame was
  opened -/
  PL_rewind_foreign_frame : PlState → PlState → PlState

/-- Result of a function that returns `TRUE`, or `FALSE` with or without having
raised a type error (`PL_type_error`). -/
inductive Outcome
  | TRUE
  | FALSE
  /-- In C: `PL_type_error(expected, t)`, the culprit being a term reference -/
  | type_error (expected : String) (t : Nat)
  /-- In C: `PL_type_error(expected, pushWordAsTermRef(p))`, the culprit being the
  cell at `p` -/
  | type_error_at (expected : String) (p : Nat)
  deriving DecidableEq, Repr

/-! ## `map_functor` -/

/-- In C: `CACHED_MAP_FUNCTORS` -/
def CACHED_MAP_FUNCTORS : Nat := 128

/-- In C: `map_functor(arity)`: the functor `map/arity`, through the table of cached
functors. -/
def map_functor (H : Host) (st : PlState) (arity : Nat) : Nat × PlState :=
  if arity < CACHED_MAP_FUNCTORS then
    if st.map_functors arity ≠ 0 then
      (st.map_functors arity, st)
    else
      let f := H.lookupFunctorDef H.ATOM_map arity
      (f, { st with map_functors := fun i => if i = arity then f else st.map_functors i })
  else
    (H.lookupFunctorDef H.ATOM_map arity, st)

/-- In C: `is_key(w)` -/
def is_key (H : Host) (w : Nat) : Bool :=
  H.isAtom w || H.isTaggedInt w

/-! ## `map_lookup_ptr` -/

/-- The probe `m = ((l+h)/2)|0x1` of the binary search. -/
def map_lookup_mid (l h : Int) : Int :=
  Int.lor ((l + h).tdiv 2) 1

/-- What one pass through the body of `for(;;)` in `map_lookup_ptr` does. -/
inductive LookupStep
  /-- In C: `return p+1` (some) or `return NULL` (none) -/
  | ret (r : Option Nat)
  /-- next iteration with these `l` and `h` -/
  | next (l h : Int)
  deriving DecidableEq, Repr

/-- The body of the loop of `map_lookup_ptr` at `l`, `h`. -/
def map_lookup_iter (H : Host) (mem : Store) (data : Nat) (name : Nat)
    (l h : Int) : LookupStep :=
  let m := map_lookup_mid l h
  let p := H.deRef mem ((data : Int) + 1 + m).toNat
  if mem p = name then .ret (some (p + 1))
  else if l = h then .ret none
  else if mem p < name then .next m h
  else if h > m then .next l m
  else .next l (m - 2)

/-- The loop `for(;;)` of `map_lookup_ptr`, for at most `fuel` iterations. -/
def map_lookup_loop (H : Host) (mem : Store) (data : Nat) (name : Nat) :
    Nat → Int → Int → Option (Option Nat)
  | 0, _, _ => none
  | fuel + 1, l, h =>
    match map_lookup_iter H mem data name l h with
    | .ret r => some r
    | .next l1 h1 => map_lookup_loop H mem data name fuel l1 h1

/-- In C: `map_lookup_ptr(map, name)`: `some (some p)` for `return p`, `some none` for
`return NULL`, `none` when the loop is still running after `fuel` iterations. -/
def map_lookup_ptr (H : Host) (mem : Store) (fuel : Nat) (map name : Nat) :
    Option (Option Nat) :=
  let data := H.valueTerm map
  let arity : Int := H.arityFunctor (mem data)
  map_lookup_loop H mem data name fuel 1 (arity - 2)

/-! ## `compare_map_entry`, `map_ordered`, `map_order` -/

/-- In C: `compare_map_entry(a, b)` -/
def compare_map_entry (H : Host) (mem : Store) (a b : Nat) : Int :=
  let p := H.deRef mem a
  let q := H.deRef mem b
  if mem p < mem q then -1 else if mem p > mem q then 1 else 0

/-- The `for` loop of `map_ordered`, `n1` being the dereferenced first key. -/
def map_ordered_loop (H : Host) (mem : Store) : Nat → Nat → Nat → Bool
  | 0, _, _ => true
  | count + 1, data, n1 =>
    if count + 1 > 1 then
      let n2 := H.deRef mem (data + 2)
      if mem n1 ≥ mem n2 then false
      else map_ordered_loop H mem count (data + 2) n2
    else true

/-- In C: `map_ordered(data, count)` -/
def map_ordered (H : Host) (mem : Store) (data : Nat) (count : Nat) : Bool :=
  map_ordered_loop H mem count data (H.deRef mem data)

/-- The C library's `qsort(base, nmemb, size, compar)` on an array of cells:
the elements are rearranged into the order of `compar`.  The algorithm is
unspecified in C; here the positions are sorted by insertion, `compar` being
applied to the elements where they lie before the call. -/
def qsort (mem : Store) (base : Nat) (nmemb size : Nat)
    (compar : Store → Nat → Nat → Int) : Store :=
  let order := (List.range nmemb).insertionSort
    (fun i j => compar mem (base + size * i) (base + size * j) ≤ 0)
  fun x =>
    if base ≤ x ∧ x < base + size * nmemb then
      mem (base + size * order.getD ((x - base) / size) 0 + (x - base) % size)
    else mem x

/-- In C: `map_order(map)`: sort the entries, then check that no key occurs twice. -/
def map_order (H : Host) (mem : Store) (map : Nat) : Bool × Store :=
  let data := map
  let arity := H.arityFunctor (mem data)
  let mem1 := qsort mem (data + 2) (arity / 2) 2 (compare_map_entry H)
  (map_ordered H mem1 (data + 2) (arity / 2), mem1)

/-! ## `map_put` -/

/-- The local variables of `map_put` that its loops change, and the cells. -/
structure MergeState where
  mem : Store
  out : Nat
  in_ : Nat
  nv : Nat
  modified : Bool

/-- The loop `while(in < in_end && nv < nv_end)` of `map_put`. -/
def map_put_scan (H : Host) (in_end nv_end : Nat) : Nat → MergeState → Option MergeState
  | 0, s => if s.in_ < in_end ∧ s.nv < nv_end then none else some s
  | fuel + 1, s =>
    if s.in_ < in_end ∧ s.nv < nv_end then
      let i_name := H.deRef s.mem s.in_
      let n_name := H.deRef s.mem s.nv
      if s.mem i_name = s.mem n_name then
        let mem1 := store s.mem s.out (s.mem i_name)
        let mem2 := store mem1 (s.out + 1) (H.linkVal mem1 (s.nv + 1))
        let in1 := s.in_ + 2
        let nv1 := s.nv + 2
        let modified :=
          if !s.modified && H.compareStandard mem2 (nv1 + 1) (in1 + 1) true ≠ 0 then true
          else s.modified
        map_put_scan H in_end nv_end fuel
          { mem := mem2, out := s.out + 2, in_ := in1, nv := nv1, modified := modified }
      else if s.mem i_name < s.mem n_name then
        let mem1 := store s.mem s.out (s.mem i_name)
        let mem2 := store mem1 (s.out + 1) (H.linkVal mem1 (s.in_ + 1))
        map_put_scan H in_end nv_end fuel
          { s with mem := mem2, out := s.out + 2, in_ := s.in_ + 2 }
      else
        let mem1 := store s.mem s.out (s.mem n_name)
        let mem2 := store mem1 (s.out + 1) (H.linkVal mem1 (s.nv + 1))
        map_put_scan H in_end nv_end fuel
          { s with mem := mem2, out := s.out + 2, nv := s.nv + 2, modified := true }
    else some s

/-- The loop `while(in < in_end)` of `map_put`: copy the rest of the base map. -/
def map_put_rest_in (H : Host) (in_end : Nat) : Nat → MergeState → Option MergeState
  | 0, s => if s.in_ < in_end then none else some s
  | fuel + 1, s =>
    if s.in_ < in_end then
      let i_name := H.deRef s.mem s.in_
      let mem1 := store s.mem s.out (s.mem i_name)
      let mem2 := store mem1 (s.out + 1) (H.linkVal mem1 (s.in_ + 1))
      map_put_rest_in H in_end fuel { s with mem := mem2, out := s.out + 2, in_ := s.in_ + 2 }
    else some s

/-- The loop `while(nv < nv_end)` of `map_put`: copy the rest of the new
entries. -/
def map_put_rest_nv (H : Host) (nv_end : Nat) : Nat → MergeState → Option MergeState
  | 0, s => if s.nv < nv_end then none else some s
  | fuel + 1, s =>
    if s.nv < nv_end then
      let n_name := H.deRef s.mem s.nv
      let mem1 := store s.mem s.out (s.mem n_name)
      let mem2 := store mem1 (s.out + 1) (H.linkVal mem1 (s.nv + 1))
      map_put_rest_nv H nv_end fuel { s with mem := mem2, out := s.out + 2, nv := s.nv + 2 }
    else some s

/-- The return value of `map_put`. -/
inductive PutRc
  | TRUE
  | GLOBAL_OVERFLOW
  deriving DecidableEq, Repr

/-- What `map_put` leaves behind: its return value, `*new_map`, and the state. -/
structure PutResult where
  rc : PutRc
  new_map : Nat
  st : PlState

/-- The end of `map_put`, from `gTop = out` on: the new term is completed. -/
def map_put_finish (H : Host) (st : PlState) (data new : Nat) (s : MergeState) : PutResult :=
  let mem1 := store s.mem (new + 1) (H.linkVal s.mem (data + 1))
  let fst := map_functor H { st with mem := mem1, gTop := s.out } (s.out - (new + 1))
  { rc := .TRUE
    new_map := H.consPtr new
    st := { fst.2 with mem := store fst.2.mem new fst.1 } }

/-- In C: `map_put(map, size, nv, new_map)`; the last argument is the value of
`*new_map` before the call.  The loops make at most `arity/2 + size`
iterations; `none` only if that budget were exceeded. -/
def map_put (H : Host) (st : PlState) (map : Nat) (size : Nat) (nv : Nat)
    (new_map : Nat) : Option PutResult :=
  let data := H.valueTerm map
  let arity := H.arityFunctor (st.mem data)
  if size = 0 then
    some { rc := .TRUE, new_map := map, st := st }
  else if st.gTop + 1 + arity + 2 * size > st.gMax then
    some { rc := .GLOBAL_OVERFLOW, new_map := new_map, st := st }
  else
    let new := st.gTop
    let in_ := data + 2
    let in_end := in_ + arity - 1
    let nv_end := nv + size * 2
    let fuel := arity / 2 + size
    match map_put_scan H in_end nv_end fuel
        { mem := st.mem, out := new + 2, in_ := in_, nv := nv, modified := false } with
    | none => none
    | some s =>
      if s.nv = nv_end then
        if !s.modified then
          some { rc := .TRUE, new_map := map, st := { st with mem := s.mem } }
        else
          (map_put_rest_in H in_end fuel s).map (map_put_finish H st data new)
      else
        (map_put_rest_nv H nv_end fuel s).map (map_put_finish H st data new)

/-! ## `get_name_value` -/

/-- In C: `get_name_value(p, name, value)`: the return value and the cells after the
two assignments. -/
def get_name_value (H : Host) (mem : Store) (p name value : Nat) : Bool × Store :=
  let p := H.deRef mem p
  if H.isTerm (mem p) then
    let f := H.valueTerm (mem p)
    if mem f = H.FUNCTOR_minus2 ∨ mem f = H.FUNCTOR_equals2 ∨ mem f = H.FUNCTOR_colon2 then
      let np := H.deRef mem (f + 1)
      if is_key H (mem np) then
        let mem1 := store mem name (mem np)
        let vp := H.deRef mem1 (f + 2)
        (true, store mem1 value (H.linkVal mem1 vp))
      else (false, mem)
    else if H.arityFunctor (mem f) = 1 then
      let mem1 := store mem name (H.nameFunctor (mem f))
      let vp := H.deRef mem1 (f + 1)
      (true, store mem1 value (H.linkVal mem1 vp))
    else (false, mem)
  else (false, mem)

/-! ## Foreign support: `PL_is_map`, `PL_get_map_ex`, `get_map_ex` -/

/-- In C: `PL_is_map(t)` -/
def PL_is_map (H : Host) (st : PlState) (t : Nat) : Bool :=
  let p := H.deRef st.mem (H.valTermRef t)
  if H.isTerm (st.mem p) then
    let f := H.valueTerm (st.mem p)
    let fd := st.mem f
    H.nameFunctor fd = H.ATOM_map &&
      (H.arityFunctor fd % 2 = 1 &&
        map_ordered H st.mem (f + 2) (H.arityFunctor fd / 2))
  else false

/-- Modelled from the spec: `allocGlobal` (`pl-alloc.c`) is not among the
sources.  Section 4.1: allocation is a pure bump of the high-water mark and
signals insufficient space when the remaining capacity is smaller than the
request. -/
def allocGlobal (st : PlState) (n : Nat) : Option Nat × PlState :=
  if st.gTop + n > st.gMax then (none, st)
  else (some st.gTop, { st with gTop := st.gTop + n })

/-- How the loop over the list elements in `PL_get_map_ex` ends. -/
inductive BuildLoop
  /-- The function `get_name_value` refused the element at `head` -/
  | bad (head : Nat) (mem : Store)
  /-- the list is exhausted; `ap` is the cell after the last one written -/
  | done (mem : Store) (ap : Nat)

/-- The loop `while( isList(*tail) )` of `PL_get_map_ex`. -/
def PL_get_map_ex_loop (H : Host) : Nat → Store → Nat → Nat → Option BuildLoop
  | 0, _, _, _ => none
  | fuel + 1, mem, tail, ap =>
    if H.isList mem (mem tail) then
      let head := H.HeadList mem tail
      match get_name_value H mem head ap (ap + 1) with
      | (false, mem1) => some (.bad head mem1)
      | (true, mem1) =>
        let tail1 := H.deRef mem1 (H.TailList mem1 tail)
        PL_get_map_ex_loop H fuel mem1 tail1 (ap + 2)
    else some (.done mem ap)

/-- In C: `PL_get_map_ex(data, class, map)`.  The state that comes with a type error
is the state in which `PL_type_error` is called.  `none` only if the list had
more than `len` elements. -/
def PL_get_map_ex (H : Host) (st : PlState) (data cls map : Nat) :
    Option (Outcome × PlState) :=
  if PL_is_map H st data then
    some (.TRUE, { st with mem := H.PL_put_term st.mem map data })
  else if H.PL_is_list st.mem data then
    let len := H.lengthList st.mem data
    if len < 0 then some (.FALSE, st)
    else
      match allocGlobal st (len.toNat * 2 + 2) with
      | (none, st1) => some (.FALSE, st1)
      | (some m, st1) =>
        let fst := map_functor H st1 (len.toNat * 2 + 1)
        let st2 := fst.2
        let mem1 := store st2.mem m fst.1
        let mem2 :=
          if cls ≠ 0 then store mem1 (m + 1) (H.linkVal mem1 (H.valTermRef cls))
          else store mem1 (m + 1) H.setVar
        let tail := H.deRef mem2 (H.valTermRef data)
        match PL_get_map_ex_loop H (len.toNat + 1) mem2 tail (m + 2) with
        | none => none
        | some (.bad head mem3) =>
          some (.type_error_at "name-value" head, { st2 with mem := mem3, gTop := m })
        | some (.done mem3 _) =>
          let r := map_order H mem3 m
          if r.1 then
            some (.TRUE, { st2 with mem := store r.2 (H.valTermRef map) (H.consPtr m) })
          else
            some (.type_error "map-data" data, { st2 with mem := r.2, gTop := m })
  else some (.type_error "map-data" data, st)

/-- In C: `get_map_ex(t, mp, create)`; `mp` is the value of `*mp` before the call, the
result carries its value after. -/
def get_map_ex (H : Host) (st : PlState) (t : Nat) (mp : Nat) (create : Bool) :
    Option (Outcome × Nat × PlState) :=
  let p := H.deRef st.mem (H.valTermRef t)
  if H.isTerm (st.mem p) &&
      (H.nameFunctor (st.mem (H.valueTerm (st.mem p))) = H.ATOM_map &&
        H.arityFunctor (st.mem (H.valueTerm (st.mem p))) % 2 = 1) then
    some (.TRUE, st.mem p, st)
  else if create then
    let r := H.PL_new_term_ref st
    if r.1 ≠ 0 then
      match PL_get_map_ex H r.2 t 0 r.1 with
      | none => none
      | some (.TRUE, st2) =>
        some (.TRUE, st2.mem (H.deRef st2.mem (H.valTermRef r.1)), st2)
      | some (o, st2) => some (o, mp, st2)
    else some (.FALSE, mp, r.2)
  else some (.type_error "map" t, mp, st)

/-! ## The predicate `map_get/3` -/

/-- How a non-deterministic foreign predicate is entered (`CTX_CNTRL`); a redo
carries the integer handed to `ForeignRedoInt` (`CTX_INT`). -/
inductive Control
  | FRG_FIRST_CALL
  | FRG_REDO (ctx_int : Nat)
  | FRG_CUTTED
  deriving DecidableEq, Repr

/-- How a foreign predicate returns: with `TRUE`, `FALSE` or an error, or with a
choice point (`ForeignRedoInt(i)`). -/
inductive ForeignRet
  | ret (o : Outcome)
  | REDO (i : Nat)
  deriving DecidableEq, Repr

/-- The loop `for( ; i < arity; i += 2 )` of `map_get/3` with what follows it;
`f` is the functor cell of the map, `fid` the open frame. -/
def map_get_loop (H : Host) (f arity A2 A3 : Nat) (fid : PlState) :
    Nat → Nat → PlState → Option (ForeignRet × PlState)
  | 0, i, st =>
    if i < arity then none else some (.ret .FALSE, H.PL_close_foreign_frame fid st)
  | fuel + 1, i, st =>
    if i < arity then
      let np := H.deRef st.mem (f + 1 + i)
      let u1 := H.unify_ptrs st (f + 1 + (i + 1)) (H.valTermRef A3)
      let u2 := if u1.1 then H._PL_unify_atomic u1.2 A2 (u1.2.mem np) else u1
      if u2.1 then
        let st1 := H.PL_close_foreign_frame fid u2.2
        if i + 2 < arity then some (.REDO i, st1) else some (.ret .TRUE, st1)
      else if H.exception_term u2.2 then
        some (.ret .FALSE, H.PL_close_foreign_frame fid u2.2)
      else map_get_loop H f arity A2 A3 fid fuel (i + 2) (H.PL_rewind_foreign_frame fid u2.2)
    else some (.ret .FALSE, H.PL_close_foreign_frame fid st)

/-- The code of `map_get/3` from the label `search` on.  The loop makes at most
`arity` passes, so that its budget is never exhausted. -/
def map_get_search (H : Host) (st : PlState) (map i A2 A3 : Nat) :
    Option (ForeignRet × PlState) :=
  let f := H.valueTerm map
  let arity := H.arityFunctor (st.mem f)
  match H.PL_open_foreign_frame st with
  | some fid => map_get_loop H f arity A2 A3 fid arity i fid
  | none => some (.ret .FALSE, st)

/-- In C: `PRED_IMPL("map_get", 3, map_get, PL_FA_NONDETERMINISTIC)`.  The local `i`
is not initialised when the key is neither a key nor a variable: `junk` is the
value it then has.  `fuel` bounds the binary search of a point query. -/
def map_get (H : Host) (fuel : Nat) (st : PlState) (ctl : Control) (junk : Nat)
    (A1 A2 A3 : Nat) : Option (ForeignRet × PlState) :=
  match ctl with
  | .FRG_FIRST_CALL =>
    let np := H.valTermRef A2
    match get_map_ex H st A1 0 false with
    | none => none
    | some (.TRUE, map, st1) =>
      let np := H.deRef st1.mem np
      if is_key H (st1.mem np) then
        match map_lookup_ptr H st1.mem fuel map (st1.mem np) with
        | none => none
        | some (some vp) =>
          let u := H.unify_ptrs st1 vp (H.valTermRef A3)
          some (.ret (if u.1 then .TRUE else .FALSE), u.2)
        | some none => some (.ret .FALSE, st1)
      else
        let i := if H.canBind (st1.mem np) then 1 else junk
        map_get_search H st1 map i A2 A3
    | some (o, _, st1) => some (.ret o, st1)
  | .FRG_REDO ctx_int =>
    let i := ctx_int + 2
    let p := H.deRef st.mem (H.valTermRef A1)
    let map := st.mem p
    map_get_search H st map i A2 A3
  | .FRG_CUTTED => some (.ret .TRUE, st)

/-- Modelled from the spec: the engine that drives a non-deterministic
predicate is not among the sources.  Section 4.6: the iterator is a state
machine whose only state is the array index; a solution reported with a
choice point is followed, on backtracking, by a redo with the index returned,
in the state of the call (the bindings of the solution undone); `TRUE`
reports the last solution and `FALSE` none.  The result lists the states of
the solutions in the order in which they are reported. -/
def map_get_solutions (H : Host) (lfuel : Nat) (st : PlState) (junk A1 A2 A3 : Nat) :
    Nat → Control → Option (List PlState)
  | 0, _ => none
  | fuel + 1, ctl =>
    match map_get H lfuel st ctl junk A1 A2 A3 with
    | none => none
    | some (.REDO i, st1) =>
      (map_get_solutions H lfuel st junk A1 A2 A3 fuel (.FRG_REDO i)).map
        (fun l => st1 :: l)
    | some (.ret .TRUE, st1) => some [st1]
    | some (.ret _, _) => some []

/-! ## Specification vocabulary -/

/-- The key of entry `i` (argument `2i+1`) of the term whose functor cell is at
`data`, as the code reads it: the word in the dereferenced key slot. -/
def keyAt (H : Host) (mem : Store) (data : Nat) (i : Nat) : Nat :=
  mem (H.deRef mem (data + 2 + 2 * i))

/-- The words in `n` consecutive pairs of cells from `base` on. -/
def rawList (mem : Store) (base : Nat) (n : Nat) : List (Nat × Nat) :=
  (List.range n).map (fun i => (mem (base + 2 * i), mem (base + 2 * i + 1)))

/-- The words in the entry slots of the term at `data` with `n` entries, in
array order: the pairs (key slot, value slot). -/
def entriesOf (mem : Store) (data : Nat) (n : Nat) : List (Nat × Nat) :=
  rawList mem (data + 2) n

/-- Entry `i` of the array of entries at `base` as `map_put` reads it: the
key word found through `deRef` and the word `linkVal` makes of the value
slot. -/
def viewAt (H : Host) (mem : Store) (base : Nat) (i : Nat) : Nat × Nat :=
  (mem (H.deRef mem (base + 2 * i)), H.linkVal mem (base + 2 * i + 1))

/-- The `n` entries at `base` as `map_put` reads them. -/
def viewList (H : Host) (mem : Store) (base : Nat) (n : Nat) : List (Nat × Nat) :=
  (List.range n).map (viewAt H mem base)

/-- The two-pointer merge of section 4.4 on sequences of entries: on equal
keys the incoming value replaces the base value, otherwise the entry with the
lower key comes first. -/
def mergeGo (b : Nat × Nat) (rest : List (Nat × Nat) → List (Nat × Nat))
    (B : List (Nat × Nat)) : List (Nat × Nat) → List (Nat × Nat)
  | [] => b :: B
  | i :: I =>
    if b.1 = i.1 then (b.1, i.2) :: rest I
    else if b.1 < i.1 then b :: rest (i :: I)
    else i :: mergeGo b rest B I

/-- The merge of the base entries `B` with the incoming entries `I`. -/
def mergeEntries : List (Nat × Nat) → List (Nat × Nat) → List (Nat × Nat)
  | [] => fun I => I
  | b :: B => mergeGo b (mergeEntries B) B

/-- The store `mem'` differs from `mem` at most in the cells `lo ≤ a < hi`. -/
def AgreeOff (lo hi : Nat) (mem mem' : Store) : Prop :=
  ∀ a, a < lo ∨ hi ≤ a → mem' a = mem a

/-- A key word: a cell that holds `w` is its own dereference, whatever the
cells `lo ≤ a < hi` hold (keys are atoms or tagged integers, not
references). -/
def KeyWord (H : Host) (mem : Store) (lo hi : Nat) (w : Nat) : Prop :=
  ∀ mem' q, AgreeOff lo hi mem mem' → mem' q = w → H.deRef mem' q = q

/-- A link word: `linkVal` of a cell that holds `w` is `w` again, whatever the
cells `lo ≤ a < hi` hold (linking to a link gives the same link). -/
def LinkWord (H : Host) (mem : Store) (lo hi : Nat) (w : Nat) : Prop :=
  ∀ mem' q, AgreeOff lo hi mem mem' → mem' q = w → H.linkVal mem' q = w

/-- The key slot `p` is read the same way whatever the cells `lo ≤ a < hi`
hold: neither the slot, nor its reference chain, nor the key word at its end
lies in that range, and the key word is not a reference. -/
structure KeyStable (H : Host) (mem : Store) (lo hi : Nat) (p : Nat) : Prop where
  deRef_eq : ∀ mem', AgreeOff lo hi mem mem' → H.deRef mem' p = H.deRef mem p
  key_eq : ∀ mem', AgreeOff lo hi mem mem' → mem' (H.deRef mem p) = mem (H.deRef mem p)
  key_word : KeyWord H mem lo hi (mem (H.deRef mem p))

/-- The value slot `p` is linked to in the same way whatever the cells
`lo ≤ a < hi` hold. -/
structure ValStable (H : Host) (mem : Store) (lo hi : Nat) (p : Nat) : Prop where
  linkVal_eq : ∀ mem', AgreeOff lo hi mem mem' → H.linkVal mem' p = H.linkVal mem p
  link_word : LinkWord H mem lo hi (H.linkVal mem p)

/-- The cached functors are the functors `map/i`. -/
def CacheOK (H : Host) (st : PlState) : Prop :=
  ∀ i, st.map_functors i ≠ 0 → st.map_functors i = H.lookupFunctorDef H.ATOM_map i

/-- What the host guarantees about the words that `pl-map.c` builds and
tests: a cell that holds no reference is its own dereference; a pointer to a
compound is no reference, is a term, and points where it was made to point;
`lookupFunctorDef` gives a functor of the name and arity asked for; keys and
functor names are no references. -/
structure HostLaws (H : Host) : Prop where
  deRef_self : ∀ (mem : Store) q, H.isRef (mem q) = false → H.deRef mem q = q
  consPtr_not_ref : ∀ p, H.isRef (H.consPtr p) = false
  isTerm_consPtr : ∀ p, H.isTerm (H.consPtr p) = true
  valueTerm_consPtr : ∀ p, H.valueTerm (H.consPtr p) = p
  arity_lookup : ∀ n, H.arityFunctor (H.lookupFunctorDef H.ATOM_map n) = n
  name_lookup : ∀ n, H.nameFunctor (H.lookupFunctorDef H.ATOM_map n) = H.ATOM_map
  key_not_ref : ∀ w, is_key H w = true → H.isRef w = false
  name_not_ref : ∀ f, H.isRef (H.nameFunctor f) = false

/-- The list element in cell `head` has one of the accepted shapes, with key
`k` and value `v`, whatever the cells `lo ≤ a < hi` hold: it is a compound with
functor cell `f`, and either the functor is that of `Key-Value`, `Key=Value` or
`Key:Value`, the first argument dereferences to the atom or tagged integer `k`
and `v` links to the second argument; or it is another functor of arity 1 with
name `k`, and `v` links to its argument. -/
def ElemShape (H : Host) (mem0 : Store) (lo hi head k v : Nat) : Prop :=
  ∃ f,
    (∀ mem, AgreeOff lo hi mem0 mem →
      H.isTerm (mem (H.deRef mem head)) = true ∧
      H.valueTerm (mem (H.deRef mem head)) = f ∧ mem f = mem0 f) ∧
    (((mem0 f = H.FUNCTOR_minus2 ∨ mem0 f = H.FUNCTOR_equals2 ∨ mem0 f = H.FUNCTOR_colon2) ∧
        is_key H k = true ∧
        ∀ mem, AgreeOff lo hi mem0 mem →
          mem (H.deRef mem (f + 1)) = k ∧ H.linkVal mem (H.deRef mem (f + 2)) = v) ∨
      (¬ (mem0 f = H.FUNCTOR_minus2 ∨ mem0 f = H.FUNCTOR_equals2 ∨
            mem0 f = H.FUNCTOR_colon2) ∧
        H.arityFunctor (mem0 f) = 1 ∧ H.nameFunctor (mem0 f) = k ∧
        ∀ mem, AgreeOff lo hi mem0 mem → H.linkVal mem (H.deRef mem (f + 1)) = v))

/-- The cell `tail` starts a proper list whose elements have the accepted
shapes, with these keys and values in list order, whatever the cells
`lo ≤ a < hi` hold. -/
def ListShape (H : Host) (mem0 : Store) (lo hi : Nat) : Nat → List (Nat × Nat) → Prop
  | tail, [] => ∀ mem, AgreeOff lo hi mem0 mem → H.isList mem (mem tail) = false
  | tail, e :: es =>
    ∃ head tail1,
      (∀ mem, AgreeOff lo hi mem0 mem →
        H.isList mem (mem tail) = true ∧ H.HeadList mem tail = head ∧
        H.deRef mem (H.TailList mem tail) = tail1) ∧
      ElemShape H mem0 lo hi head e.1 e.2 ∧ ListShape H mem0 lo hi tail1 es

/-- The operands of `map_put` are well formed: the base map has `N` entries,
the cached functors are right, and the class slot, the key and value slots of
the base map and the `size` incoming pairs at `nv` are read the same way
whatever is written to the free cells `gTop ≤ a < gMax`. -/
structure PutOperands (H : Host) (st : PlState) (map size nv N : Nat) : Prop where
  arity : H.arityFunctor (st.mem (H.valueTerm map)) = 2 * N + 1
  cache : CacheOK H st
  cls : ValStable H st.mem st.gTop st.gMax (H.valueTerm map + 1)
  base_key : ∀ i, i < N → KeyStable H st.mem st.gTop st.gMax (H.valueTerm map + 2 + 2 * i)
  base_val : ∀ i, i < N → ValStable H st.mem st.gTop st.gMax (H.valueTerm map + 2 + 2 * i + 1)
  in_key : ∀ j, j < size → KeyStable H st.mem st.gTop st.gMax (nv + 2 * j)
  in_val : ∀ j, j < size → ValStable H st.mem st.gTop st.gMax (nv + 2 * j + 1)

/-- The keys of a sequence of entries are strictly increasing. -/
def StrictKeys (L : List (Nat × Nat)) : Prop :=
  List.Pairwise (· < ·) (L.map Prod.fst)

/-- The number of entries of `I` whose key is also a key of `B`. -/
def commonKeys (B I : List (Nat × Nat)) : Nat :=
  (I.filter (fun e => decide (e.1 ∈ B.map Prod.fst))).length

/-- The element in cell `head` has one of the shapes that `get_name_value`
accepts: it is a compound, and either its functor is that of `Key-Value`,
`Key=Value` or `Key:Value` and its first argument dereferences to an atom or
a tagged integer, or its functor has arity 1. -/
def Accepted (H : Host) (mem : Store) (head : Nat) : Prop :=
  H.isTerm (mem (H.deRef mem head)) = true ∧
    (((mem (H.valueTerm (mem (H.deRef mem head))) = H.FUNCTOR_minus2 ∨
        mem (H.valueTerm (mem (H.deRef mem head))) = H.FUNCTOR_equals2 ∨
        mem (H.valueTerm (mem (H.deRef mem head))) = H.FUNCTOR_colon2) ∧
      is_key H (mem (H.deRef mem (H.valueTerm (mem (H.deRef mem head)) + 1))) = true) ∨
    H.arityFunctor (mem (H.valueTerm (mem (H.deRef mem head)))) = 1)

/-- The cell `tail` starts a list whose first elements have the accepted
shapes, with the keys and values `es` in list order, and whose next element,
in cell `bad`, has none, whatever the cells `lo ≤ a < hi` hold. -/
def ListBad (H : Host) (mem0 : Store) (lo hi : Nat) : Nat → List (Nat × Nat) → Nat → Prop
  | tail, [], bad =>
    ∀ mem, AgreeOff lo hi mem0 mem →
      H.isList mem (mem tail) = true ∧ H.HeadList mem tail = bad ∧ ¬ Accepted H mem bad
  | tail, e :: es, bad =>
    ∃ head tail1,
      (∀ mem, AgreeOff lo hi mem0 mem →
        H.isList mem (mem tail) = true ∧ H.HeadList mem tail = head ∧
        H.deRef mem (H.TailList mem tail) = tail1) ∧
      ElemShape H mem0 lo hi head e.1 e.2 ∧ ListBad H mem0 lo hi tail1 es bad

/-- The state in which entry `k` of the map with functor cell `f` is
reported: in the open frame `fid` the value slot of entry `k` has been unified
with the third argument, then the key of entry `k` (the key word of the map
as it is when the frame is opened) with the second, and the frame has been
closed. -/
def entrySolution (H : Host) (fid : PlState) (f A2 A3 : Nat) (k : Nat) : PlState :=
  let u1 := H.unify_ptrs fid (f + 2 + 2 * k + 1) (H.valTermRef A3)
  H.PL_close_foreign_frame fid (H._PL_unify_atomic u1.2 A2 (keyAt H fid.mem f k)).2

namespace Demo

/-- The atom with index `i`. -/
def atom (i : Nat) : Nat := 8 * i + 4

/-- The tagged integer `i`. -/
def int (i : Nat) : Nat := 8 * i + 3

/-- A reference to the cell at `p`. -/
def ref (p : Nat) : Nat := 8 * p + 7

/-- A pointer to the compound whose functor cell is at `p`. -/
def compound (p : Nat) : Nat := 8 * p + 6

/-- The functor with the name of atom index `name` (below 32) and this arity. -/
def functor (name arity : Nat) : Nat := 8 * (32 * arity + name) + 5

/-- Follow at most `n` references from the cell at `p`. -/
def deRefN (mem : Store) : Nat → Nat → Nat
  | 0, p => p
  | n + 1, p => if mem p % 8 = 7 then deRefN mem n (mem p / 8) else p

/-- A word that needs a reference to be shared: an unbound or attributed
variable. -/
def needsRef (w : Nat) : Bool := w = 0 || w % 8 = 1

/-- The loop of `linkVal` over a reference chain of at most `n` links. -/
def linkValN (mem : Store) : Nat → Nat → Nat
  | 0, w => w
  | n + 1, w =>
    if w % 8 = 7 then
      if needsRef (mem (w / 8)) then w else linkValN mem n (mem (w / 8))
    else w

/-- In C: `linkVal(p)` -/
def linkVal (mem : Store) (p : Nat) : Nat :=
  if needsRef (mem p) then ref p else linkValN mem 16 (mem p)

/-- A shallow `compareStandard`: the dereferenced words are compared, two
unbound variables by address. -/
def compareStandard (mem : Store) (p q : Nat) (_eq : Bool) : Int :=
  let p1 := deRefN mem 16 p
  let q1 := deRefN mem 16 q
  if mem p1 = 0 ∧ mem q1 = 0 then
    (if p1 < q1 then -1 else if q1 < p1 then 1 else 0)
  else if mem p1 < mem q1 then -1 else if mem q1 < mem p1 then 1 else 0

/-- Is the word a list cell, a compound with the functor of atom 5 and arity 2. -/
def isList (mem : Store) (w : Nat) : Bool :=
  w % 8 = 6 && mem (w / 8) = functor 5 2

/-- The length of the list starting in cell `p`, `-1` if it does not end in
the atom `[]` (index 6) within `n` cells. -/
def lengthListN (mem : Store) : Nat → Nat → Int
  | 0, _ => -1
  | n + 1, p =>
    let q := deRefN mem 16 p
    if mem q = atom 6 then 0
    else if isList mem (mem q) then
      (let r := lengthListN mem n (mem q / 8 + 2)
       if r < 0 then -1 else r + 1)
    else -1

/-- A shallow unification of the cells `p` and `q`: an unbound variable at the
end of the chain of `q`, else of `p`, is bound to the other side; two bound
cells unify if they hold the same word. -/
def unify_ptrs (st : PlState) (p q : Nat) : Bool × PlState :=
  let p1 := deRefN st.mem 16 p
  let q1 := deRefN st.mem 16 q
  if p1 = q1 then (true, st)
  else if st.mem q1 = 0 then (true, { st with mem := store st.mem q1 (linkVal st.mem p1) })
  else if st.mem p1 = 0 then (true, { st with mem := store st.mem p1 (linkVal st.mem q1) })
  else (decide (st.mem p1 = st.mem q1), st)

/-- Unification of the cell `p` with the atomic word `w`. -/
def unify_atomic (st : PlState) (p w : Nat) : Bool × PlState :=
  let p1 := deRefN st.mem 16 p
  if st.mem p1 = 0 then (true, { st with mem := store st.mem p1 w })
  else (decide (st.mem p1 = w), st)

/-- The concrete host. -/
def host : Host where
  isRef := fun w => w % 8 = 7
  unRef := fun w => w / 8
  deRef := fun mem p => deRefN mem 16 p
  linkVal := linkVal
  setVar := 0
  isTerm := fun w => w % 8 = 6
  valueTerm := fun w => w / 8
  consPtr := compound
  isAtom := fun w => w % 8 = 4
  isTaggedInt := fun w => w % 8 = 3
  arityFunctor := fun f => f / 8 / 32
  nameFunctor := fun f => atom (f / 8 % 32)
  lookupFunctorDef := fun name arity => functor (name / 8 % 32) arity
  ATOM_map := atom 1
  FUNCTOR_minus2 := functor 2 2
  FUNCTOR_equals2 := functor 3 2
  FUNCTOR_colon2 := functor 4 2
  compareStandard := compareStandard
  valTermRef := fun t => 100 + t
  PL_new_term_ref := fun st =>
    (st.mem 100 + 1,
      { st with mem := store (store st.mem 100 (st.mem 100 + 1)) (100 + (st.mem 100 + 1)) 0 })
  PL_put_term := fun mem t1 t2 => store mem (100 + t1) (linkVal mem (100 + t2))
  PL_is_list := fun mem t =>
    mem (deRefN mem 16 (100 + t)) = atom 6 || isList mem (mem (deRefN mem 16 (100 + t)))
  lengthList := fun mem t => lengthListN mem 64 (100 + t)
  isList := isList
  HeadList := fun mem p => mem p / 8 + 1
  TailList := fun mem p => mem p / 8 + 2
  canBind := needsRef
  unify_ptrs := unify_ptrs
  _PL_unify_atomic := fun st t w => unify_atomic st (100 + t) w
  exception_term := fun _ => false
  PL_open_foreign_frame := fun st => some st
  PL_close_foreign_frame := fun _ st => st
  PL_rewind_foreign_frame := fun fid _ => fid

/-- The cells given by a list, from address 0 on; every other cell is 0. -/
def cells (l : List Nat) : Store := fun a => l.getD a 0

/-- A state with these cells, the global stack ending at `top`, room up to
`max`, and no cached functor. -/
def state (mem : Store) (top max : Nat) : PlState :=
  { mem := mem, gTop := top, gMax := max, map_functors := fun _ => 0 }

end Demo

namespace Demo

/-- The map `_{a:1, b:2}` at address 0 (atoms `a`, `b` have index 7, 8), with
term reference 1 pointing to it. -/
def abMap : Store :=
  store (cells [functor 1 5, 0, atom 7, int 1, atom 8, int 2]) 101 (compound 0)

/-- The empty map `map(_)`, as built from the empty list, at address 0. -/
def emptyMap : Store :=
  cells [functor 1 1, 0]

/-- Two maps one after the other on the global stack, which ends at address
10: `_{x:3}` at address 0 and `point{x:1, y:point}` at address 4 (atoms `x`,
`y`, `point` have index 9, 10, 11). -/
def twoMaps : Store :=
  cells [functor 1 3, 0, atom 9, int 3,
         functor 1 5, atom 11, atom 9, int 1, atom 10, atom 11]

/-- The map `_{a:1, b:7, c:3}` at address 0 and the map `_{a:1, c:3}` of two of
its entries at address 8 (atom `c` has index 12); the global stack ends at
address 14. -/
def subMaps : Store :=
  cells [functor 1 7, 0, atom 7, int 1, atom 8, int 7, atom 12, int 3,
         functor 1 5, 0, atom 7, int 1, atom 12, int 3]

/-- The list `[k1-v1, k2-v2]` on the global stack, which ends at address 12:
the two pairs at addresses 0 and 3, the list cells at 6 (the second and last)
and 9 (the first); term reference 1 points to the list. -/
def pairList (k1 v1 k2 v2 : Nat) : Store :=
  store (cells [functor 2 2, k1, v1, functor 2 2, k2, v2,
                functor 5 2, compound 3, atom 6, functor 5 2, compound 0, compound 6])
    101 (compound 9)

/-- The term `x(B, 99)` at address 0, with `B` bound to `b`, and the map
`map(_, a, 1, B, 2)` at address 3, whose second key slot is a reference to the
cell of `B`; the global stack ends at address 9.  Term reference 1 points to
the map, term reference 2 holds `b`, term reference 3 is unbound. -/
def refKeyMap : Store :=
  store (store (cells [functor 9 2, atom 8, int 99,
                       functor 1 5, 0, atom 7, int 1, ref 1, int 2]) 101 (compound 3))
    102 (atom 8)

/-- Two cells of garbage at address 0 and the map `_{a:1, b:2}` at address 2;
the global stack ends at address 8.  Term reference 1 points to the map, term
references 2 and 3 are unbound. -/
def gcMap : Store :=
  store (cells [atom 9, atom 9, functor 1 5, 0, atom 7, int 1, atom 8, int 2]) 101 (compound 2)

/-- The word `w` after the cells of the global stack from `d` up to `top` have
moved `d` cells down: a pointer or a reference to one of these cells is
adjusted. -/
def relocate (d top w : Nat) : Nat :=
  if (w % 8 = 6 ∨ w % 8 = 7) ∧ d ≤ w / 8 ∧ w / 8 < top then w - 8 * d else w

/-- A garbage collection of a global stack whose lowest `d` cells are
garbage: the cells above them slide `d` cells down, the `d` cells freed at the
top are cleared, the pointers into the global stack are adjusted, in the
global stack and in the term references, and the top comes down by `d`. -/
def collect (d : Nat) (st : PlState) : PlState :=
  { st with
    mem := fun a =>
      if a + d < st.gTop then relocate d st.gTop (st.mem (a + d))
      else if a < st.gTop then 0
      else relocate d st.gTop (st.mem a)
    gTop := st.gTop - d }

/-- The concrete host with a `unify_ptrs` that makes use of `ALLOW_GC`: having
unified, it collects the two cells of garbage at the bottom of the global
stack. -/
def gcHost : Host :=
  { host with
    unify_ptrs := fun st p q => ((unify_ptrs st p q).1, collect 2 (unify_ptrs st p q).2) }

end Demo

/-! ## The binary search -/

theorem nat_lor_one (n : Nat) : n ||| 1 = 2 * (n / 2) + 1 := by
  have h1 : (n ||| 1) % 2 = 1 := by
    rw [Nat.or_mod_two_eq_one]; right; rfl
  have h2 : (n ||| 1) / 2 = n / 2 := by
    rw [Nat.or_div_two]; simp
  omega

/-- The probe between two odd argument indices, in terms of entry numbers. -/
theorem map_lookup_mid_entries (a b : Nat) :
    map_lookup_mid (2 * (a : Int) + 1) (2 * (b : Int) + 1)
      = 2 * (((a + b + 1) / 2 : Nat) : Int) + 1 := by
  unfold map_lookup_mid
  have h : (2 * (a : Int) + 1 + (2 * (b : Int) + 1)).tdiv 2 = ((a + b + 1 : Nat) : Int) := by
    have : (2 * (a : Int) + 1 + (2 * (b : Int) + 1)) = ((2 * (a + b + 1) : Nat) : Int) := by
      push_cast; ring
    rw [this, Int.tdiv_eq_ediv (by positivity) (by decide)]
    norm_cast
    omega
  rw [h]
  show ((((a + b + 1) ||| 1 : Nat)) : Int) = _
  rw [nat_lor_one]
  push_cast
  rfl

/-- The cell probed at entry `c`. -/
theorem probe_address (data c : Nat) :
    ((data : Int) + 1 + (2 * (c : Int) + 1)).toNat = data + 2 + 2 * c := by
  omega

/-- One pass of the loop of `map_lookup_ptr`, in terms of entry numbers. -/
theorem map_lookup_iter_entries (H : Host) (mem : Store) (data : Nat) (name : Nat)
    (a b : Nat) :
    map_lookup_iter H mem data name (2 * (a : Int) + 1) (2 * (b : Int) + 1) =
      (if keyAt H mem data ((a + b + 1) / 2) = name then
        .ret (some (H.deRef mem (data + 2 + 2 * ((a + b + 1) / 2)) + 1))
      else if a = b then .ret none
      else if keyAt H mem data ((a + b + 1) / 2) < name then
        .next (2 * (((a + b + 1) / 2 : Nat) : Int) + 1) (2 * (b : Int) + 1)
      else if (a + b + 1) / 2 < b then
        .next (2 * (a : Int) + 1) (2 * (((a + b + 1) / 2 : Nat) : Int) + 1)
      else .next (2 * (a : Int) + 1) (2 * (((a + b + 1) / 2 : Nat) : Int) + 1 - 2)) := by
  unfold map_lookup_iter
  simp only [map_lookup_mid_entries, probe_address, keyAt]
  have e1 : (2 * (a : Int) + 1 = 2 * (b : Int) + 1) ↔ a = b := by omega
  have e2 : (2 * (b : Int) + 1 > 2 * (((a + b + 1) / 2 : Nat) : Int) + 1)
      ↔ (a + b + 1) / 2 < b := by
    omega
  simp only [e1, e2]

/-- Keys that increase from each entry to the next increase along the array. -/
theorem keys_strict_mono (key : Nat → Nat) (N : Nat)
    (hadj : ∀ i, i + 1 < N → key i < key (i + 1)) :
    ∀ i j, i < j → j < N → key i < key j := by
  intro i j hij
  induction j with
  | zero => omega
  | succ j ih =>
    intro hj
    rcases Nat.lt_or_ge i j with h | h
    · exact lt_trans (ih h (by omega)) (hadj j hj)
    · have : i = j := by omega
      subst this
      exact hadj i hj

/-- The search finds the entry that holds the key, in an ordered array. -/
theorem map_lookup_loop_hit (H : Host) (mem : Store) (data : Nat) (name : Nat) (N t : Nat)
    (hmono : ∀ i j, i < j → j < N → keyAt H mem data i < keyAt H mem data j)
    (hname : keyAt H mem data t = name) :
    ∀ fuel a b, a ≤ t → t ≤ b → b < N → b - a < fuel →
      map_lookup_loop H mem data name fuel (2 * (a : Int) + 1) (2 * (b : Int) + 1)
        = some (some (H.deRef mem (data + 2 + 2 * t) + 1)) := by
  intro fuel
  induction fuel with
  | zero => intro a b _ _ _ h; omega
  | succ fuel ih =>
    intro a b hat htb hbN hfuel
    rw [map_lookup_loop, map_lookup_iter_entries]
    by_cases hk : keyAt H mem data ((a + b + 1) / 2) = name
    · have hc : (a + b + 1) / 2 = t := by
        by_contra hne
        rcases Nat.lt_or_gt_of_ne hne with h | h
        · have := hmono _ _ h (by omega)
          rw [hk, hname] at this
          exact lt_irrefl _ this
        · have := hmono _ _ h (by omega)
          rw [hk, hname] at this
          exact lt_irrefl _ this
      rw [if_pos hk, hc]
    · rw [if_neg hk]
      by_cases hab : a = b
      · exfalso
        subst hab
        have : (a + a + 1) / 2 = t := by omega
        rw [this] at hk
        exact hk hname
      · rw [if_neg hab]
        have hct : (a + b + 1) / 2 ≠ t := fun h => hk (h ▸ hname)
        by_cases hlt : keyAt H mem data ((a + b + 1) / 2) < name
        · rw [if_pos hlt]
          have hc : (a + b + 1) / 2 < t := by
            by_contra hge
            have h2 : t < (a + b + 1) / 2 := by omega
            have := hmono _ _ h2 (by omega)
            rw [hname] at this
            exact lt_asymm this hlt
          exact ih _ _ (by omega) htb hbN (by omega)
        · rw [if_neg hlt]
          have hc : t < (a + b + 1) / 2 := by
            by_contra hge
            have h2 : (a + b + 1) / 2 < t := by omega
            have := hmono _ _ h2 (by omega)
            rw [hname] at this
            exact hlt this
          by_cases hb : (a + b + 1) / 2 < b
          · rw [if_pos hb]
            exact ih _ _ hat (by omega) (by omega) (by omega)
          · rw [if_neg hb]
            have e : (2 * (((a + b + 1) / 2 : Nat) : Int) + 1 - 2)
                = 2 * (((a + b + 1) / 2 - 1 : Nat) : Int) + 1 := by omega
            rw [e]
            exact ih _ _ hat (by omega) (by omega) (by omega)

/-- The search returns `NULL` when no entry in its range holds the key. -/
theorem map_lookup_loop_miss (H : Host) (mem : Store) (data : Nat) (name : Nat) :
    ∀ fuel a b, a ≤ b → (∀ i, a ≤ i → i ≤ b → keyAt H mem data i ≠ name) →
      b - a < fuel →
      map_lookup_loop H mem data name fuel (2 * (a : Int) + 1) (2 * (b : Int) + 1)
        = some none := by
  intro fuel
  induction fuel with
  | zero => intro a b _ _ h; omega
  | succ fuel ih =>
    intro a b hab hkeys hfuel
    rw [map_lookup_loop, map_lookup_iter_entries]
    rw [if_neg (hkeys _ (by omega) (by omega))]
    by_cases hab2 : a = b
    · rw [if_pos hab2]
    · rw [if_neg hab2]
      by_cases hlt : keyAt H mem data ((a + b + 1) / 2) < name
      · rw [if_pos hlt]
        exact ih _ _ (by omega) (fun i h1 h2 => hkeys i (by omega) h2) (by omega)
      · rw [if_neg hlt]
        by_cases hb : (a + b + 1) / 2 < b
        · rw [if_pos hb]
          exact ih _ _ (by omega) (fun i h1 h2 => hkeys i h1 (by omega)) (by omega)
        · rw [if_neg hb]
          have e : (2 * (((a + b + 1) / 2 : Nat) : Int) + 1 - 2)
              = 2 * (((a + b + 1) / 2 - 1 : Nat) : Int) + 1 := by omega
          rw [e]
          exact ih _ _ (by omega) (fun i h1 h2 => hkeys i h1 (by omega)) (by omega)

/-- On a term of arity 1 the loop of `map_lookup_ptr` stays at `l = 1`,
`h = -1`: it returns a pointer or goes on, it never returns `NULL`. -/
theorem map_lookup_loop_empty (H : Host) (mem : Store) (data : Nat) (name : Nat) :
    ∀ fuel, map_lookup_loop H mem data name fuel 1 (-1) ≠ some none := by
  intro fuel
  induction fuel with
  | zero => simp [map_lookup_loop]
  | succ fuel ih =>
    rw [map_lookup_loop]
    have hm : map_lookup_mid 1 (-1) = 1 := by decide
    unfold map_lookup_iter
    simp only [hm]
    split_ifs <;> simp_all

/-! ## `map_ordered` -/

theorem map_ordered_loop_iff (H : Host) (mem : Store) :
    ∀ count data,
      map_ordered_loop H mem count data (H.deRef mem data) = true ↔
        ∀ i, i + 1 < count →
          mem (H.deRef mem (data + 2 * i)) < mem (H.deRef mem (data + 2 * (i + 1))) := by
  intro count
  induction count with
  | zero => intro data; simp [map_ordered_loop]
  | succ count ih =>
    intro data
    rw [map_ordered_loop]
    by_cases hc : count + 1 > 1
    · rw [if_pos hc]
      by_cases hge : mem (H.deRef mem data) ≥ mem (H.deRef mem (data + 2))
      · simp only [hge, if_true]
        constructor
        · intro h; cases h
        · intro h
          have := h 0 (by omega)
          simp at this
          omega
      · simp only [hge, if_false]
        rw [ih (data + 2)]
        constructor
        · intro h i hi
          cases i with
          | zero => simpa using (not_le.mp hge)
          | succ i =>
            have := h i (by omega)
            have e1 : data + 2 + 2 * i = data + 2 * (i + 1) := by ring
            have e2 : data + 2 + 2 * (i + 1) = data + 2 * (i + 1 + 1) := by ring
            rwa [e1, e2] at this
        · intro h i hi
          have := h (i + 1) (by omega)
          have e1 : data + 2 + 2 * i = data + 2 * (i + 1) := by ring
          have e2 : data + 2 + 2 * (i + 1) = data + 2 * (i + 1 + 1) := by ring
          rwa [e1, e2]
    · rw [if_neg hc]
      simp only [true_iff]
      intro i hi
      omega

/-- The function `map_ordered` on the entries of a term holds exactly when each key is
smaller than the next. -/
theorem map_ordered_iff (H : Host) (mem : Store) (data : Nat) (count : Nat) :
    map_ordered H mem (data + 2) count = true ↔
      ∀ i, i + 1 < count → keyAt H mem data i < keyAt H mem data (i + 1) := by
  unfold map_ordered keyAt
  exact map_ordered_loop_iff H mem count (data + 2)

/-! ## Lookup (C1, C2) -/

/-- The function `map_lookup_ptr` returns `NULL` on a map with at least one entry none of
whose keys is the one looked up. -/
theorem map_lookup_ptr_miss (H : Host) (mem : Store) (map name : Nat) (N fuel : Nat)
    (harity : H.arityFunctor (mem (H.valueTerm map)) = 2 * N + 1) (hN : 0 < N)
    (hkeys : ∀ i, i < N → keyAt H mem (H.valueTerm map) i ≠ name)
    (hfuel : N ≤ fuel) :
    map_lookup_ptr H mem fuel map name = some none := by
  unfold map_lookup_ptr
  simp only [harity]
  have e : (((2 * N + 1 : Nat) : Int) - 2) = 2 * ((N - 1 : Nat) : Int) + 1 := by omega
  rw [e]
  have := map_lookup_loop_miss H mem (H.valueTerm map) name fuel 0 (N - 1) (by omega)
    (fun i _ h2 => hkeys i (by omega)) (by omega)
  simpa using this

/-- Lookup hit where the key slot is no reference.  Let `map` be a valid map:
its arity is odd and `map_ordered` holds for its entries (the keys increase
strictly in raw word order).  For every entry `i` whose key slot holds the key
itself, `map_lookup_ptr` called with that key returns the value slot of entry
`i`, the slot right after the key slot, as soon as it is given as many
iterations as the map has entries. -/
theorem map_lookup_ptr_hit (H : Host) (mem : Store) (map : Nat) (i fuel : Nat)
    (hodd : H.arityFunctor (mem (H.valueTerm map)) % 2 = 1)
    (hord : map_ordered H mem (H.valueTerm map + 2)
      (H.arityFunctor (mem (H.valueTerm map)) / 2) = true)
    (hi : i < H.arityFunctor (mem (H.valueTerm map)) / 2)
    (hslot : H.deRef mem (H.valueTerm map + 2 + 2 * i) = H.valueTerm map + 2 + 2 * i)
    (hfuel : H.arityFunctor (mem (H.valueTerm map)) / 2 ≤ fuel) :
    map_lookup_ptr H mem fuel map (mem (H.valueTerm map + 2 + 2 * i))
      = some (some (H.valueTerm map + 2 + 2 * i + 1)) := by
  unfold map_lookup_ptr
  obtain ⟨A, hA⟩ : ∃ A, H.arityFunctor (mem (H.valueTerm map)) = A := ⟨_, rfl⟩
  simp only [hA] at hodd hord hi hfuel ⊢
  have hmono := keys_strict_mono (keyAt H mem (H.valueTerm map)) (A / 2)
    ((map_ordered_iff H mem (H.valueTerm map) (A / 2)).mp hord)
  have e : ((A : Int) - 2) = 2 * ((A / 2 - 1 : Nat) : Int) + 1 := by omega
  simp only [e]
  have hname : keyAt H mem (H.valueTerm map) i = mem (H.valueTerm map + 2 + 2 * i) := by
    unfold keyAt; rw [hslot]
  have := map_lookup_loop_hit H mem (H.valueTerm map) _ (A / 2) i hmono hname fuel 0
    (A / 2 - 1) (by omega) (by omega) (by omega) (by omega)
  rw [hslot] at this
  simpa using this

/-- At the map `_{a:1, b:2}`, whose key slots hold the keys themselves,
looking up `b` returns the address of the slot that holds 2. -/
theorem map_lookup_ptr_hit_witness :
    map_lookup_ptr Demo.host Demo.abMap 2 (Demo.compound 0) (Demo.atom 8) = some (some 5) :=
  map_lookup_ptr_hit Demo.host Demo.abMap (Demo.compound 0) 1 2
    (by decide) (by decide) (by decide) (by decide) (by decide)

/-- C1 (lookup hit) fails on a valid map with a key slot that is a reference.
The map `map(_, a, 1, B, 2)` at address 3, with `B` bound to `b` in the cell of
the older term `x(B, 99)`, passes `PL_is_map`; its entry 1 has the key `b`
(read through `deRef`, as `PL_is_map` and the search read it) and its value
slot, at address 8, holds 2.  Looking up `b`, `map_lookup_ptr` returns address
2, the cell after the dereferenced key cell, which holds 99, not the value slot
8; and `map_get/3` called with the key `b` and an unbound third argument
returns `TRUE` with the third argument bound to 99. -/
theorem map_lookup_ptr_ref_key :
    PL_is_map Demo.host (Demo.state Demo.refKeyMap 9 64) 1 = true ∧
    keyAt Demo.host Demo.refKeyMap 3 1 = Demo.atom 8 ∧
    entriesOf Demo.refKeyMap 3 2
      = [(Demo.atom 7, Demo.int 1), (Demo.ref 1, Demo.int 2)] ∧
    map_lookup_ptr Demo.host Demo.refKeyMap 2 (Demo.compound 3) (Demo.atom 8)
      = some (some 2) ∧
    Demo.refKeyMap 2 = Demo.int 99 ∧ Demo.refKeyMap 8 = Demo.int 2 ∧
    (map_get Demo.host 2 (Demo.state Demo.refKeyMap 9 64) Control.FRG_FIRST_CALL 0 1 2 3).map
      (fun r => (r.1, r.2.mem 103)) = some (ForeignRet.ret Outcome.TRUE, Demo.int 99) :=
  ⟨by decide, by decide, by decide, by decide, by decide, by decide, by decide⟩

/-- On a term of arity 1 the first probe of `map_lookup_ptr` is argument 1,
behind the only argument, and the function never returns `NULL`. -/
theorem map_lookup_ptr_arity_one (H : Host) (mem : Store) (map name : Nat)
    (harity : H.arityFunctor (mem (H.valueTerm map)) = 1) :
    map_lookup_mid 1 ((H.arityFunctor (mem (H.valueTerm map)) : Int) - 2) = 1 ∧
      ∀ fuel, map_lookup_ptr H mem fuel map name ≠ some none := by
  unfold map_lookup_ptr
  simp only [harity]
  exact ⟨by decide, fun fuel => map_lookup_loop_empty H mem _ name fuel⟩

/-- C2 (lookup miss) fails on the empty map.  For the map of arity 1 that
construction from the empty list produces, and the key `a`, which is not a key
of the map: the first probe is argument 1, which is not below the arity (the
argument array has index 0 only), and `map_lookup_ptr` does not return `NULL`,
however many iterations it is given. -/
theorem map_lookup_ptr_empty_map :
    Demo.host.arityFunctor (Demo.emptyMap (Demo.host.valueTerm (Demo.compound 0))) = 1 ∧
    ¬ map_lookup_mid 1 (1 - 2) < 1 ∧
    ∀ fuel, map_lookup_ptr Demo.host Demo.emptyMap fuel (Demo.compound 0) (Demo.atom 7)
      ≠ some none :=
  ⟨by decide, by decide,
    (map_lookup_ptr_arity_one Demo.host Demo.emptyMap (Demo.compound 0) (Demo.atom 7)
      (by decide)).2⟩

/-! ## The validity predicate (C7, C8) -/

/-- C7 (validity predicate).  `PL_is_map(t)` is true if and only if `t`
dereferences to a compound whose functor has the name `map` and odd arity and
whose keys (arguments 1, 3, 5, ..., read through `deRef` as the code does)
increase strictly in raw word order from each entry to the next; and a term
accepted by `PL_is_map` has no two equal keys at any two positions. -/
theorem PL_is_map_iff (H : Host) (st : PlState) (t : Nat) :
    (PL_is_map H st t = true ↔
      H.isTerm (st.mem (H.deRef st.mem (H.valTermRef t))) = true ∧
      H.nameFunctor (st.mem (H.valueTerm (st.mem (H.deRef st.mem (H.valTermRef t)))))
        = H.ATOM_map ∧
      H.arityFunctor (st.mem (H.valueTerm (st.mem (H.deRef st.mem (H.valTermRef t))))) % 2
        = 1 ∧
      ∀ i, i + 1 < H.arityFunctor
          (st.mem (H.valueTerm (st.mem (H.deRef st.mem (H.valTermRef t))))) / 2 →
        keyAt H st.mem (H.valueTerm (st.mem (H.deRef st.mem (H.valTermRef t)))) i
          < keyAt H st.mem (H.valueTerm (st.mem (H.deRef st.mem (H.valTermRef t)))) (i + 1)) ∧
    (PL_is_map H st t = true →
      ∀ i j, i < H.arityFunctor
          (st.mem (H.valueTerm (st.mem (H.deRef st.mem (H.valTermRef t))))) / 2 →
        j < H.arityFunctor
          (st.mem (H.valueTerm (st.mem (H.deRef st.mem (H.valTermRef t))))) / 2 →
        i ≠ j →
        keyAt H st.mem (H.valueTerm (st.mem (H.deRef st.mem (H.valTermRef t)))) i
          ≠ keyAt H st.mem (H.valueTerm (st.mem (H.deRef st.mem (H.valTermRef t)))) j) := by
  have hiff : PL_is_map H st t = true ↔
      H.isTerm (st.mem (H.deRef st.mem (H.valTermRef t))) = true ∧
      H.nameFunctor (st.mem (H.valueTerm (st.mem (H.deRef st.mem (H.valTermRef t)))))
        = H.ATOM_map ∧
      H.arityFunctor (st.mem (H.valueTerm (st.mem (H.deRef st.mem (H.valTermRef t))))) % 2
        = 1 ∧
      ∀ i, i + 1 < H.arityFunctor
          (st.mem (H.valueTerm (st.mem (H.deRef st.mem (H.valTermRef t))))) / 2 →
        keyAt H st.mem (H.valueTerm (st.mem (H.deRef st.mem (H.valTermRef t)))) i
          < keyAt H st.mem (H.valueTerm (st.mem (H.deRef st.mem (H.valTermRef t)))) (i + 1) := by
    unfold PL_is_map
    simp only []
    by_cases hterm : H.isTerm (st.mem (H.deRef st.mem (H.valTermRef t))) = true
    · rw [if_pos hterm]
      simp only [Bool.and_eq_true, decide_eq_true_eq, map_ordered_iff, hterm, true_and]
    · rw [if_neg hterm]
      simp [hterm]
  refine ⟨hiff, fun h i j hi hj hij => ?_⟩
  obtain ⟨-, -, -, hadj⟩ := hiff.mp h
  have hmono := keys_strict_mono _ _ hadj
  rcases Nat.lt_or_gt_of_ne hij with h1 | h1
  · exact ne_of_lt (hmono i j h1 hj)
  · exact ne_of_gt (hmono j i h1 hi)

/-- C3 (merge correctness) fails.  `m1 = point{x:1, y:point}` and `m2 = _{x:3}`
are valid maps, `m2` lying right before `m1` on the stack.
`map_put(m1, 1, entries of m2)` returns `TRUE` with `m1` itself, whose entries
are `x:1, y:point`, and not the union `x:3, y:point` in which the value of `m2`
wins: after the keys `x` matched, the code compared the cell behind `m2` (the
class slot of `m1`, `point`) with the value of `y` in `m1` (`point`), found
them equal and took the update for a no-op. -/
theorem map_put_merge_lost :
    PL_is_map Demo.host (Demo.state (store Demo.twoMaps 101 (Demo.compound 4)) 10 64) 1 = true ∧
    PL_is_map Demo.host (Demo.state (store Demo.twoMaps 101 (Demo.compound 0)) 10 64) 1 = true ∧
    entriesOf Demo.twoMaps 0 1 = [(Demo.atom 9, Demo.int 3)] ∧
    (map_put Demo.host (Demo.state Demo.twoMaps 10 64) (Demo.compound 4) 1 2 0).map
        (fun r => (r.rc, r.new_map, entriesOf r.st.mem (Demo.host.valueTerm r.new_map) 2))
      = some (PutRc.TRUE, Demo.compound 4,
          [(Demo.atom 9, Demo.int 1), (Demo.atom 10, Demo.atom 11)]) := by
  refine ⟨by decide, by decide, by decide, by decide⟩

/-- C4 (single-entry put then lookup) fails.  With `m = point{x:1, y:point}`
and the one incoming entry `x:3` (the argument array of `_{x:3}`, as
`map_put/3` passes it), `map_put(m, 1, [x, 3])` returns `TRUE` with a map in
which `map_lookup_ptr` finds for `x` the slot at address 7, and that slot holds
`1`, not `3`. -/
theorem map_put_single_lookup_stale :
    (map_put Demo.host (Demo.state Demo.twoMaps 10 64) (Demo.compound 4) 1 2 0).map
        (fun r => (r.rc, map_lookup_ptr Demo.host r.st.mem 2 r.new_map (Demo.atom 9),
          r.st.mem 7))
      = some (PutRc.TRUE, some (some 7), Demo.int 1) ∧
    Demo.twoMaps 2 = Demo.atom 9 ∧ Demo.twoMaps 3 = Demo.int 3 ∧
    Demo.int 1 ≠ Demo.int 3 := by
  refine ⟨by decide, by decide, by decide, by decide⟩

/-- C5 (put no-op law) fails.  Every entry of the incoming sequence `a:1, c:3`
is an entry of `m = _{a:1, b:7, c:3}` with the same value, yet
`map_put(m, 2, [a, 1, c, 3])` does not return `m` (the compound at address 0):
it builds a new map at the old top of the stack, address 14, with the same
three entries.  After the keys `a` matched, the code compared the value of the
next incoming entry (`3`) with the value of the next entry of `m` (`7`). -/
theorem map_put_noop_missed :
    entriesOf Demo.subMaps 0 3
      = [(Demo.atom 7, Demo.int 1), (Demo.atom 8, Demo.int 7), (Demo.atom 12, Demo.int 3)] ∧
    entriesOf Demo.subMaps 8 2 = [(Demo.atom 7, Demo.int 1), (Demo.atom 12, Demo.int 3)] ∧
    (map_put Demo.host (Demo.state Demo.subMaps 14 64) (Demo.compound 0) 2 10 0).map
        (fun r => (r.rc, r.new_map, r.st.gTop,
          entriesOf r.st.mem (Demo.host.valueTerm r.new_map) 3))
      = some (PutRc.TRUE, Demo.compound 14, 22,
          [(Demo.atom 7, Demo.int 1), (Demo.atom 8, Demo.int 7), (Demo.atom 12, Demo.int 3)]) ∧
    Demo.compound 14 ≠ Demo.compound 0 := by
  refine ⟨by decide, by decide, by decide, by decide⟩

/-! ## The merge of two sequences of entries -/

theorem mergeEntries_nil_left (I : List (Nat × Nat)) : mergeEntries [] I = I := rfl

theorem mergeEntries_nil_right (B : List (Nat × Nat)) : mergeEntries B [] = B := by
  cases B <;> rfl

theorem mergeEntries_cons_cons (b i : Nat × Nat) (B I : List (Nat × Nat)) :
    mergeEntries (b :: B) (i :: I) =
      if b.1 = i.1 then (b.1, i.2) :: mergeEntries B I
      else if b.1 < i.1 then b :: mergeEntries B (i :: I)
      else i :: mergeEntries (b :: B) I := by
  rfl

/-- Merging a sequence into itself changes nothing. -/
theorem mergeEntries_self (I : List (Nat × Nat)) : mergeEntries I I = I := by
  induction I with
  | nil => rfl
  | cons i I ih => rw [mergeEntries_cons_cons, if_pos rfl, ih]

/-- Merging the incoming entries a second time changes nothing. -/
theorem mergeEntries_idem (B I : List (Nat × Nat)) :
    mergeEntries (mergeEntries B I) I = mergeEntries B I := by
  induction B generalizing I with
  | nil => rw [mergeEntries_nil_left, mergeEntries_self]
  | cons b B ihB =>
    induction I with
    | nil => rw [mergeEntries_nil_right, mergeEntries_nil_right]
    | cons i I ihI =>
      rw [mergeEntries_cons_cons]
      by_cases h1 : b.1 = i.1
      · rw [if_pos h1, mergeEntries_cons_cons, if_pos h1, ihB]
      · rw [if_neg h1]
        by_cases h2 : b.1 < i.1
        · rw [if_pos h2, mergeEntries_cons_cons, if_neg h1, if_pos h2, ihB]
        · rw [if_neg h2, mergeEntries_cons_cons, if_pos rfl, ihI]

/-- Every entry of the merge has its key and its value from one of the two
sequences. -/
theorem mem_mergeEntries (B I : List (Nat × Nat)) (e : Nat × Nat)
    (he : e ∈ mergeEntries B I) :
    (e.1 ∈ B.map Prod.fst ∨ e.1 ∈ I.map Prod.fst) ∧
      (e.2 ∈ B.map Prod.snd ∨ e.2 ∈ I.map Prod.snd) := by
  induction B generalizing I with
  | nil =>
    rw [mergeEntries_nil_left] at he
    exact ⟨Or.inr (List.mem_map_of_mem _ he), Or.inr (List.mem_map_of_mem _ he)⟩
  | cons b B ihB =>
    induction I with
    | nil =>
      rw [mergeEntries_nil_right] at he
      exact ⟨Or.inl (List.mem_map_of_mem _ he), Or.inl (List.mem_map_of_mem _ he)⟩
    | cons i I ihI =>
      rw [mergeEntries_cons_cons] at he
      by_cases h1 : b.1 = i.1
      · rw [if_pos h1] at he
        rcases List.mem_cons.mp he with h | h
        · subst h
          simp
        · obtain ⟨h3 | h3, h4 | h4⟩ := ihB I h <;> simp [h3, h4]
      · rw [if_neg h1] at he
        by_cases h2 : b.1 < i.1
        · rw [if_pos h2] at he
          rcases List.mem_cons.mp he with h | h
          · subst h
            simp
          · have := ihB (i :: I) h
            simp only [List.map_cons, List.mem_cons] at this
            obtain ⟨h3 | h3 | h3, h4 | h4 | h4⟩ := this <;> simp [h3, h4]
        · rw [if_neg h2] at he
          rcases List.mem_cons.mp he with h | h
          · subst h
            simp
          · have := ihI h
            simp only [List.map_cons, List.mem_cons] at this
            obtain ⟨(h3 | h3) | h3, (h4 | h4) | h4⟩ := this <;> simp [h3, h4]

/-! ## Cells and views -/

theorem store_same (mem : Store) (a : Nat) (w : Nat) : store mem a w a = w := by
  simp [store]

theorem store_other (mem : Store) (a b : Nat) (w : Nat) (h : b ≠ a) :
    store mem a w b = mem b := by
  simp [store, h]

theorem store_idem (mem : Store) (a : Nat) (w : Nat) (h : mem a = w) :
    store mem a w = mem := by
  funext x
  unfold store
  split_ifs with hx
  · rw [hx, h]
  · rfl

theorem agreeOff_refl (lo hi : Nat) (mem : Store) : AgreeOff lo hi mem mem :=
  fun _ _ => rfl

theorem agreeOff_store {lo hi : Nat} {mem mem' : Store} (h : AgreeOff lo hi mem mem')
    (a : Nat) (w : Nat) (h1 : lo ≤ a) (h2 : a < hi) :
    AgreeOff lo hi mem (store mem' a w) := by
  intro x hx
  rw [store_other _ _ _ _ (by omega)]
  exact h x hx

theorem agreeOff_trans {lo hi lo' hi' : Nat} {m1 m2 m3 : Store}
    (h12 : AgreeOff lo hi m1 m2) (h23 : AgreeOff lo' hi' m2 m3)
    (hlo : lo ≤ lo') (hhi : hi' ≤ hi) : AgreeOff lo hi m1 m3 := by
  intro x hx
  rw [h23 x (by omega)]
  exact h12 x hx

/-- Two agreeing stacks give the same view of a stable entry. -/
theorem viewAt_stable (H : Host) (mem mem' : Store) (lo hi base : Nat) (i : Nat)
    (hk : KeyStable H mem lo hi (base + 2 * i))
    (hv : ValStable H mem lo hi (base + 2 * i + 1))
    (h : AgreeOff lo hi mem mem') :
    viewAt H mem' base i = viewAt H mem base i := by
  unfold viewAt
  rw [hk.deRef_eq mem' h, hk.key_eq mem' h, hv.linkVal_eq mem' h]

theorem rawList_length (mem : Store) (base : Nat) (n : Nat) :
    (rawList mem base n).length = n := by
  simp [rawList]

theorem viewList_length (H : Host) (mem : Store) (base : Nat) (n : Nat) :
    (viewList H mem base n).length = n := by
  simp [viewList]

theorem rawList_succ (mem : Store) (base : Nat) (n : Nat) :
    rawList mem base (n + 1) = (mem base, mem (base + 1)) :: rawList mem (base + 2) n := by
  unfold rawList
  rw [List.range_succ_eq_map, List.map_cons, List.map_map]
  congr 1
  apply List.map_congr_left
  intro i _
  simp only [Function.comp]
  have e1 : base + 2 * (i + 1) = base + 2 + 2 * i := by ring
  have e2 : base + 2 * (i + 1) + 1 = base + 2 + 2 * i + 1 := by ring
  rw [e1]

theorem rawList_congr (mem mem' : Store) (base : Nat) (n : Nat)
    (h : ∀ a, base ≤ a → a < base + 2 * n → mem' a = mem a) :
    rawList mem' base n = rawList mem base n := by
  unfold rawList
  apply List.map_congr_left
  intro i hi
  have hi' := List.mem_range.mp hi
  rw [h _ (by omega) (by omega), h _ (by omega) (by omega)]

theorem viewList_drop (H : Host) (mem : Store) (base : Nat) (n i : Nat) (hi : i < n) :
    (viewList H mem base n).drop i
      = viewAt H mem base i :: (viewList H mem base n).drop (i + 1) := by
  have hlen : i < (viewList H mem base n).length := by rw [viewList_length]; exact hi
  rw [List.drop_eq_getElem_cons hlen]
  congr 1
  simp [viewList]

theorem viewList_drop_all (H : Host) (mem : Store) (base : Nat) (n : Nat) :
    (viewList H mem base n).drop n = [] := by
  apply List.drop_of_length_le
  rw [viewList_length]

/-! ## The loops of `map_put`

In this section `mem0` is the stack on entry of `map_put`, `lo ≤ a < hi` the
free cells of the global stack, `data` the functor cell of the base map with
`N` entries and `nv` the array of the `M` incoming entries. -/

/-- One pass through the body of the merge loop writes the next entry of the
merge. -/
theorem map_put_scan_step (H : Host) (mem0 : Store) (lo hi data nv N M : Nat)
    (hbk : ∀ i, i < N → KeyStable H mem0 lo hi (data + 2 + 2 * i))
    (hbv : ∀ i, i < N → ValStable H mem0 lo hi (data + 2 + 2 * i + 1))
    (hik : ∀ j, j < M → KeyStable H mem0 lo hi (nv + 2 * j))
    (hiv : ∀ j, j < M → ValStable H mem0 lo hi (nv + 2 * j + 1))
    (fuel : Nat) (s : MergeState) (i j : Nat)
    (hin : s.in_ = data + 2 + 2 * i) (hnv : s.nv = nv + 2 * j) (hiN : i < N) (hjM : j < M)
    (hag : AgreeOff lo hi mem0 s.mem) (hlo : lo ≤ s.out) (hhi : s.out + 2 ≤ hi) :
    ∃ s1 i1 j1 e,
      map_put_scan H (data + 2 + 2 * N) (nv + 2 * M) (fuel + 1) s
        = map_put_scan H (data + 2 + 2 * N) (nv + 2 * M) fuel s1 ∧
      s1.mem = store (store s.mem s.out e.1) (s.out + 1) e.2 ∧
      s1.out = s.out + 2 ∧ s1.in_ = data + 2 + 2 * i1 ∧ s1.nv = nv + 2 * j1 ∧
      i ≤ i1 ∧ i1 ≤ N ∧ j ≤ j1 ∧ j1 ≤ M ∧
      (N - i1) + (M - j1) + 1 ≤ (N - i) + (M - j) ∧
      mergeEntries ((viewList H mem0 (data + 2) N).drop i) ((viewList H mem0 nv M).drop j)
        = e :: mergeEntries ((viewList H mem0 (data + 2) N).drop i1)
            ((viewList H mem0 nv M).drop j1) := by
  have hcond : s.in_ < data + 2 + 2 * N ∧ s.nv < nv + 2 * M := by
    rw [hin, hnv]; constructor <;> omega
  have hkB : s.mem (H.deRef s.mem s.in_) = (viewAt H mem0 (data + 2) i).1 := by
    rw [hin, (hbk i hiN).deRef_eq _ hag, (hbk i hiN).key_eq _ hag]; rfl
  have hkI : s.mem (H.deRef s.mem s.nv) = (viewAt H mem0 nv j).1 := by
    rw [hnv, (hik j hjM).deRef_eq _ hag, (hik j hjM).key_eq _ hag]; rfl
  have hvB : ∀ w, H.linkVal (store s.mem s.out w) (s.in_ + 1)
      = (viewAt H mem0 (data + 2) i).2 := by
    intro w
    rw [hin, (hbv i hiN).linkVal_eq _ (agreeOff_store hag _ _ hlo (by omega))]; rfl
  have hvI : ∀ w, H.linkVal (store s.mem s.out w) (s.nv + 1) = (viewAt H mem0 nv j).2 := by
    intro w
    rw [hnv, (hiv j hjM).linkVal_eq _ (agreeOff_store hag _ _ hlo (by omega))]; rfl
  rw [viewList_drop H mem0 (data + 2) N i hiN, viewList_drop H mem0 nv M j hjM,
    mergeEntries_cons_cons]
  rw [map_put_scan, if_pos hcond]
  simp only [hkB, hkI, hvB, hvI]
  by_cases h1 : (viewAt H mem0 (data + 2) i).1 = (viewAt H mem0 nv j).1
  · rw [if_pos h1, if_pos h1]
    refine ⟨_, i + 1, j + 1, _, rfl, rfl, rfl, ?_, ?_, by omega, by omega, by omega, by omega,
      by omega, rfl⟩
    · show s.in_ + 2 = _
      rw [hin]; ring
    · show s.nv + 2 = _
      rw [hnv]; ring
  · rw [if_neg h1, if_neg h1]
    by_cases h2 : (viewAt H mem0 (data + 2) i).1 < (viewAt H mem0 nv j).1
    · rw [if_pos h2, if_pos h2]
      refine ⟨_, i + 1, j, _, rfl, rfl, rfl, ?_, hnv, by omega, by omega, by omega, by omega,
        by omega, ?_⟩
      · show s.in_ + 2 = _
        rw [hin]; ring
      · rw [viewList_drop H mem0 nv M j hjM]
    · rw [if_neg h2, if_neg h2]
      refine ⟨_, i, j + 1, _, rfl, rfl, rfl, hin, ?_, by omega, by omega, by omega, by omega,
        by omega, ?_⟩
      · show s.nv + 2 = _
        rw [hnv]; ring
      · rw [viewList_drop H mem0 (data + 2) N i hiN]

/-- Cells written by a loop of `map_put` and the cells around them: what was
written from `out` on is `e` followed by `L`. -/
theorem rawList_after_step (mem mem' : Store) (out : Nat) (e : Nat × Nat)
    (L : List (Nat × Nat))
    (hL : rawList mem' (out + 2) L.length = L)
    (hframe : ∀ a, a < out + 2 ∨ out + 2 + 2 * L.length ≤ a →
      mem' a = store (store mem out e.1) (out + 1) e.2 a) :
    rawList mem' out (e :: L).length = e :: L ∧
      ∀ a, a < out ∨ out + 2 * (e :: L).length ≤ a → mem' a = mem a := by
  constructor
  · rw [List.length_cons, rawList_succ, hL]
    congr 1
    rw [hframe out (by omega), hframe (out + 1) (by omega)]
    rw [store_other _ _ _ _ (by omega), store_same, store_same]
  · intro a ha
    rw [List.length_cons] at ha
    rw [hframe a (by omega), store_other _ _ _ _ (by omega), store_other _ _ _ _ (by omega)]

/-- The merge loop writes a prefix of the merge of the two sequences of
entries and stops when one of them is exhausted. -/
theorem map_put_scan_spec (H : Host) (mem0 : Store) (lo hi data nv N M : Nat)
    (hbk : ∀ i, i < N → KeyStable H mem0 lo hi (data + 2 + 2 * i))
    (hbv : ∀ i, i < N → ValStable H mem0 lo hi (data + 2 + 2 * i + 1))
    (hik : ∀ j, j < M → KeyStable H mem0 lo hi (nv + 2 * j))
    (hiv : ∀ j, j < M → ValStable H mem0 lo hi (nv + 2 * j + 1)) :
    ∀ (fuel : Nat) (s : MergeState) (i j : Nat),
      s.in_ = data + 2 + 2 * i → s.nv = nv + 2 * j → i ≤ N → j ≤ M →
      AgreeOff lo hi mem0 s.mem → lo ≤ s.out → s.out + 2 * ((N - i) + (M - j)) ≤ hi →
      (N - i) + (M - j) ≤ fuel →
      ∃ s' i' j' L,
        map_put_scan H (data + 2 + 2 * N) (nv + 2 * M) fuel s = some s' ∧
        s'.in_ = data + 2 + 2 * i' ∧ s'.nv = nv + 2 * j' ∧
        i ≤ i' ∧ i' ≤ N ∧ j ≤ j' ∧ j' ≤ M ∧ (i' = N ∨ j' = M) ∧
        s'.out = s.out + 2 * L.length ∧
        L.length + (N - i') + (M - j') ≤ (N - i) + (M - j) ∧
        rawList s'.mem s.out L.length = L ∧
        (∀ a, a < s.out ∨ s'.out ≤ a → s'.mem a = s.mem a) ∧
        L ++ mergeEntries ((viewList H mem0 (data + 2) N).drop i')
            ((viewList H mem0 nv M).drop j')
          = mergeEntries ((viewList H mem0 (data + 2) N).drop i)
              ((viewList H mem0 nv M).drop j) := by
  intro fuel
  induction fuel with
  | zero =>
    intro s i j hin hnv hiN hjM _ _ _ hfuel
    refine ⟨s, i, j, [], ?_, hin, hnv, le_refl _, hiN, le_refl _, hjM, by omega, rfl, by simp,
      rfl, fun _ _ => rfl, rfl⟩
    rw [map_put_scan, if_neg]
    rw [hin, hnv]; omega
  | succ fuel ih =>
    intro s i j hin hnv hiN hjM hag hlo hhi hfuel
    by_cases hcond : i < N ∧ j < M
    · obtain ⟨s1, i1, j1, e, hstep, hmem1, hout1, hin1, hnv1, hii1, hi1N, hjj1, hj1M, hdec,
        hmerge⟩ := map_put_scan_step H mem0 lo hi data nv N M hbk hbv hik hiv fuel s i j hin hnv
          hcond.1 hcond.2 hag hlo (by omega)
      have hag1 : AgreeOff lo hi mem0 s1.mem := by
        rw [hmem1]
        exact agreeOff_store (agreeOff_store hag _ _ hlo (by omega)) _ _ (by omega) (by omega)
      obtain ⟨s', i', j', L, hscan, hin', hnv', h1, h2, h3, h4, h5, hout', hlen, hraw, hframe,
        hm⟩ := ih s1 i1 j1 hin1 hnv1 hi1N hj1M hag1 (by omega) (by omega) (by omega)
      have hassemble := rawList_after_step s.mem s'.mem s.out e L (by rw [← hout1]; exact hraw)
        (by
          intro a ha
          rw [← hmem1]
          apply hframe
          rw [hout', hout1]
          omega)
      refine ⟨s', i', j', e :: L, ?_, hin', hnv', by omega, h2, by omega, h4, h5, ?_, ?_,
        hassemble.1, ?_, ?_⟩
      · rw [hstep, hscan]
      · rw [hout', hout1, List.length_cons]; ring
      · rw [List.length_cons]; omega
      · intro a ha
        apply hassemble.2
        rw [hout', hout1] at ha
        rw [List.length_cons]
        omega
      · rw [hmerge, List.cons_append, hm]
    · refine ⟨s, i, j, [], ?_, hin, hnv, le_refl _, hiN, le_refl _, hjM, by omega, rfl, by simp,
        rfl, fun _ _ => rfl, rfl⟩
      rw [map_put_scan, if_neg]
      rw [hin, hnv]; omega

theorem rawList_append (mem : Store) (base : Nat) (L1 L2 : List (Nat × Nat))
    (h1 : rawList mem base L1.length = L1)
    (h2 : rawList mem (base + 2 * L1.length) L2.length = L2) :
    rawList mem base (L1 ++ L2).length = L1 ++ L2 := by
  induction L1 generalizing base with
  | nil => simpa using h2
  | cons e L1 ih =>
    rw [List.length_cons, rawList_succ] at h1
    rw [List.cons_append, List.length_cons, rawList_succ]
    have h3 := List.cons.inj h1
    rw [h3.1]
    congr 1
    apply ih (base + 2) h3.2
    rw [List.length_cons] at h2
    have e1 : base + 2 + 2 * L1.length = base + 2 * (L1.length + 1) := by ring
    rw [e1]
    exact h2

/-- The loop that copies the rest of the base map writes the entries not yet
merged. -/
theorem map_put_rest_in_spec (H : Host) (mem0 : Store) (lo hi data N : Nat)
    (hbk : ∀ i, i < N → KeyStable H mem0 lo hi (data + 2 + 2 * i))
    (hbv : ∀ i, i < N → ValStable H mem0 lo hi (data + 2 + 2 * i + 1)) :
    ∀ (fuel : Nat) (s : MergeState) (i : Nat),
      s.in_ = data + 2 + 2 * i → i ≤ N →
      AgreeOff lo hi mem0 s.mem → lo ≤ s.out → s.out + 2 * (N - i) ≤ hi →
      N - i ≤ fuel →
      ∃ s', map_put_rest_in H (data + 2 + 2 * N) fuel s = some s' ∧
        s'.out = s.out + 2 * ((viewList H mem0 (data + 2) N).drop i).length ∧
        rawList s'.mem s.out ((viewList H mem0 (data + 2) N).drop i).length
          = (viewList H mem0 (data + 2) N).drop i ∧
        (∀ a, a < s.out ∨ s'.out ≤ a → s'.mem a = s.mem a) := by
  intro fuel
  induction fuel with
  | zero =>
    intro s i hin hiN _ _ _ hfuel
    have hi' : i = N := by omega
    subst hi'
    refine ⟨s, ?_, ?_, ?_, fun _ _ => rfl⟩
    · rw [map_put_rest_in, if_neg]; rw [hin]; omega
    · rw [viewList_drop_all]; rfl
    · rw [viewList_drop_all]; rfl
  | succ fuel ih =>
    intro s i hin hiN hag hlo hhi hfuel
    by_cases hc : i < N
    · have hcond : s.in_ < data + 2 + 2 * N := by rw [hin]; omega
      have hkB : s.mem (H.deRef s.mem s.in_) = (viewAt H mem0 (data + 2) i).1 := by
        rw [hin, (hbk i hc).deRef_eq _ hag, (hbk i hc).key_eq _ hag]; rfl
      have hvB : ∀ w, H.linkVal (store s.mem s.out w) (s.in_ + 1)
          = (viewAt H mem0 (data + 2) i).2 := by
        intro w
        rw [hin, (hbv i hc).linkVal_eq _ (agreeOff_store hag _ _ hlo (by omega))]; rfl
      rw [map_put_rest_in, if_pos hcond]
      simp only [hkB, hvB]
      obtain ⟨s', hrest, hout', hraw, hframe⟩ := ih
        { s with
          mem := store (store s.mem s.out (viewAt H mem0 (data + 2) i).1) (s.out + 1)
            (viewAt H mem0 (data + 2) i).2
          out := s.out + 2
          in_ := s.in_ + 2 } (i + 1) (by show s.in_ + 2 = _; rw [hin]; ring) hc
        (agreeOff_store (agreeOff_store hag _ _ hlo (by omega)) _ _ (by omega) (by omega))
        (by show lo ≤ s.out + 2; omega) (by show s.out + 2 + _ ≤ hi; omega) (by omega)
      simp only at hout' hraw hframe
      have hassemble := rawList_after_step s.mem s'.mem s.out (viewAt H mem0 (data + 2) i)
        ((viewList H mem0 (data + 2) N).drop (i + 1)) hraw
        (by
          intro a ha
          apply hframe
          rw [hout']
          omega)
      rw [viewList_drop H mem0 (data + 2) N i hc]
      refine ⟨s', hrest, ?_, hassemble.1, ?_⟩
      · rw [hout', List.length_cons]; ring
      · intro a ha
        apply hassemble.2
        rw [hout'] at ha
        rw [List.length_cons]
        omega
    · have hi' : i = N := by omega
      subst hi'
      refine ⟨s, ?_, ?_, ?_, fun _ _ => rfl⟩
      · rw [map_put_rest_in, if_neg]; rw [hin]; omega
      · rw [viewList_drop_all]; rfl
      · rw [viewList_drop_all]; rfl

/-- The loop that copies the rest of the incoming entries writes the entries not
yet merged. -/
theorem map_put_rest_nv_spec (H : Host) (mem0 : Store) (lo hi nv M : Nat)
    (hik : ∀ j, j < M → KeyStable H mem0 lo hi (nv + 2 * j))
    (hiv : ∀ j, j < M → ValStable H mem0 lo hi (nv + 2 * j + 1)) :
    ∀ (fuel : Nat) (s : MergeState) (j : Nat),
      s.nv = nv + 2 * j → j ≤ M →
      AgreeOff lo hi mem0 s.mem → lo ≤ s.out → s.out + 2 * (M - j) ≤ hi →
      M - j ≤ fuel →
      ∃ s', map_put_rest_nv H (nv + 2 * M) fuel s = some s' ∧
        s'.out = s.out + 2 * ((viewList H mem0 nv M).drop j).length ∧
        rawList s'.mem s.out ((viewList H mem0 nv M).drop j).length
          = (viewList H mem0 nv M).drop j ∧
        (∀ a, a < s.out ∨ s'.out ≤ a → s'.mem a = s.mem a) := by
  intro fuel
  induction fuel with
  | zero =>
    intro s j hnv hjM _ _ _ hfuel
    have hj' : j = M := by omega
    subst hj'
    refine ⟨s, ?_, ?_, ?_, fun _ _ => rfl⟩
    · rw [map_put_rest_nv, if_neg]; rw [hnv]; omega
    · rw [viewList_drop_all]; rfl
    · rw [viewList_drop_all]; rfl
  | succ fuel ih =>
    intro s j hnv hjM hag hlo hhi hfuel
    by_cases hc : j < M
    · have hcond : s.nv < nv + 2 * M := by rw [hnv]; omega
      have hkI : s.mem (H.deRef s.mem s.nv) = (viewAt H mem0 nv j).1 := by
        rw [hnv, (hik j hc).deRef_eq _ hag, (hik j hc).key_eq _ hag]; rfl
      have hvI : ∀ w, H.linkVal (store s.mem s.out w) (s.nv + 1) = (viewAt H mem0 nv j).2 := by
        intro w
        rw [hnv, (hiv j hc).linkVal_eq _ (agreeOff_store hag _ _ hlo (by omega))]; rfl
      rw [map_put_rest_nv, if_pos hcond]
      simp only [hkI, hvI]
      obtain ⟨s', hrest, hout', hraw, hframe⟩ := ih
        { s with
          mem := store (store s.mem s.out (viewAt H mem0 nv j).1) (s.out + 1)
            (viewAt H mem0 nv j).2
          out := s.out + 2
          nv := s.nv + 2 } (j + 1) (by show s.nv + 2 = _; rw [hnv]; ring) hc
        (agreeOff_store (agreeOff_store hag _ _ hlo (by omega)) _ _ (by omega) (by omega))
        (by show lo ≤ s.out + 2; omega) (by show s.out + 2 + _ ≤ hi; omega) (by omega)
      simp only at hout' hraw hframe
      have hassemble := rawList_after_step s.mem s'.mem s.out (viewAt H mem0 nv j)
        ((viewList H mem0 nv M).drop (j + 1)) hraw
        (by
          intro a ha
          apply hframe
          rw [hout']
          omega)
      rw [viewList_drop H mem0 nv M j hc]
      refine ⟨s', hrest, ?_, hassemble.1, ?_⟩
      · rw [hout', List.length_cons]; ring
      · intro a ha
        apply hassemble.2
        rw [hout'] at ha
        rw [List.length_cons]
        omega
    · have hj' : j = M := by omega
      subst hj'
      refine ⟨s, ?_, ?_, ?_, fun _ _ => rfl⟩
      · rw [map_put_rest_nv, if_neg]; rw [hnv]; omega
      · rw [viewList_drop_all]; rfl
      · rw [viewList_drop_all]; rfl

/-- The function `map_functor` returns the functor `map/arity` and keeps the cache sound. -/
theorem map_functor_spec (H : Host) (st : PlState) (arity : Nat) (hc : CacheOK H st) :
    (map_functor H st arity).1 = H.lookupFunctorDef H.ATOM_map arity ∧
    CacheOK H (map_functor H st arity).2 ∧
    (map_functor H st arity).2.mem = st.mem ∧
    (map_functor H st arity).2.gTop = st.gTop ∧
    (map_functor H st arity).2.gMax = st.gMax := by
  unfold map_functor
  by_cases h1 : arity < CACHED_MAP_FUNCTORS
  · rw [if_pos h1]
    by_cases h2 : st.map_functors arity ≠ 0
    · rw [if_pos h2]
      exact ⟨hc arity h2, hc, rfl, rfl, rfl⟩
    · rw [if_neg h2]
      refine ⟨rfl, ?_, rfl, rfl, rfl⟩
      intro i hi
      simp only at hi ⊢
      by_cases h3 : i = arity
      · rw [if_pos h3, h3]
      · rw [if_neg h3] at hi ⊢
        exact hc i hi
  · rw [if_neg h1]
    exact ⟨rfl, hc, rfl, rfl, rfl⟩

/-- The end of `map_put`: the term at the old top of the stack is a map with
the class of the base map and the entries the loops wrote. -/
theorem map_put_finish_spec (H : Host) (st : PlState) (data : Nat) (s : MergeState)
    (L : List (Nat × Nat)) (hcache : CacheOK H st)
    (hout : s.out = st.gTop + 2 + 2 * L.length) (hhi : s.out ≤ st.gMax)
    (hraw : rawList s.mem (st.gTop + 2) L.length = L)
    (hag : AgreeOff st.gTop st.gMax st.mem s.mem)
    (hcls : ValStable H st.mem st.gTop st.gMax (data + 1)) :
    (map_put_finish H st data st.gTop s).rc = PutRc.TRUE ∧
    (map_put_finish H st data st.gTop s).new_map = H.consPtr st.gTop ∧
    (map_put_finish H st data st.gTop s).st.gMax = st.gMax ∧
    CacheOK H (map_put_finish H st data st.gTop s).st ∧
    AgreeOff st.gTop st.gMax st.mem (map_put_finish H st data st.gTop s).st.mem ∧
    (map_put_finish H st data st.gTop s).st.gTop = st.gTop + 2 + 2 * L.length ∧
    (map_put_finish H st data st.gTop s).st.mem st.gTop
      = H.lookupFunctorDef H.ATOM_map (1 + 2 * L.length) ∧
    (map_put_finish H st data st.gTop s).st.mem (st.gTop + 1) = H.linkVal st.mem (data + 1) ∧
    rawList (map_put_finish H st data st.gTop s).st.mem (st.gTop + 2) L.length = L := by
  obtain ⟨hf1, hf2, hf3, hf4, hf5⟩ := map_functor_spec H
    (PlState.mk (store s.mem (st.gTop + 1) (H.linkVal s.mem (data + 1))) s.out st.gMax
      st.map_functors)
    (s.out - (st.gTop + 1)) hcache
  have harity : s.out - (st.gTop + 1) = 1 + 2 * L.length := by omega
  rw [harity] at hf1 hf2 hf3 hf4 hf5
  simp only at hf3 hf4 hf5
  unfold map_put_finish
  simp only [harity]
  refine ⟨trivial, trivial, hf5, ?_, ?_, ?_, ?_, ?_, ?_⟩
  · exact hf2
  · rw [hf3]
    exact agreeOff_store (agreeOff_store hag _ _ (by omega) (by omega)) _ _ (by omega) (by omega)
  · rw [hf4, hout]
  · rw [store_same, hf1]
  · rw [store_other _ _ _ _ (by omega), hf3, store_same, hcls.linkVal_eq _ hag]
  · refine Eq.trans (rawList_congr _ _ _ _ ?_) hraw
    intro a h1 h2
    rw [store_other _ _ _ _ (by omega), hf3, store_other _ _ _ _ (by omega)]

/-- What `map_put` does when there is room.  It returns `TRUE`; it changes no
cell outside the free part of the global stack; and it returns either the base
map, leaving the top of the stack where it was, or the new term at the old top
of the stack, whose functor is `map/(1+2L)`, whose class slot links to the
class of the base map and whose `L` entries are the merge of the base entries
with the incoming entries, as `deRef` and `linkVal` read them. -/
theorem map_put_spec (H : Host) (st : PlState) (map size nv new_map N : Nat)
    (harity : H.arityFunctor (st.mem (H.valueTerm map)) = 2 * N + 1)
    (hsize : 0 < size)
    (hspace : st.gTop + 1 + (2 * N + 1) + 2 * size ≤ st.gMax)
    (hcache : CacheOK H st)
    (hcls : ValStable H st.mem st.gTop st.gMax (H.valueTerm map + 1))
    (hbk : ∀ i, i < N → KeyStable H st.mem st.gTop st.gMax (H.valueTerm map + 2 + 2 * i))
    (hbv : ∀ i, i < N → ValStable H st.mem st.gTop st.gMax (H.valueTerm map + 2 + 2 * i + 1))
    (hik : ∀ j, j < size → KeyStable H st.mem st.gTop st.gMax (nv + 2 * j))
    (hiv : ∀ j, j < size → ValStable H st.mem st.gTop st.gMax (nv + 2 * j + 1)) :
    ∃ r, map_put H st map size nv new_map = some r ∧ r.rc = PutRc.TRUE ∧
      r.st.gMax = st.gMax ∧ CacheOK H r.st ∧ AgreeOff st.gTop st.gMax st.mem r.st.mem ∧
      ((r.new_map = map ∧ r.st.gTop = st.gTop ∧
          ∃ sf, map_put_scan H (H.valueTerm map + 2 + 2 * N) (nv + 2 * size) (N + size)
              { mem := st.mem, out := st.gTop + 2, in_ := H.valueTerm map + 2, nv := nv,
                modified := false } = some sf ∧
            sf.nv = nv + 2 * size ∧ sf.modified = false ∧
            r = { rc := PutRc.TRUE, new_map := map, st := { st with mem := sf.mem } }) ∨
        (r.new_map = H.consPtr st.gTop ∧
          (mergeEntries (viewList H st.mem (H.valueTerm map + 2) N)
            (viewList H st.mem nv size)).length ≤ N + size ∧
          r.st.gTop = st.gTop + 2 + 2 * (mergeEntries (viewList H st.mem (H.valueTerm map + 2) N)
            (viewList H st.mem nv size)).length ∧
          r.st.mem st.gTop = H.lookupFunctorDef H.ATOM_map
            (1 + 2 * (mergeEntries (viewList H st.mem (H.valueTerm map + 2) N)
              (viewList H st.mem nv size)).length) ∧
          r.st.mem (st.gTop + 1) = H.linkVal st.mem (H.valueTerm map + 1) ∧
          rawList r.st.mem (st.gTop + 2)
            (mergeEntries (viewList H st.mem (H.valueTerm map + 2) N)
              (viewList H st.mem nv size)).length
            = mergeEntries (viewList H st.mem (H.valueTerm map + 2) N)
              (viewList H st.mem nv size))) := by
  obtain ⟨s', i', j', L, hscan, hin', hnv', -, hi'N, -, hj'M, hend, hout', hlen, hraw, hframe,
    hmerge⟩ := map_put_scan_spec H st.mem st.gTop st.gMax (H.valueTerm map) nv N size
      hbk hbv hik hiv (N + size)
      { mem := st.mem, out := st.gTop + 2, in_ := H.valueTerm map + 2, nv := nv,
        modified := false } 0 0 rfl rfl (Nat.zero_le _) (Nat.zero_le _) (agreeOff_refl _ _ _)
      (by show st.gTop ≤ st.gTop + 2; omega) (by show st.gTop + 2 + _ ≤ _; omega) (by omega)
  simp only [List.drop_zero, Nat.sub_zero] at hmerge hlen hout' hraw hframe
  have hag : AgreeOff st.gTop st.gMax st.mem s'.mem := by
    intro a ha
    apply hframe
    rw [hout']
    omega
  unfold map_put
  simp only [harity]
  rw [if_neg (by omega), if_neg (by omega)]
  have e1 : H.valueTerm map + 2 + (2 * N + 1) - 1 = H.valueTerm map + 2 + 2 * N := by omega
  have e2 : nv + size * 2 = nv + 2 * size := by omega
  have e3 : (2 * N + 1) / 2 + size = N + size := by omega
  simp only [e1, e2, e3, hscan]
  by_cases hnvend : s'.nv = nv + 2 * size
  · rw [if_pos hnvend]
    have hj' : j' = size := by omega
    subst hj'
    by_cases hmod : (!s'.modified) = true
    · rw [if_pos hmod]
      refine ⟨_, rfl, rfl, rfl, hcache, hag, Or.inl ⟨rfl, rfl, s', rfl, hnvend, ?_, rfl⟩⟩
      simpa using hmod
    · rw [if_neg hmod]
      obtain ⟨s2, hrest, hout2, hraw2, hframe2⟩ := map_put_rest_in_spec H st.mem st.gTop st.gMax
        (H.valueTerm map) N hbk hbv (N + j') s' i' hin' hi'N hag (by omega)
        (by rw [hout']; omega) (by omega)
      rw [viewList_drop_all, mergeEntries_nil_right] at hmerge
      have hrawL : rawList s2.mem (st.gTop + 2) L.length = L := by
        refine Eq.trans (rawList_congr _ _ _ _ ?_) hraw
        intro a h1 h2
        apply hframe2
        rw [hout']
        omega
      have hlen2 : ((viewList H st.mem (H.valueTerm map + 2) N).drop i').length = N - i' := by
        rw [List.length_drop, viewList_length]
      have hcat := rawList_append s2.mem (st.gTop + 2) L _ hrawL (by rw [← hout']; exact hraw2)
      rw [hmerge] at hcat
      have hlenM : (mergeEntries (viewList H st.mem (H.valueTerm map + 2) N)
          (viewList H st.mem nv j')).length = L.length + (N - i') := by
        rw [← hmerge, List.length_append, hlen2]
      have hag2 : AgreeOff st.gTop st.gMax st.mem s2.mem := by
        intro a ha
        rw [hframe2 a (by rw [hout2, hout', hlen2]; omega)]
        exact hag a ha
      have hfin := map_put_finish_spec H st (H.valueTerm map) s2 _ hcache
        (by rw [hout2, hout', hlenM, hlen2]; ring) (by rw [hout2, hout', hlen2]; omega)
        hcat hag2 hcls
      rw [hrest, Option.map_some']
      obtain ⟨f1, f2, f3, f4, f5, f6, f7, f8, f9⟩ := hfin
      exact ⟨_, rfl, f1, f3, f4, f5, Or.inr ⟨f2, by rw [hlenM]; omega, f6, f7, f8, f9⟩⟩
  · rw [if_neg hnvend]
    have hj' : j' ≠ size := fun h => hnvend (by rw [hnv', h])
    have hi' : i' = N := by
      rcases hend with h | h
      · exact h
      · exact absurd h hj'
    subst hi'
    obtain ⟨s2, hrest, hout2, hraw2, hframe2⟩ := map_put_rest_nv_spec H st.mem st.gTop st.gMax
      nv size hik hiv (i' + size) s' j' hnv' hj'M hag (by omega)
      (by rw [hout']; omega) (by omega)
    rw [viewList_drop_all, mergeEntries_nil_left] at hmerge
    have hrawL : rawList s2.mem (st.gTop + 2) L.length = L := by
      refine Eq.trans (rawList_congr _ _ _ _ ?_) hraw
      intro a h1 h2
      apply hframe2
      rw [hout']
      omega
    have hlen2 : ((viewList H st.mem nv size).drop j').length = size - j' := by
      rw [List.length_drop, viewList_length]
    have hcat := rawList_append s2.mem (st.gTop + 2) L _ hrawL (by rw [← hout']; exact hraw2)
    rw [hmerge] at hcat
    have hlenM : (mergeEntries (viewList H st.mem (H.valueTerm map + 2) i')
        (viewList H st.mem nv size)).length = L.length + (size - j') := by
      rw [← hmerge, List.length_append, hlen2]
    have hag2 : AgreeOff st.gTop st.gMax st.mem s2.mem := by
      intro a ha
      rw [hframe2 a (by rw [hout2, hout', hlen2]; omega)]
      exact hag a ha
    have hfin := map_put_finish_spec H st (H.valueTerm map) s2 _ hcache
      (by rw [hout2, hout', hlenM, hlen2]; ring) (by rw [hout2, hout', hlen2]; omega)
      hcat hag2 hcls
    rw [hrest, Option.map_some']
    obtain ⟨f1, f2, f3, f4, f5, f6, f7, f8, f9⟩ := hfin
    exact ⟨_, rfl, f1, f3, f4, f5, Or.inr ⟨f2, by rw [hlenM]; omega, f6, f7, f8, f9⟩⟩

/-! ## Running `map_put` again -/

/-- The merge loop is over as soon as one of the two sequences is exhausted. -/
theorem map_put_scan_done (H : Host) (in_end nv_end fuel : Nat) (s : MergeState)
    (h : ¬ (s.in_ < in_end ∧ s.nv < nv_end)) :
    map_put_scan H in_end nv_end fuel s = some s := by
  cases fuel <;> rw [map_put_scan, if_neg h]

/-- The flag `modified` is never reset. -/
theorem map_put_scan_modified (H : Host) (in_end nv_end : Nat) :
    ∀ (fuel : Nat) (s sf : MergeState),
      map_put_scan H in_end nv_end fuel s = some sf → sf.modified = false →
      s.modified = false := by
  intro fuel
  induction fuel with
  | zero =>
    intro s sf h hm
    rw [map_put_scan] at h
    by_cases hc : s.in_ < in_end ∧ s.nv < nv_end
    · rw [if_pos hc] at h; cases h
    · rw [if_neg hc] at h; cases h; exact hm
  | succ fuel ih =>
    intro s sf h hm
    rw [map_put_scan] at h
    by_cases hc : s.in_ < in_end ∧ s.nv < nv_end
    · rw [if_pos hc] at h
      simp only at h
      by_cases h1 : s.mem (H.deRef s.mem s.in_) = s.mem (H.deRef s.mem s.nv)
      · rw [if_pos h1] at h
        have := ih _ _ h hm
        simp only at this
        cases hs : s.modified with
        | false => rfl
        | true => rw [hs] at this; simp at this
      · rw [if_neg h1] at h
        by_cases h2 : s.mem (H.deRef s.mem s.in_) < s.mem (H.deRef s.mem s.nv)
        · rw [if_pos h2] at h
          have := ih _ _ h hm
          exact this
        · rw [if_neg h2] at h
          have := ih _ _ h hm
          simp at this
    · rw [if_neg hc] at h; cases h; exact hm

/-- The merge loop writes at `out` and above only. -/
theorem map_put_scan_below (H : Host) (in_end nv_end : Nat) :
    ∀ (fuel : Nat) (s sf : MergeState),
      map_put_scan H in_end nv_end fuel s = some sf →
      ∀ a, a < s.out → sf.mem a = s.mem a := by
  intro fuel
  induction fuel with
  | zero =>
    intro s sf h a _
    rw [map_put_scan] at h
    by_cases hc : s.in_ < in_end ∧ s.nv < nv_end
    · rw [if_pos hc] at h; cases h
    · rw [if_neg hc] at h; cases h; rfl
  | succ fuel ih =>
    intro s sf h a ha
    rw [map_put_scan] at h
    by_cases hc : s.in_ < in_end ∧ s.nv < nv_end
    · rw [if_pos hc] at h
      simp only at h
      by_cases h1 : s.mem (H.deRef s.mem s.in_) = s.mem (H.deRef s.mem s.nv)
      · rw [if_pos h1] at h
        have := ih _ _ h a (by show a < s.out + 2; omega)
        rw [this]
        show store (store _ _ _) _ _ a = _
        rw [store_other _ _ _ _ (by omega), store_other _ _ _ _ (by omega)]
      · rw [if_neg h1] at h
        by_cases h2 : s.mem (H.deRef s.mem s.in_) < s.mem (H.deRef s.mem s.nv)
        · rw [if_pos h2] at h
          have := ih _ _ h a (by show a < s.out + 2; omega)
          rw [this]
          show store (store _ _ _) _ _ a = _
          rw [store_other _ _ _ _ (by omega), store_other _ _ _ _ (by omega)]
        · rw [if_neg h2] at h
          have := ih _ _ h a (by show a < s.out + 2; omega)
          rw [this]
          show store (store _ _ _) _ _ a = _
          rw [store_other _ _ _ _ (by omega), store_other _ _ _ _ (by omega)]
    · rw [if_neg hc] at h; cases h; rfl

/-- The body of the merge loop in terms of the entries as read on entry. -/
theorem map_put_scan_unfold (H : Host) (mem0 : Store) (lo hi data nv N M : Nat)
    (hbk : ∀ i, i < N → KeyStable H mem0 lo hi (data + 2 + 2 * i))
    (hbv : ∀ i, i < N → ValStable H mem0 lo hi (data + 2 + 2 * i + 1))
    (hik : ∀ j, j < M → KeyStable H mem0 lo hi (nv + 2 * j))
    (hiv : ∀ j, j < M → ValStable H mem0 lo hi (nv + 2 * j + 1))
    (fuel : Nat) (s : MergeState) (i j : Nat)
    (hin : s.in_ = data + 2 + 2 * i) (hnv : s.nv = nv + 2 * j) (hiN : i < N) (hjM : j < M)
    (hag : AgreeOff lo hi mem0 s.mem) (hlo : lo ≤ s.out) (hhi : s.out + 2 ≤ hi) :
    map_put_scan H (data + 2 + 2 * N) (nv + 2 * M) (fuel + 1) s =
      if (viewAt H mem0 (data + 2) i).1 = (viewAt H mem0 nv j).1 then
        map_put_scan H (data + 2 + 2 * N) (nv + 2 * M) fuel
          { mem := store (store s.mem s.out (viewAt H mem0 (data + 2) i).1) (s.out + 1)
              (viewAt H mem0 nv j).2
            out := s.out + 2
            in_ := s.in_ + 2
            nv := s.nv + 2
            modified :=
              if !s.modified && H.compareStandard
                  (store (store s.mem s.out (viewAt H mem0 (data + 2) i).1) (s.out + 1)
                    (viewAt H mem0 nv j).2) (s.nv + 2 + 1) (s.in_ + 2 + 1) true ≠ 0 then true
              else s.modified }
      else if (viewAt H mem0 (data + 2) i).1 < (viewAt H mem0 nv j).1 then
        map_put_scan H (data + 2 + 2 * N) (nv + 2 * M) fuel
          { s with
            mem := store (store s.mem s.out (viewAt H mem0 (data + 2) i).1) (s.out + 1)
              (viewAt H mem0 (data + 2) i).2
            out := s.out + 2
            in_ := s.in_ + 2 }
      else
        map_put_scan H (data + 2 + 2 * N) (nv + 2 * M) fuel
          { s with
            mem := store (store s.mem s.out (viewAt H mem0 nv j).1) (s.out + 1)
              (viewAt H mem0 nv j).2
            out := s.out + 2
            nv := s.nv + 2
            modified := true } := by
  have hcond : s.in_ < data + 2 + 2 * N ∧ s.nv < nv + 2 * M := by
    rw [hin, hnv]; constructor <;> omega
  have hkB : s.mem (H.deRef s.mem s.in_) = (viewAt H mem0 (data + 2) i).1 := by
    rw [hin, (hbk i hiN).deRef_eq _ hag, (hbk i hiN).key_eq _ hag]; rfl
  have hkI : s.mem (H.deRef s.mem s.nv) = (viewAt H mem0 nv j).1 := by
    rw [hnv, (hik j hjM).deRef_eq _ hag, (hik j hjM).key_eq _ hag]; rfl
  have hvB : ∀ w, H.linkVal (store s.mem s.out w) (s.in_ + 1)
      = (viewAt H mem0 (data + 2) i).2 := by
    intro w
    rw [hin, (hbv i hiN).linkVal_eq _ (agreeOff_store hag _ _ hlo (by omega))]; rfl
  have hvI : ∀ w, H.linkVal (store s.mem s.out w) (s.nv + 1) = (viewAt H mem0 nv j).2 := by
    intro w
    rw [hnv, (hiv j hjM).linkVal_eq _ (agreeOff_store hag _ _ hlo (by omega))]; rfl
  rw [map_put_scan, if_pos hcond]
  simp only [hkB, hkI, hvB, hvI]

/-- A merge loop that ended without setting `modified` ends in the same state
when it is run again on the cells it left behind: it writes the same words into
the same cells and compares equal values again. -/
theorem map_put_scan_again (H : Host) (mem0 : Store) (lo hi data nv N M : Nat)
    (hbk : ∀ i, i < N → KeyStable H mem0 lo hi (data + 2 + 2 * i))
    (hbv : ∀ i, i < N → ValStable H mem0 lo hi (data + 2 + 2 * i + 1))
    (hik : ∀ j, j < M → KeyStable H mem0 lo hi (nv + 2 * j))
    (hiv : ∀ j, j < M → ValStable H mem0 lo hi (nv + 2 * j + 1))
    (hcmp : ∀ mem', AgreeOff lo hi mem0 mem' → ∀ i j, i < N → j < M →
      H.compareStandard mem' (nv + 2 * j + 1) (data + 2 + 2 * i + 1) true
        = H.compareStandard mem0 (nv + 2 * j + 1) (data + 2 + 2 * i + 1) true) :
    ∀ (fuel : Nat) (s sf : MergeState) (i j : Nat),
      s.in_ = data + 2 + 2 * i → s.nv = nv + 2 * j → i ≤ N → j ≤ M →
      AgreeOff lo hi mem0 s.mem → lo ≤ s.out → s.out + 2 * ((N - i) + (M - j)) ≤ hi →
      (N - i) + (M - j) ≤ fuel →
      map_put_scan H (data + 2 + 2 * N) (nv + 2 * M) fuel s = some sf →
      sf.modified = false →
      map_put_scan H (data + 2 + 2 * N) (nv + 2 * M) fuel { s with mem := sf.mem }
        = some sf := by
  intro fuel
  induction fuel with
  | zero =>
    intro s sf i j hin hnv hiN hjM _ _ _ hfuel hscan _
    have hdone : ¬ (s.in_ < data + 2 + 2 * N ∧ s.nv < nv + 2 * M) := by
      rw [hin, hnv]; omega
    rw [map_put_scan_done H _ _ _ _ hdone] at hscan
    cases hscan
    exact map_put_scan_done H _ _ _ _ hdone
  | succ fuel ih =>
    intro s sf i j hin hnv hiN hjM hag hlo hhi hfuel hscan hmod
    by_cases hc : i < N ∧ j < M
    · -- where the first run went, and what it left behind
      obtain ⟨s', i', j', L, hscan', -, -, -, -, -, -, -, hout', hlen, -, hframe, -⟩ :=
        map_put_scan_spec H mem0 lo hi data nv N M hbk hbv hik hiv (fuel + 1) s i j hin hnv
          hiN hjM hag hlo hhi hfuel
      rw [hscan] at hscan'
      cases hscan'
      have hagf : AgreeOff lo hi mem0 sf.mem := by
        intro a ha
        rw [hframe a (by rw [hout']; omega)]
        exact hag a ha
      rw [map_put_scan_unfold H mem0 lo hi data nv N M hbk hbv hik hiv fuel s i j hin hnv
        hc.1 hc.2 hag hlo (by omega)] at hscan
      rw [map_put_scan_unfold H mem0 lo hi data nv N M hbk hbv hik hiv fuel
        { s with mem := sf.mem } i j hin hnv hc.1 hc.2 hagf hlo (by show s.out + 2 ≤ hi; omega)]
      by_cases h1 : (viewAt H mem0 (data + 2) i).1 = (viewAt H mem0 nv j).1
      · rw [if_pos h1] at hscan ⊢
        -- the flag stayed false in this pass
        have hmfalse := map_put_scan_modified H _ _ fuel _ sf hscan hmod
        simp only at hmfalse
        have hsmod : s.modified = false := by
          cases hs : s.modified with
          | false => rfl
          | true => rw [hs] at hmfalse; simp at hmfalse
        have hcmp0 : H.compareStandard
            (store (store s.mem s.out (viewAt H mem0 (data + 2) i).1) (s.out + 1)
              (viewAt H mem0 nv j).2) (s.nv + 2 + 1) (s.in_ + 2 + 1) true = 0 := by
          by_contra hne
          rw [hsmod] at hmfalse
          simp [hne] at hmfalse
        rw [hmfalse] at hscan
        -- the cells written in this pass are still there at the end
        have hbelow := map_put_scan_below H _ _ fuel _ sf hscan
        simp only at hbelow
        have hw1 : sf.mem s.out = (viewAt H mem0 (data + 2) i).1 := by
          rw [hbelow s.out (by omega), store_other _ _ _ _ (by omega), store_same]
        have hw2 : sf.mem (s.out + 1) = (viewAt H mem0 nv j).2 := by
          rw [hbelow (s.out + 1) (by omega), store_same]
        have hst : store (store sf.mem s.out (viewAt H mem0 (data + 2) i).1) (s.out + 1)
            (viewAt H mem0 nv j).2 = sf.mem := by
          rw [store_idem sf.mem s.out _ hw1, store_idem sf.mem (s.out + 1) _ hw2]
        simp only [hst, hsmod]
        -- the comparison of the following values gives the same result
        have hcmp2 : H.compareStandard sf.mem (s.nv + 2 + 1) (s.in_ + 2 + 1) true = 0 := by
          by_cases hnext : i + 1 < N ∧ j + 1 < M
          · have e1 : s.nv + 2 + 1 = nv + 2 * (j + 1) + 1 := by rw [hnv]; ring
            have e2 : s.in_ + 2 + 1 = data + 2 + 2 * (i + 1) + 1 := by rw [hin]; ring
            rw [e1, e2] at hcmp0 ⊢
            rw [hcmp _ hagf _ _ hnext.1 hnext.2]
            rw [hcmp _
              (agreeOff_store (agreeOff_store hag _ _ hlo (by omega)) _ _ (by omega) (by omega))
              _ _ hnext.1 hnext.2] at hcmp0
            exact hcmp0
          · have hdone : ¬ (s.in_ + 2 < data + 2 + 2 * N ∧ s.nv + 2 < nv + 2 * M) := by
              rw [hin, hnv]; omega
            rw [map_put_scan_done H _ _ _ _ hdone] at hscan
            cases hscan
            exact hcmp0
        simp only [hcmp2]
        refine ih _ sf (i + 1) (j + 1) ?_ ?_ hc.1 hc.2 ?_ ?_ ?_ ?_ hscan hmod
        · show s.in_ + 2 = _; rw [hin]; ring
        · show s.nv + 2 = _; rw [hnv]; ring
        · exact agreeOff_store (agreeOff_store hag _ _ hlo (by omega)) _ _ (by omega) (by omega)
        · show lo ≤ s.out + 2; omega
        · show s.out + 2 + _ ≤ hi; omega
        · omega
      · rw [if_neg h1] at hscan ⊢
        by_cases h2 : (viewAt H mem0 (data + 2) i).1 < (viewAt H mem0 nv j).1
        · rw [if_pos h2] at hscan ⊢
          have hbelow := map_put_scan_below H _ _ fuel _ sf hscan
          simp only at hbelow
          have hw1 : sf.mem s.out = (viewAt H mem0 (data + 2) i).1 := by
            rw [hbelow s.out (by omega), store_other _ _ _ _ (by omega), store_same]
          have hw2 : sf.mem (s.out + 1) = (viewAt H mem0 (data + 2) i).2 := by
            rw [hbelow (s.out + 1) (by omega), store_same]
          have hst : store (store sf.mem s.out (viewAt H mem0 (data + 2) i).1) (s.out + 1)
              (viewAt H mem0 (data + 2) i).2 = sf.mem := by
            rw [store_idem sf.mem s.out _ hw1, store_idem sf.mem (s.out + 1) _ hw2]
          simp only [hst]
          refine ih _ sf (i + 1) j ?_ ?_ hc.1 hjM ?_ ?_ ?_ ?_ hscan hmod
          · show s.in_ + 2 = _; rw [hin]; ring
          · exact hnv
          · exact agreeOff_store (agreeOff_store hag _ _ hlo (by omega)) _ _ (by omega) (by omega)
          · show lo ≤ s.out + 2; omega
          · show s.out + 2 + _ ≤ hi; omega
          · omega
        · rw [if_neg h2] at hscan
          have := map_put_scan_modified H _ _ fuel _ sf hscan hmod
          simp at this
    · have hdone : ¬ (s.in_ < data + 2 + 2 * N ∧ s.nv < nv + 2 * M) := by
        rw [hin, hnv]; omega
      rw [map_put_scan_done H _ _ _ _ hdone] at hscan
      cases hscan
      exact map_put_scan_done H _ _ _ _ hdone

/-! ## Reading back what `map_put` wrote -/

theorem keyStable_mono {H : Host} {mem0 mem1 : Store} {lo hi lo1 p : Nat}
    (h : KeyStable H mem0 lo hi p) (hag : AgreeOff lo hi mem0 mem1) (hlo : lo ≤ lo1) :
    KeyStable H mem1 lo1 hi p := by
  have htr : ∀ mem', AgreeOff lo1 hi mem1 mem' → AgreeOff lo hi mem0 mem' :=
    fun mem' h' => agreeOff_trans hag h' hlo (le_refl _)
  have hd : H.deRef mem1 p = H.deRef mem0 p := h.deRef_eq _ hag
  have hk : mem1 (H.deRef mem0 p) = mem0 (H.deRef mem0 p) := h.key_eq _ hag
  refine ⟨?_, ?_, ?_⟩
  · intro mem' h'
    rw [hd, h.deRef_eq _ (htr _ h')]
  · intro mem' h'
    rw [hd, hk, h.key_eq _ (htr _ h')]
  · intro mem' q h' hq
    rw [hd, hk] at hq
    exact h.key_word mem' q (htr _ h') hq

theorem valStable_mono {H : Host} {mem0 mem1 : Store} {lo hi lo1 p : Nat}
    (h : ValStable H mem0 lo hi p) (hag : AgreeOff lo hi mem0 mem1) (hlo : lo ≤ lo1) :
    ValStable H mem1 lo1 hi p := by
  have htr : ∀ mem', AgreeOff lo1 hi mem1 mem' → AgreeOff lo hi mem0 mem' :=
    fun mem' h' => agreeOff_trans hag h' hlo (le_refl _)
  have hl : H.linkVal mem1 p = H.linkVal mem0 p := h.linkVal_eq _ hag
  refine ⟨?_, ?_⟩
  · intro mem' h'
    rw [hl, h.linkVal_eq _ (htr _ h')]
  · intro mem' q h' hq
    rw [hl] at hq ⊢
    exact h.link_word mem' q (htr _ h') hq

/-- A cell below the free cells that holds a key word is a stable key slot. -/
theorem keyStable_of_keyWord {H : Host} {mem0 mem1 : Store} {lo hi lo1 q w : Nat}
    (hw : KeyWord H mem0 lo hi w) (hag : AgreeOff lo hi mem0 mem1) (hlo : lo ≤ lo1)
    (hq : q < lo1) (hcell : mem1 q = w) : KeyStable H mem1 lo1 hi q := by
  have htr : ∀ mem', AgreeOff lo1 hi mem1 mem' → AgreeOff lo hi mem0 mem' :=
    fun mem' h' => agreeOff_trans hag h' hlo (le_refl _)
  have hd : H.deRef mem1 q = q := hw mem1 q hag hcell
  refine ⟨?_, ?_, ?_⟩
  · intro mem' h'
    rw [hd]
    exact hw mem' q (htr _ h') (by rw [h' q (Or.inl hq), hcell])
  · intro mem' h'
    rw [hd]
    exact h' q (Or.inl hq)
  · intro mem' q2 h' hq2
    rw [hd, hcell] at hq2
    exact hw mem' q2 (htr _ h') hq2

/-- A cell below the free cells that holds a link word is a stable value
slot. -/
theorem valStable_of_linkWord {H : Host} {mem0 mem1 : Store} {lo hi lo1 q w : Nat}
    (hw : LinkWord H mem0 lo hi w) (hag : AgreeOff lo hi mem0 mem1) (hlo : lo ≤ lo1)
    (hq : q < lo1) (hcell : mem1 q = w) : ValStable H mem1 lo1 hi q := by
  have htr : ∀ mem', AgreeOff lo1 hi mem1 mem' → AgreeOff lo hi mem0 mem' :=
    fun mem' h' => agreeOff_trans hag h' hlo (le_refl _)
  have hl : H.linkVal mem1 q = w := hw mem1 q hag hcell
  refine ⟨?_, ?_⟩
  · intro mem' h'
    rw [hl]
    exact hw mem' q (htr _ h') (by rw [h' q (Or.inl hq), hcell])
  · intro mem' q2 h' hq2
    rw [hl] at hq2 ⊢
    exact hw mem' q2 (htr _ h') hq2

theorem rawList_getD (mem : Store) (base n k : Nat) (hk : k < n) :
    (rawList mem base n).getD k (0, 0) = (mem (base + 2 * k), mem (base + 2 * k + 1)) := by
  rw [List.getD_eq_getElem _ _ (by rw [rawList_length]; exact hk)]
  simp [rawList]

/-- The view of entries that consist of key words and link words is the words
in the cells. -/
theorem viewList_eq_rawList (H : Host) (mem0 mem1 : Store) (lo hi base n : Nat)
    (hag : AgreeOff lo hi mem0 mem1)
    (hwords : ∀ e ∈ rawList mem1 base n,
      KeyWord H mem0 lo hi e.1 ∧ LinkWord H mem0 lo hi e.2) :
    viewList H mem1 base n = rawList mem1 base n := by
  unfold viewList rawList
  apply List.map_congr_left
  intro k hk
  have hk' := List.mem_range.mp hk
  have hmem : (mem1 (base + 2 * k), mem1 (base + 2 * k + 1)) ∈ rawList mem1 base n := by
    unfold rawList
    exact List.mem_map.mpr ⟨k, hk, rfl⟩
  obtain ⟨h1, h2⟩ := hwords _ hmem
  unfold viewAt
  rw [h1 mem1 _ hag rfl, h2 mem1 _ hag rfl]

theorem viewList_stable (H : Host) (mem mem' : Store) (lo hi base n : Nat)
    (hk : ∀ i, i < n → KeyStable H mem lo hi (base + 2 * i))
    (hv : ∀ i, i < n → ValStable H mem lo hi (base + 2 * i + 1))
    (h : AgreeOff lo hi mem mem') :
    viewList H mem' base n = viewList H mem base n := by
  unfold viewList
  apply List.map_congr_left
  intro i hmem
  have hi' := List.mem_range.mp hmem
  exact viewAt_stable H mem mem' lo hi base i (hk i hi') (hv i hi') h

/-- The keys in a view are key words and the values link words. -/
theorem viewList_words (H : Host) (mem : Store) (lo hi base n : Nat)
    (hk : ∀ i, i < n → KeyStable H mem lo hi (base + 2 * i))
    (hv : ∀ i, i < n → ValStable H mem lo hi (base + 2 * i + 1)) :
    (∀ w ∈ (viewList H mem base n).map Prod.fst, KeyWord H mem lo hi w) ∧
      (∀ w ∈ (viewList H mem base n).map Prod.snd, LinkWord H mem lo hi w) := by
  constructor
  · intro w hw
    simp only [viewList, List.map_map, List.mem_map, List.mem_range, Function.comp] at hw
    obtain ⟨i, hi, rfl⟩ := hw
    exact (hk i hi).key_word
  · intro w hw
    simp only [viewList, List.map_map, List.mem_map, List.mem_range, Function.comp] at hw
    obtain ⟨i, hi, rfl⟩ := hw
    exact (hv i hi).link_word

/-! ## Put idempotence (C6) -/

/-- C6 (put idempotence).  Let `map` be a map with `N` entries below the top
of the global stack and `nv` an array of `size` incoming entries, such that what
`deRef` and `linkVal` read from their slots, and what `compareStandard` makes of
their values, does not depend on the free cells of the global stack, and let
there be room for two new maps.  Then `map_put(map, size, nv)` returns `TRUE`
with a map `m1`, `map_put(m1, size, nv)` returns `TRUE` with a map `m2`, and
`m2` has the arity of `m1`, the same word in the class slot and the same words
in its key and value slots. -/
theorem map_put_idempotent (H : Host) (st : PlState) (map size nv new_map new_map2 N : Nat)
    (hvt : ∀ p, H.valueTerm (H.consPtr p) = p)
    (hfun : ∀ n, H.arityFunctor (H.lookupFunctorDef H.ATOM_map n) = n)
    (harity : H.arityFunctor (st.mem (H.valueTerm map)) = 2 * N + 1)
    (hbelow : H.valueTerm map < st.gTop)
    (hspace : st.gTop + 2 * (1 + (2 * N + 1) + 2 * size) + 2 * size ≤ st.gMax)
    (hcache : CacheOK H st)
    (hcls : ValStable H st.mem st.gTop st.gMax (H.valueTerm map + 1))
    (hbk : ∀ i, i < N → KeyStable H st.mem st.gTop st.gMax (H.valueTerm map + 2 + 2 * i))
    (hbv : ∀ i, i < N → ValStable H st.mem st.gTop st.gMax (H.valueTerm map + 2 + 2 * i + 1))
    (hik : ∀ j, j < size → KeyStable H st.mem st.gTop st.gMax (nv + 2 * j))
    (hiv : ∀ j, j < size → ValStable H st.mem st.gTop st.gMax (nv + 2 * j + 1))
    (hcmp : ∀ mem', AgreeOff st.gTop st.gMax st.mem mem' → ∀ i j, i < N → j < size →
      H.compareStandard mem' (nv + 2 * j + 1) (H.valueTerm map + 2 + 2 * i + 1) true
        = H.compareStandard st.mem (nv + 2 * j + 1) (H.valueTerm map + 2 + 2 * i + 1) true) :
    ∃ r1 r2, map_put H st map size nv new_map = some r1 ∧
      map_put H r1.st r1.new_map size nv new_map2 = some r2 ∧
      r1.rc = PutRc.TRUE ∧ r2.rc = PutRc.TRUE ∧
      H.arityFunctor (r2.st.mem (H.valueTerm r2.new_map))
        = H.arityFunctor (r1.st.mem (H.valueTerm r1.new_map)) ∧
      r2.st.mem (H.valueTerm r2.new_map + 1) = r1.st.mem (H.valueTerm r1.new_map + 1) ∧
      entriesOf r2.st.mem (H.valueTerm r2.new_map)
          (H.arityFunctor (r1.st.mem (H.valueTerm r1.new_map)) / 2)
        = entriesOf r1.st.mem (H.valueTerm r1.new_map)
          (H.arityFunctor (r1.st.mem (H.valueTerm r1.new_map)) / 2) := by
  by_cases hsize : size = 0
  · refine ⟨{ rc := PutRc.TRUE, new_map := map, st := st },
      { rc := PutRc.TRUE, new_map := map, st := st }, ?_, ?_, rfl, rfl, rfl, rfl, rfl⟩
    · unfold map_put; simp [hsize]
    · unfold map_put; simp [hsize]
  · obtain ⟨r1, hput1, hrc1, hmax1, hcache1, hag1, hcase⟩ := map_put_spec H st map size nv
      new_map N harity (by omega) (by omega) hcache hcls hbk hbv hik hiv
    rcases hcase with ⟨-, -, sf, hscan, hnvend, hmod, hr1⟩ |
      ⟨hnew, hlen, htop1, hfun1, hcls1, hraw1⟩
    · -- the first call returned the base map: the second call does the same
      subst hr1
      have hagain := map_put_scan_again H st.mem st.gTop st.gMax (H.valueTerm map) nv N size
        hbk hbv hik hiv hcmp (N + size) _ sf 0 0 rfl rfl (Nat.zero_le _) (Nat.zero_le _)
        (agreeOff_refl _ _ _) (by show st.gTop ≤ st.gTop + 2; omega)
        (by show st.gTop + 2 + _ ≤ _; omega) (by omega) hscan hmod
      refine ⟨_, { rc := PutRc.TRUE, new_map := map, st := { st with mem := sf.mem } },
        hput1, ?_, rfl, rfl, rfl, rfl, rfl⟩
      have hdata : sf.mem (H.valueTerm map) = st.mem (H.valueTerm map) :=
        hag1 _ (Or.inl hbelow)
      unfold map_put
      simp only [hdata, harity]
      rw [if_neg hsize, if_neg (by omega)]
      have e1 : H.valueTerm map + 2 + (2 * N + 1) - 1 = H.valueTerm map + 2 + 2 * N := by omega
      have e2 : nv + size * 2 = nv + 2 * size := by omega
      have e3 : (2 * N + 1) / 2 + size = N + size := by omega
      simp only [e1, e2, e3]
      simp only at hagain
      rw [hagain]
      simp only [hnvend, hmod]
      rfl
    · -- the first call built a new map
      obtain ⟨hkw, hlw⟩ := viewList_words H st.mem st.gTop st.gMax (H.valueTerm map + 2) N
        hbk hbv
      obtain ⟨hkwI, hlwI⟩ := viewList_words H st.mem st.gTop st.gMax nv size hik hiv
      have hwords : ∀ e ∈ mergeEntries (viewList H st.mem (H.valueTerm map + 2) N)
          (viewList H st.mem nv size),
          KeyWord H st.mem st.gTop st.gMax e.1 ∧ LinkWord H st.mem st.gTop st.gMax e.2 := by
        intro e he
        obtain ⟨h1, h2⟩ := mem_mergeEntries _ _ e he
        constructor
        · rcases h1 with h | h
          · exact hkw _ h
          · exact hkwI _ h
        · rcases h2 with h | h
          · exact hlw _ h
          · exact hlwI _ h
      obtain ⟨L, hL⟩ : ∃ L, L = mergeEntries (viewList H st.mem (H.valueTerm map + 2) N)
          (viewList H st.mem nv size) := ⟨_, rfl⟩
      rw [← hL] at hlen htop1 hfun1 hraw1 hwords
      have hdata1 : H.valueTerm r1.new_map = st.gTop := by rw [hnew, hvt]
      have harity1 : H.arityFunctor (r1.st.mem (H.valueTerm r1.new_map)) = 2 * L.length + 1 := by
        rw [hdata1, hfun1, hfun]; ring
      have hlt : st.gTop ≤ r1.st.gTop := by omega
      -- the slots of the new map are stable
      have hcls2 : ValStable H r1.st.mem r1.st.gTop r1.st.gMax (H.valueTerm r1.new_map + 1) := by
        rw [hmax1, hdata1]
        exact valStable_of_linkWord hcls.link_word hag1 hlt (by omega) hcls1
      have hcell : ∀ k, k < L.length →
          (r1.st.mem (st.gTop + 2 + 2 * k), r1.st.mem (st.gTop + 2 + 2 * k + 1))
            = L.getD k (0, 0) := by
        intro k hk
        rw [← rawList_getD r1.st.mem (st.gTop + 2) L.length k hk, hraw1]
      have hLmem : ∀ k, k < L.length → L.getD k (0, 0) ∈ L := by
        intro k hk
        rw [List.getD_eq_getElem _ _ hk]
        exact List.getElem_mem _
      have hbk2 : ∀ k, k < L.length →
          KeyStable H r1.st.mem r1.st.gTop r1.st.gMax (H.valueTerm r1.new_map + 2 + 2 * k) := by
        intro k hk
        rw [hmax1, hdata1]
        exact keyStable_of_keyWord (hwords _ (hLmem k hk)).1 hag1 hlt (by omega)
          (congrArg Prod.fst (hcell k hk))
      have hbv2 : ∀ k, k < L.length →
          ValStable H r1.st.mem r1.st.gTop r1.st.gMax
            (H.valueTerm r1.new_map + 2 + 2 * k + 1) := by
        intro k hk
        rw [hmax1, hdata1]
        exact valStable_of_linkWord (hwords _ (hLmem k hk)).2 hag1 hlt (by omega)
          (congrArg Prod.snd (hcell k hk))
      have hik2 : ∀ j, j < size → KeyStable H r1.st.mem r1.st.gTop r1.st.gMax (nv + 2 * j) := by
        intro j hj
        rw [hmax1]
        exact keyStable_mono (hik j hj) hag1 hlt
      have hiv2 : ∀ j, j < size →
          ValStable H r1.st.mem r1.st.gTop r1.st.gMax (nv + 2 * j + 1) := by
        intro j hj
        rw [hmax1]
        exact valStable_mono (hiv j hj) hag1 hlt
      -- what the second call reads
      have hviewB : viewList H r1.st.mem (H.valueTerm r1.new_map + 2) L.length = L := by
        rw [hdata1, viewList_eq_rawList H st.mem r1.st.mem st.gTop st.gMax _ _ hag1
          (by rw [hraw1]; exact hwords), hraw1]
      have hviewI : viewList H r1.st.mem nv size = viewList H st.mem nv size :=
        viewList_stable H st.mem r1.st.mem st.gTop st.gMax nv size hik hiv hag1
      obtain ⟨r2, hput2, hrc2, -, -, hag2, hcase2⟩ := map_put_spec H r1.st r1.new_map size nv
        new_map2 L.length harity1 (by omega) (by rw [hmax1]; omega) hcache1 hcls2 hbk2 hbv2
        hik2 hiv2
      have hidem : mergeEntries L (viewList H st.mem nv size) = L := by
        rw [hL, mergeEntries_idem]
      rw [hviewB, hviewI, hidem] at hcase2
      refine ⟨r1, r2, hput1, hput2, hrc1, hrc2, ?_⟩
      rw [harity1]
      have hhalf : (2 * L.length + 1) / 2 = L.length := by omega
      rw [hhalf]
      unfold entriesOf
      rcases hcase2 with ⟨hsame, -, -⟩ | ⟨hnew2, -, -, hfun2, hcls2', hraw2⟩
      · -- the second call returned the map of the first
        rw [hsame, hdata1]
        refine ⟨?_, ?_, ?_⟩
        · rw [hag2 _ (Or.inl (by omega)), hfun1, hfun]; ring
        · exact hag2 _ (Or.inl (by omega))
        · apply rawList_congr
          intro a _ h2
          exact hag2 _ (Or.inl (by omega))
      · -- the second call built a map with the same entries
        have hdata2 : H.valueTerm r2.new_map = r1.st.gTop := by rw [hnew2, hvt]
        rw [hdata2, hdata1]
        refine ⟨?_, ?_, ?_⟩
        · rw [hfun2, hfun]; ring
        · rw [hcls2', hdata1, hcls1]
          exact hcls.link_word r1.st.mem _ hag1 hcls1
        · rw [hraw2, hraw1]

/-! ## The concrete host: cells that are read the same way whatever the free
cells hold -/

namespace Demo

theorem deRefN_of_not_ref (mem : Store) (n p : Nat) (h : mem p % 8 ≠ 7) :
    deRefN mem n p = p := by
  cases n with
  | zero => rfl
  | succ n => rw [deRefN, if_neg h]

theorem linkValN_of_not_ref (mem : Store) (n w : Nat) (h : w % 8 ≠ 7) :
    linkValN mem n w = w := by
  cases n with
  | zero => rfl
  | succ n => rw [linkValN, if_neg h]

/-- A cell outside the free cells that does not hold a reference is a stable
key slot. -/
theorem keyStable (mem : Store) (lo hi p : Nat) (hp : p < lo ∨ hi ≤ p)
    (h : mem p % 8 ≠ 7) : KeyStable host mem lo hi p := by
  have hd : host.deRef mem p = p := deRefN_of_not_ref mem 16 p h
  refine ⟨?_, ?_, ?_⟩
  · intro mem' h'
    rw [hd]
    exact deRefN_of_not_ref mem' 16 p (by rw [h' p hp]; exact h)
  · intro mem' h'
    rw [hd]
    exact h' p hp
  · intro mem' q _ hq
    rw [hd] at hq
    exact deRefN_of_not_ref mem' 16 q (by rw [hq]; exact h)

/-- A cell outside the free cells that holds an atomic word is a stable value
slot. -/
theorem valStable (mem : Store) (lo hi p : Nat) (hp : p < lo ∨ hi ≤ p)
    (h0 : mem p ≠ 0) (h1 : mem p % 8 ≠ 1) (h7 : mem p % 8 ≠ 7) :
    ValStable host mem lo hi p := by
  have hn : needsRef (mem p) = false := by simp [needsRef, h0, h1]
  have hword : ∀ mem' q, mem' q = mem p → host.linkVal mem' q = mem p := by
    intro mem' q hq
    show linkVal mem' q = mem p
    unfold linkVal
    rw [hq, hn]
    simp only [Bool.false_eq_true, if_false]
    exact linkValN_of_not_ref mem' 16 _ h7
  have hl : host.linkVal mem p = mem p := hword mem p rfl
  refine ⟨?_, ?_⟩
  · intro mem' h'
    rw [hl]
    exact hword mem' p (h' p hp)
  · intro mem' q _ hq
    rw [hl] at hq ⊢
    exact hword mem' q hq

/-- A cell outside the free cells that holds an unbound variable is a stable
value slot: it is linked to by a reference. -/
theorem valStable_var (mem : Store) (lo hi p : Nat) (hp : p < lo ∨ hi ≤ p)
    (h0 : mem p = 0) : ValStable host mem lo hi p := by
  have hl : ∀ mem', mem' p = 0 → host.linkVal mem' p = ref p := by
    intro mem' h
    show linkVal mem' p = ref p
    unfold linkVal
    rw [h]
    rfl
  have hrefp : ref p % 8 = 7 := by unfold ref; omega
  have hrefd : ref p / 8 = p := by unfold ref; omega
  refine ⟨?_, ?_⟩
  · intro mem' h'
    rw [hl mem h0, hl mem' (by rw [h' p hp, h0])]
  · intro mem' q h' hq
    rw [hl mem h0] at hq ⊢
    show linkVal mem' q = ref p
    unfold linkVal
    rw [hq]
    have hn : needsRef (ref p) = false := by
      unfold needsRef ref
      simp
      omega
    rw [hn]
    simp only [Bool.false_eq_true, if_false]
    show linkValN mem' (15 + 1) (ref p) = ref p
    rw [linkValN, if_pos hrefp, hrefd, h' p hp, h0]
    rfl

/-- The shallow comparison of two cells outside the free cells that hold no
references does not depend on the free cells. -/
theorem compareStandard_stable (mem mem' : Store) (lo hi p q : Nat) (b : Bool)
    (h' : AgreeOff lo hi mem mem') (hp : p < lo ∨ hi ≤ p) (hq : q < lo ∨ hi ≤ q)
    (h1 : mem p % 8 ≠ 7) (h2 : mem q % 8 ≠ 7) :
    host.compareStandard mem' p q b = host.compareStandard mem p q b := by
  show compareStandard mem' p q b = compareStandard mem p q b
  unfold compareStandard
  rw [deRefN_of_not_ref mem 16 p h1, deRefN_of_not_ref mem 16 q h2,
    deRefN_of_not_ref mem' 16 p (by rw [h' p hp]; exact h1),
    deRefN_of_not_ref mem' 16 q (by rw [h' q hq]; exact h2)]
  simp only [h' p hp, h' q hq]

theorem valueTerm_consPtr (p : Nat) : host.valueTerm (host.consPtr p) = p := by
  show compound p / 8 = p
  unfold compound
  omega

theorem arityFunctor_lookup (n : Nat) :
    host.arityFunctor (host.lookupFunctorDef host.ATOM_map n) = n := by
  show functor (atom 1 / 8 % 32) n / 8 / 32 = n
  unfold functor atom
  omega

theorem cacheOK_state (mem : Store) (top max : Nat) : CacheOK host (state mem top max) := by
  intro i hi
  exact absurd rfl hi

end Demo

/-- C6 at the map `_{a:1, b:7, c:3}` and the incoming entries `a:1, c:3`: both
calls build a map, the second with the words of the first. -/
theorem map_put_idempotent_witness :
    ∃ r1 r2, map_put Demo.host (Demo.state Demo.subMaps 14 64) (Demo.compound 0) 2 10 0
        = some r1 ∧
      map_put Demo.host r1.st r1.new_map 2 10 0 = some r2 ∧
      r1.rc = PutRc.TRUE ∧ r2.rc = PutRc.TRUE ∧
      Demo.host.arityFunctor (r2.st.mem (Demo.host.valueTerm r2.new_map))
        = Demo.host.arityFunctor (r1.st.mem (Demo.host.valueTerm r1.new_map)) ∧
      r2.st.mem (Demo.host.valueTerm r2.new_map + 1)
        = r1.st.mem (Demo.host.valueTerm r1.new_map + 1) ∧
      entriesOf r2.st.mem (Demo.host.valueTerm r2.new_map)
          (Demo.host.arityFunctor (r1.st.mem (Demo.host.valueTerm r1.new_map)) / 2)
        = entriesOf r1.st.mem (Demo.host.valueTerm r1.new_map)
          (Demo.host.arityFunctor (r1.st.mem (Demo.host.valueTerm r1.new_map)) / 2) :=
  map_put_idempotent Demo.host (Demo.state Demo.subMaps 14 64) (Demo.compound 0) 2 10 0 0 3
    Demo.valueTerm_consPtr Demo.arityFunctor_lookup (by decide) (by decide) (by decide)
    (Demo.cacheOK_state _ _ _)
    (Demo.valStable_var _ _ _ _ (Or.inl (by decide)) (by decide))
    (fun i hi => Demo.keyStable _ _ _ _
      (Or.inl (by interval_cases i <;> decide)) (by interval_cases i <;> decide))
    (fun i hi => Demo.valStable _ _ _ _
      (Or.inl (by interval_cases i <;> decide)) (by interval_cases i <;> decide)
      (by interval_cases i <;> decide) (by interval_cases i <;> decide))
    (fun j hj => Demo.keyStable _ _ _ _
      (Or.inl (by interval_cases j <;> decide)) (by interval_cases j <;> decide))
    (fun j hj => Demo.valStable _ _ _ _
      (Or.inl (by interval_cases j <;> decide)) (by interval_cases j <;> decide)
      (by interval_cases j <;> decide) (by interval_cases j <;> decide))
    (fun mem' h' i j hi hj => Demo.compareStandard_stable _ mem' _ _ _ _ true h'
      (Or.inl (by interval_cases j <;> decide)) (Or.inl (by interval_cases i <;> decide))
      (by interval_cases j <;> decide) (by interval_cases i <;> decide))

/-! ## Construction from a list (C9, C10) -/

/-- The function `get_name_value` accepts an element of an accepted shape and writes its key
and the link to its value. -/
theorem get_name_value_shape (H : Host) (mem0 mem : Store) (lo hi head k v name value : Nat)
    (hshape : ElemShape H mem0 lo hi head k v) (hag : AgreeOff lo hi mem0 mem)
    (h1 : lo ≤ name) (h2 : name < hi) :
    get_name_value H mem head name value = (true, store (store mem name k) value v) := by
  obtain ⟨f, hf, hsh⟩ := hshape
  obtain ⟨hterm, hval, hfun⟩ := hf mem hag
  have hag1 : AgreeOff lo hi mem0 (store mem name k) := agreeOff_store hag _ _ h1 h2
  unfold get_name_value
  simp only [hterm, if_true, hval, hfun]
  rcases hsh with ⟨hfn, hkey, hargs⟩ | ⟨hfn, har, hname, hargs⟩
  · rw [if_pos hfn]
    rw [(hargs mem hag).1, if_pos hkey, (hargs _ hag1).2]
  · rw [if_neg hfn, if_pos har, hname, hargs _ hag1]

/-- The loop over the list writes the keys and values of the elements, in list
order, from `ap` on. -/
theorem PL_get_map_ex_loop_spec (H : Host) (mem0 : Store) (lo hi : Nat) :
    ∀ (es : List (Nat × Nat)) (fuel : Nat) (mem : Store) (tail ap : Nat),
      ListShape H mem0 lo hi tail es → AgreeOff lo hi mem0 mem → lo ≤ ap →
      ap + 2 * es.length ≤ hi → es.length + 1 ≤ fuel →
      ∃ mem', PL_get_map_ex_loop H fuel mem tail ap
          = some (BuildLoop.done mem' (ap + 2 * es.length)) ∧
        rawList mem' ap es.length = es ∧
        ∀ a, a < ap ∨ ap + 2 * es.length ≤ a → mem' a = mem a := by
  intro es
  induction es with
  | nil =>
    intro fuel mem tail ap hshape hag _ _ hfuel
    obtain ⟨fuel, rfl⟩ : ∃ n, fuel = n + 1 := ⟨fuel - 1, by simp at hfuel; omega⟩
    refine ⟨mem, ?_, rfl, fun _ _ => rfl⟩
    rw [PL_get_map_ex_loop, if_neg]
    · rfl
    · rw [hshape mem hag]; simp
  | cons e es ih =>
    intro fuel mem tail ap hshape hag hlo hhi hfuel
    obtain ⟨fuel, rfl⟩ : ∃ n, fuel = n + 1 := ⟨fuel - 1, by simp at hfuel; omega⟩
    obtain ⟨head, tail1, hcell, helem, hrest⟩ := hshape
    rw [List.length_cons] at hhi hfuel
    obtain ⟨hl, hh, -⟩ := hcell mem hag
    have hag1 : AgreeOff lo hi mem0 (store (store mem ap e.1) (ap + 1) e.2) :=
      agreeOff_store (agreeOff_store hag _ _ hlo (by omega)) _ _ (by omega) (by omega)
    obtain ⟨-, -, ht⟩ := hcell _ hag1
    have hgnv := get_name_value_shape H mem0 mem lo hi head e.1 e.2 ap (ap + 1) helem hag hlo
      (by omega)
    rw [PL_get_map_ex_loop, if_pos hl, hh]
    simp only [hgnv, ht]
    obtain ⟨mem', hloop, hraw, hframe⟩ := ih fuel _ tail1 (ap + 2) hrest hag1 (by omega)
      (by omega) (by omega)
    have hassemble := rawList_after_step mem mem' ap e es hraw hframe
    refine ⟨mem', ?_, hassemble.1, hassemble.2⟩
    rw [hloop, List.length_cons]
    congr 2
    ring

/-! ### `qsort` and `map_order` -/

theorem compare_map_entry_le (H : Host) (mem : Store) (a b : Nat) :
    compare_map_entry H mem a b ≤ 0 ↔ mem (H.deRef mem a) ≤ mem (H.deRef mem b) := by
  unfold compare_map_entry
  simp only []
  split_ifs with h1 h2
  · constructor
    · intro _; omega
    · intro _; decide
  · constructor
    · intro h; exact absurd h (by decide)
    · intro h; omega
  · constructor
    · intro _; omega
    · intro _; decide

theorem map_range_getD {α β : Type} (l : List α) (d : α) (g : α → β) :
    (List.range l.length).map (fun p => g (l.getD p d)) = l.map g := by
  apply List.ext_getElem
  · simp
  · intro p h1 h2
    simp only [List.getElem_map, List.getElem_range]
    have hp : p < l.length := by simpa using h2
    rw [List.getD_eq_getElem _ _ hp]

theorem qsort_frame (mem : Store) (base n : Nat) (compar : Store → Nat → Nat → Int) (x : Nat)
    (h : x < base ∨ base + 2 * n ≤ x) : qsort mem base n 2 compar x = mem x := by
  unfold qsort
  show (if _ then _ else _) = _
  rw [if_neg]
  omega

/-- After `qsort` the array holds the elements it held before, in the order of
the sorted positions. -/
theorem qsort_rawList (mem : Store) (base n : Nat) (compar : Store → Nat → Nat → Int) :
    rawList (qsort mem base n 2 compar) base n
      = ((List.range n).insertionSort
          (fun i j => compar mem (base + 2 * i) (base + 2 * j) ≤ 0)).map
          (fun i => (mem (base + 2 * i), mem (base + 2 * i + 1))) := by
  have hlen : ((List.range n).insertionSort
      (fun i j => compar mem (base + 2 * i) (base + 2 * j) ≤ 0)).length = n := by
    rw [List.length_insertionSort, List.length_range]
  rw [← map_range_getD _ 0 (fun i => (mem (base + 2 * i), mem (base + 2 * i + 1))), hlen]
  unfold rawList
  apply List.map_congr_left
  intro p hp
  have hp' := List.mem_range.mp hp
  unfold qsort
  show ((if _ then _ else _, if _ then _ else _) : Nat × Nat) = _
  rw [if_pos (by omega), if_pos (by omega)]
  have e1 : (base + 2 * p - base) / 2 = p := by omega
  have e2 : (base + 2 * p - base) % 2 = 0 := by omega
  have e3 : (base + 2 * p + 1 - base) / 2 = p := by omega
  have e4 : (base + 2 * p + 1 - base) % 2 = 1 := by omega
  rw [e1, e2, e3, e4]
  rfl

/-- What `map_order` does to an array of `n` entries whose keys are no
references: it rearranges the entries, and it succeeds exactly when no key
occurs twice, the keys then increasing strictly. -/
theorem map_order_spec (H : Host) (hL : HostLaws H) (mem : Store) (m n : Nat)
    (es : List (Nat × Nat))
    (harity : H.arityFunctor (mem m) = 2 * n + 1)
    (hraw : rawList mem (m + 2) n = es)
    (hkeys : ∀ e ∈ es, H.isRef e.1 = false) :
    (∀ x, x < m + 2 ∨ m + 2 + 2 * n ≤ x → (map_order H mem m).2 x = mem x) ∧
    (rawList (map_order H mem m).2 (m + 2) n).Perm es ∧
    ((map_order H mem m).1 = true →
      List.Pairwise (· < ·) ((rawList (map_order H mem m).2 (m + 2) n).map Prod.fst)) ∧
    ((es.map Prod.fst).Nodup → (map_order H mem m).1 = true) := by
  have hhalf : (2 * n + 1) / 2 = n := by omega
  have hm2 : (map_order H mem m).2 = qsort mem (m + 2) n 2 (compare_map_entry H) := by
    unfold map_order
    simp only [harity, hhalf]
  have hm1 : (map_order H mem m).1
      = map_ordered H (qsort mem (m + 2) n 2 (compare_map_entry H)) (m + 2) n := by
    unfold map_order
    simp only [harity, hhalf]
  rw [hm1, hm2]
  obtain ⟨order, horder⟩ : ∃ order, order = (List.range n).insertionSort
      (fun i j => compare_map_entry H mem (m + 2 + 2 * i) (m + 2 + 2 * j) ≤ 0) := ⟨_, rfl⟩
  have hq := qsort_rawList mem (m + 2) n (compare_map_entry H)
  rw [← horder] at hq
  have hperm : order.Perm (List.range n) := by
    rw [horder]; exact List.perm_insertionSort _ _
  -- the entries after sorting are a permutation of the entries before
  have hpermS : (rawList (qsort mem (m + 2) n 2 (compare_map_entry H)) (m + 2) n).Perm es := by
    rw [hq, ← hraw]
    exact hperm.map _
  -- so their keys are no references, and `map_ordered` compares the key slots
  have hkeys4 : ∀ i, i < n →
      H.isRef (qsort mem (m + 2) n 2 (compare_map_entry H) (m + 2 + 2 * i)) = false := by
    intro i hi
    have hmem : (qsort mem (m + 2) n 2 (compare_map_entry H) (m + 2 + 2 * i),
        qsort mem (m + 2) n 2 (compare_map_entry H) (m + 2 + 2 * i + 1))
        ∈ rawList (qsort mem (m + 2) n 2 (compare_map_entry H)) (m + 2) n := by
      unfold rawList
      exact List.mem_map.mpr ⟨i, List.mem_range.mpr hi, rfl⟩
    exact hkeys _ (hpermS.mem_iff.mp hmem)
  have hkeyAt : ∀ i, i < n →
      keyAt H (qsort mem (m + 2) n 2 (compare_map_entry H)) m i
        = qsort mem (m + 2) n 2 (compare_map_entry H) (m + 2 + 2 * i) := by
    intro i hi
    unfold keyAt
    rw [hL.deRef_self _ _ (hkeys4 i hi)]
  have hK : (rawList (qsort mem (m + 2) n 2 (compare_map_entry H)) (m + 2) n).map Prod.fst
      = (List.range n).map
          (fun i => qsort mem (m + 2) n 2 (compare_map_entry H) (m + 2 + 2 * i)) := by
    unfold rawList
    rw [List.map_map]
    rfl
  refine ⟨fun x hx => qsort_frame mem (m + 2) n _ x hx, hpermS, ?_, ?_⟩
  · -- ordered keys increase strictly along the array
    intro hord
    have hadj := (map_ordered_iff H _ m n).mp hord
    have hmono := keys_strict_mono _ n hadj
    rw [hK, List.pairwise_map, List.pairwise_iff_getElem]
    intro i j hi hj hij
    simp only [List.getElem_range]
    rw [List.length_range] at hi hj
    rw [← hkeyAt i hi, ← hkeyAt j hj]
    exact hmono i j hij hj
  · -- distinct keys are strictly ordered after sorting
    intro hnd
    rw [map_ordered_iff]
    have hndS : ((rawList (qsort mem (m + 2) n 2 (compare_map_entry H)) (m + 2) n).map
        Prod.fst).Nodup := (List.Perm.nodup_iff (hpermS.map Prod.fst)).mpr hnd
    -- the sorted positions are in the order of the keys
    have hsorted : List.Pairwise
        (fun i j => compare_map_entry H mem (m + 2 + 2 * i) (m + 2 + 2 * j) ≤ 0) order := by
      rw [horder]
      haveI : IsTotal Nat
          (fun i j => compare_map_entry H mem (m + 2 + 2 * i) (m + 2 + 2 * j) ≤ 0) :=
        ⟨fun a b => by
          simp only [compare_map_entry_le]
          exact le_total _ _⟩
      haveI : IsTrans Nat
          (fun i j => compare_map_entry H mem (m + 2 + 2 * i) (m + 2 + 2 * j) ≤ 0) :=
        ⟨fun a b c => by
          simp only [compare_map_entry_le]
          exact le_trans⟩
      exact List.sorted_insertionSort _ _
    have hkeys3 : ∀ i, i < n → H.isRef (mem (m + 2 + 2 * i)) = false := by
      intro i hi
      have hmem : (mem (m + 2 + 2 * i), mem (m + 2 + 2 * i + 1)) ∈ es := by
        rw [← hraw]
        unfold rawList
        exact List.mem_map.mpr ⟨i, List.mem_range.mpr hi, rfl⟩
      exact hkeys _ hmem
    have hsortedK : List.Pairwise (· ≤ ·)
        ((rawList (qsort mem (m + 2) n 2 (compare_map_entry H)) (m + 2) n).map Prod.fst) := by
      rw [hq, List.map_map, List.pairwise_map]
      apply List.Pairwise.imp_of_mem _ hsorted
      intro i j hi hj hr
      have hi' : i < n := List.mem_range.mp (hperm.mem_iff.mp hi)
      have hj' : j < n := List.mem_range.mp (hperm.mem_iff.mp hj)
      rw [compare_map_entry_le, hL.deRef_self _ _ (hkeys3 i hi'),
        hL.deRef_self _ _ (hkeys3 j hj')] at hr
      exact hr
    have hstrict := (hsortedK.and hndS).imp (fun {a b} (h : a ≤ b ∧ a ≠ b) =>
      lt_of_le_of_ne h.1 h.2)
    rw [hK, List.pairwise_map, List.pairwise_iff_getElem] at hstrict
    intro i hi
    rw [hkeyAt i (by omega), hkeyAt (i + 1) hi]
    have := hstrict i (i + 1) (by rw [List.length_range]; omega)
      (by rw [List.length_range]; omega) (by omega)
    simpa using this

/-- The keys of a list of well-shaped elements are no references. -/
theorem listShape_keys_not_ref {H : Host} (hL : HostLaws H) {mem0 : Store} {lo hi : Nat} :
    ∀ {es : List (Nat × Nat)} {tail : Nat}, ListShape H mem0 lo hi tail es →
      ∀ e ∈ es, H.isRef e.1 = false := by
  intro es
  induction es with
  | nil => intro _ _ e he; cases he
  | cons e0 es ih =>
    intro tail hshape e he
    obtain ⟨head, tail1, -, ⟨f, -, hsh⟩, hrest⟩ := hshape
    rcases List.mem_cons.mp he with h | h
    · subst h
      rcases hsh with ⟨-, hkey, -⟩ | ⟨-, -, hname, -⟩
      · exact hL.key_not_ref _ hkey
      · rw [← hname]
        exact hL.name_not_ref _
    · exact ih hrest e h

theorem allocGlobal_ok (st : PlState) (n : Nat) (h : st.gTop + n ≤ st.gMax) :
    allocGlobal st n = (some st.gTop, { st with gTop := st.gTop + n }) := by
  unfold allocGlobal
  rw [if_neg (by omega)]

/-- The function `PL_get_map_ex` on a proper list of well-shaped elements, up to the call
of `map_order`: the new term at the old top of the stack has the functor
`map/(2n+1)`, the class asked for and the keys and values of the elements in
list order; the result depends on `map_order` alone. -/
theorem PL_get_map_ex_build (H : Host) (st : PlState) (data cls map tail0 : Nat)
    (es : List (Nat × Nat))
    (hnm : PL_is_map H st data = false)
    (hlist : H.PL_is_list st.mem data = true)
    (hlen : H.lengthList st.mem data = (es.length : Int))
    (hspace : st.gTop + (es.length * 2 + 2) ≤ st.gMax)
    (hcache : CacheOK H st)
    (htail : ∀ mem, AgreeOff st.gTop st.gMax st.mem mem →
      H.deRef mem (H.valTermRef data) = tail0)
    (hshape : ListShape H st.mem st.gTop st.gMax tail0 es) :
    ∃ mem3 mf, AgreeOff st.gTop st.gMax st.mem mem3 ∧
      mem3 st.gTop = H.lookupFunctorDef H.ATOM_map (es.length * 2 + 1) ∧
      mem3 (st.gTop + 1)
        = (if cls ≠ 0 then
            H.linkVal (store st.mem st.gTop (H.lookupFunctorDef H.ATOM_map (es.length * 2 + 1)))
              (H.valTermRef cls)
          else H.setVar) ∧
      rawList mem3 (st.gTop + 2) es.length = es ∧
      PL_get_map_ex H st data cls map =
        if (map_order H mem3 st.gTop).1 = true then
          some (Outcome.TRUE,
            { mem := store (map_order H mem3 st.gTop).2 (H.valTermRef map) (H.consPtr st.gTop)
              gTop := st.gTop + (es.length * 2 + 2)
              gMax := st.gMax
              map_functors := mf })
        else
          some (Outcome.type_error "map-data" data,
            { mem := (map_order H mem3 st.gTop).2
              gTop := st.gTop
              gMax := st.gMax
              map_functors := mf }) := by
  obtain ⟨hf1, -, hf3, hf4, hf5⟩ := map_functor_spec H
    (PlState.mk st.mem (st.gTop + (es.length * 2 + 2)) st.gMax st.map_functors)
    (es.length * 2 + 1) hcache
  simp only at hf3 hf4 hf5
  obtain ⟨f, hfdef⟩ : ∃ f, f = H.lookupFunctorDef H.ATOM_map (es.length * 2 + 1) :=
    ⟨_, rfl⟩
  rw [← hfdef] at hf1
  obtain ⟨c, hcdef⟩ : ∃ c, c = (if cls ≠ 0 then
      H.linkVal (store st.mem st.gTop f) (H.valTermRef cls) else H.setVar) := ⟨_, rfl⟩
  have hag1 : AgreeOff st.gTop st.gMax st.mem (store st.mem st.gTop f) :=
    agreeOff_store (agreeOff_refl _ _ _) _ _ (le_refl _) (by omega)
  have hag2 : AgreeOff st.gTop st.gMax st.mem (store (store st.mem st.gTop f) (st.gTop + 1) c) :=
    agreeOff_store hag1 _ _ (by omega) (by omega)
  have hmem2 : (if cls ≠ 0 then store (store st.mem st.gTop f) (st.gTop + 1)
        (H.linkVal (store st.mem st.gTop f) (H.valTermRef cls))
      else store (store st.mem st.gTop f) (st.gTop + 1) H.setVar)
      = store (store st.mem st.gTop f) (st.gTop + 1) c := by
    by_cases hc : cls ≠ 0
    · rw [if_pos hc, hcdef, if_pos hc]
    · rw [if_neg hc, hcdef, if_neg hc]
  obtain ⟨mem3, hloop, hraw, hframe⟩ := PL_get_map_ex_loop_spec H st.mem st.gTop st.gMax es
    (es.length + 1) _ tail0 (st.gTop + 2) hshape hag2 (by omega) (by omega) (le_refl _)
  have hag3 : AgreeOff st.gTop st.gMax st.mem mem3 := by
    intro a ha
    rw [hframe a (by omega)]
    exact hag2 a ha
  refine ⟨mem3, (map_functor H
    (PlState.mk st.mem (st.gTop + (es.length * 2 + 2)) st.gMax st.map_functors)
    (es.length * 2 + 1)).2.map_functors, hag3, ?_, ?_, hraw, ?_⟩
  · rw [hframe _ (by omega), store_other _ _ _ _ (by omega), store_same, hfdef]
  · rw [hframe _ (by omega), store_same, hcdef, hfdef]
  · unfold PL_get_map_ex
    rw [hnm]
    simp only [Bool.false_eq_true, if_false, hlist, if_true, hlen, Int.toNat_ofNat]
    rw [if_neg (by omega), allocGlobal_ok st _ hspace]
    simp only [hf1, hf3, hf4, hf5, hmem2, htail _ hag2, hloop]

/-- Key slots that hold no references and whose words increase strictly pass
`map_ordered`. -/
theorem map_ordered_of_pairwise (H : Host) (hL : HostLaws H) (mem : Store) (m n : Nat)
    (hkeys : ∀ i, i < n → H.isRef (mem (m + 2 + 2 * i)) = false)
    (hpw : List.Pairwise (· < ·) ((rawList mem (m + 2) n).map Prod.fst)) :
    map_ordered H mem (m + 2) n = true := by
  rw [map_ordered_iff]
  intro i hi
  unfold keyAt
  rw [hL.deRef_self _ _ (hkeys i (by omega)), hL.deRef_self _ _ (hkeys (i + 1) hi)]
  unfold rawList at hpw
  rw [List.map_map, List.pairwise_map, List.pairwise_iff_getElem] at hpw
  have := hpw i (i + 1) (by rw [List.length_range]; omega) (by rw [List.length_range]; omega)
    (by omega)
  simpa using this

/-- C10 (duplicate rejection).  Let `data` be a proper list, not itself a map,
of `n` elements of the accepted shapes, with room for the new term, and let
some key occur in two of the elements.  Then `PL_get_map_ex` raises the type
error `map-data` on `data`; the top of the global stack is what it was before
the call, no cell outside the free part of the global stack has changed, and
the term reference `map` has not been assigned: no map is produced, whichever
of the equal keys came first. -/
theorem PL_get_map_ex_duplicate (H : Host) (hL : HostLaws H) (st : PlState)
    (data cls map tail0 : Nat) (es : List (Nat × Nat))
    (hnm : PL_is_map H st data = false)
    (hlist : H.PL_is_list st.mem data = true)
    (hlen : H.lengthList st.mem data = (es.length : Int))
    (hspace : st.gTop + (es.length * 2 + 2) ≤ st.gMax)
    (hcache : CacheOK H st)
    (htail : ∀ mem, AgreeOff st.gTop st.gMax st.mem mem →
      H.deRef mem (H.valTermRef data) = tail0)
    (hshape : ListShape H st.mem st.gTop st.gMax tail0 es)
    (hmapref : H.valTermRef map < st.gTop ∨ st.gMax ≤ H.valTermRef map)
    (hdup : ¬ (es.map Prod.fst).Nodup) :
    ∃ st', PL_get_map_ex H st data cls map
        = some (Outcome.type_error "map-data" data, st') ∧
      st'.gTop = st.gTop ∧ st'.gMax = st.gMax ∧
      AgreeOff st.gTop st.gMax st.mem st'.mem ∧
      st'.mem (H.valTermRef map) = st.mem (H.valTermRef map) := by
  obtain ⟨mem3, mf, hag3, hfun3, -, hraw3, hres⟩ := PL_get_map_ex_build H st data cls map tail0
    es hnm hlist hlen hspace hcache htail hshape
  have harity : H.arityFunctor (mem3 st.gTop) = 2 * es.length + 1 := by
    rw [hfun3, hL.arity_lookup]; ring
  obtain ⟨hframe, hperm, hord, -⟩ := map_order_spec H hL mem3 st.gTop es.length es harity hraw3
    (listShape_keys_not_ref hL hshape)
  have hfalse : ¬ (map_order H mem3 st.gTop).1 = true := by
    intro h
    apply hdup
    have hnd : ((rawList (map_order H mem3 st.gTop).2 (st.gTop + 2) es.length).map
        Prod.fst).Nodup := (hord h).imp (fun {a b} (hab : a < b) => ne_of_lt hab)
    exact (List.Perm.nodup_iff (hperm.map Prod.fst)).mp hnd
  rw [if_neg hfalse] at hres
  have hag4 : AgreeOff st.gTop st.gMax st.mem (map_order H mem3 st.gTop).2 := by
    intro a ha
    rw [hframe a (by omega)]
    exact hag3 a ha
  exact ⟨_, hres, rfl, rfl, hag4, hag4 _ hmapref⟩

/-- C9 (construction correctness).  Let `data` be a proper list, not itself a
map, of `n` elements of the accepted shapes with pairwise distinct keys, and
let there be room for the new term.  Then `PL_get_map_ex` returns `TRUE`; the
term reference `map` points to the new term at the old top of the stack;
`PL_is_map` holds for it; its arity is `2n+1`; its entries are a permutation of
the keys and values of the elements, the keys increasing strictly in raw word
order; and its class slot links to the class supplied, or is an unbound
variable when none is supplied. -/
theorem PL_get_map_ex_list (H : Host) (hL : HostLaws H) (st : PlState)
    (data cls map tail0 : Nat) (es : List (Nat × Nat))
    (hnm : PL_is_map H st data = false)
    (hlist : H.PL_is_list st.mem data = true)
    (hlen : H.lengthList st.mem data = (es.length : Int))
    (hspace : st.gTop + (es.length * 2 + 2) ≤ st.gMax)
    (hcache : CacheOK H st)
    (htail : ∀ mem, AgreeOff st.gTop st.gMax st.mem mem →
      H.deRef mem (H.valTermRef data) = tail0)
    (hshape : ListShape H st.mem st.gTop st.gMax tail0 es)
    (hmapref : H.valTermRef map < st.gTop ∨ st.gMax ≤ H.valTermRef map)
    (hcls : cls ≠ 0 → ∀ mem, AgreeOff st.gTop st.gMax st.mem mem →
      H.linkVal mem (H.valTermRef cls) = H.linkVal st.mem (H.valTermRef cls))
    (hnodup : (es.map Prod.fst).Nodup) :
    ∃ st', PL_get_map_ex H st data cls map = some (Outcome.TRUE, st') ∧
      st'.mem (H.valTermRef map) = H.consPtr st.gTop ∧
      PL_is_map H st' map = true ∧
      H.arityFunctor (st'.mem st.gTop) = 2 * es.length + 1 ∧
      (entriesOf st'.mem st.gTop es.length).Perm es ∧
      List.Pairwise (· < ·) ((entriesOf st'.mem st.gTop es.length).map Prod.fst) ∧
      st'.mem (st.gTop + 1)
        = (if cls ≠ 0 then H.linkVal st.mem (H.valTermRef cls) else H.setVar) := by
  obtain ⟨mem3, mf, hag3, hfun3, hcls3, hraw3, hres⟩ := PL_get_map_ex_build H st data cls map
    tail0 es hnm hlist hlen hspace hcache htail hshape
  have harity : H.arityFunctor (mem3 st.gTop) = 2 * es.length + 1 := by
    rw [hfun3, hL.arity_lookup]; ring
  have hkeys := listShape_keys_not_ref hL hshape
  obtain ⟨hframe, hperm, hord, hsucc⟩ := map_order_spec H hL mem3 st.gTop es.length es harity
    hraw3 hkeys
  have htrue := hsucc hnodup
  rw [if_pos htrue] at hres
  obtain ⟨mem4, hmem4⟩ : ∃ mem4, mem4 = (map_order H mem3 st.gTop).2 := ⟨_, rfl⟩
  rw [← hmem4] at hframe hperm hord hres
  -- the cells of the new term are not touched by the assignment to `map`
  have hcell : ∀ a, st.gTop ≤ a → a < st.gMax →
      store mem4 (H.valTermRef map) (H.consPtr st.gTop) a = mem4 a := by
    intro a h1 h2
    rw [store_other _ _ _ _ (by omega)]
  have hrawS : rawList (store mem4 (H.valTermRef map) (H.consPtr st.gTop)) (st.gTop + 2)
      es.length = rawList mem4 (st.gTop + 2) es.length := by
    apply rawList_congr
    intro a h1 h2
    exact hcell a (by omega) (by omega)
  have hkeysS : ∀ i, i < es.length →
      H.isRef (store mem4 (H.valTermRef map) (H.consPtr st.gTop) (st.gTop + 2 + 2 * i))
        = false := by
    intro i hi
    rw [hcell _ (by omega) (by omega)]
    have hmem : (mem4 (st.gTop + 2 + 2 * i), mem4 (st.gTop + 2 + 2 * i + 1))
        ∈ rawList mem4 (st.gTop + 2) es.length := by
      unfold rawList
      exact List.mem_map.mpr ⟨i, List.mem_range.mpr hi, rfl⟩
    exact hkeys _ (hperm.mem_iff.mp hmem)
  have hfunS : store mem4 (H.valTermRef map) (H.consPtr st.gTop) st.gTop
      = H.lookupFunctorDef H.ATOM_map (es.length * 2 + 1) := by
    rw [hcell _ (le_refl _) (by omega), hframe _ (by omega), hfun3]
  refine ⟨_, hres, store_same _ _ _, ?_, ?_, ?_, ?_, ?_⟩
  · -- `PL_is_map` holds for the new term
    unfold PL_is_map
    simp only []
    have hd : H.deRef (store mem4 (H.valTermRef map) (H.consPtr st.gTop)) (H.valTermRef map)
        = H.valTermRef map := by
      apply hL.deRef_self
      rw [store_same]
      exact hL.consPtr_not_ref _
    have hhalf : (es.length * 2 + 1) / 2 = es.length := by omega
    have hodd : (es.length * 2 + 1) % 2 = 1 := by omega
    simp only [hd, store_same, hL.isTerm_consPtr, if_true, hL.valueTerm_consPtr, hfunS,
      hL.name_lookup, hL.arity_lookup, hhalf, hodd, decide_True, Bool.true_and]
    apply map_ordered_of_pairwise H hL _ _ _ hkeysS
    rw [hrawS]
    exact hord htrue
  · show H.arityFunctor (store mem4 (H.valTermRef map) (H.consPtr st.gTop) st.gTop) = _
    rw [hfunS, hL.arity_lookup]; ring
  · show (rawList (store mem4 (H.valTermRef map) (H.consPtr st.gTop)) (st.gTop + 2)
      es.length).Perm es
    rw [hrawS]
    exact hperm
  · show List.Pairwise (· < ·) ((rawList (store mem4 (H.valTermRef map) (H.consPtr st.gTop))
      (st.gTop + 2) es.length).map Prod.fst)
    rw [hrawS]
    exact hord htrue
  · show store mem4 (H.valTermRef map) (H.consPtr st.gTop) (st.gTop + 1) = _
    rw [hcell _ (by omega) (by omega), hframe _ (by omega), hcls3]
    by_cases hc : cls ≠ 0
    · rw [if_pos hc, if_pos hc]
      exact hcls hc _ (agreeOff_store (agreeOff_refl _ _ _) _ _ (le_refl _) (by omega))
    · rw [if_neg hc, if_neg hc]

namespace Demo

/-- The concrete host keeps the laws of the host. -/
theorem hostLaws : HostLaws host where
  deRef_self := by
    intro mem q h
    exact deRefN_of_not_ref mem 16 q (by simpa [host] using h)
  consPtr_not_ref := by
    intro p
    show decide (compound p % 8 = 7) = false
    unfold compound
    simp
    omega
  isTerm_consPtr := by
    intro p
    show decide (compound p % 8 = 6) = true
    unfold compound
    simp
    omega
  valueTerm_consPtr := valueTerm_consPtr
  arity_lookup := arityFunctor_lookup
  name_lookup := by
    intro n
    show atom (functor (atom 1 / 8 % 32) n / 8 % 32) = atom 1
    unfold functor atom
    congr 1
    omega
  key_not_ref := by
    intro w h
    simp only [is_key, host, Bool.or_eq_true, decide_eq_true_eq] at h
    show decide (w % 8 = 7) = false
    simp
    omega
  name_not_ref := by
    intro f
    show decide (atom (f / 8 % 32) % 8 = 7) = false
    unfold atom
    simp
    omega

/-- The cells of the list `[k1-v1, k2-v2]` cannot be changed by writing to the
free cells of the global stack. -/
theorem pairList_cells (k1 v1 k2 v2 : Nat) (mem : Store)
    (hag : AgreeOff 12 64 (pairList k1 v1 k2 v2) mem) :
    mem 0 = functor 2 2 ∧ mem 1 = k1 ∧ mem 2 = v1 ∧ mem 3 = functor 2 2 ∧ mem 4 = k2 ∧
    mem 5 = v2 ∧ mem 6 = functor 5 2 ∧ mem 7 = compound 3 ∧ mem 8 = atom 6 ∧
    mem 9 = functor 5 2 ∧ mem 10 = compound 0 ∧ mem 11 = compound 6 ∧
    mem 101 = compound 9 := by
  refine ⟨?_, ?_, ?_, ?_, ?_, ?_, ?_, ?_, ?_, ?_, ?_, ?_, ?_⟩
  · rw [hag 0 (Or.inl (by decide))]; rfl
  · rw [hag 1 (Or.inl (by decide))]; rfl
  · rw [hag 2 (Or.inl (by decide))]; rfl
  · rw [hag 3 (Or.inl (by decide))]; rfl
  · rw [hag 4 (Or.inl (by decide))]; rfl
  · rw [hag 5 (Or.inl (by decide))]; rfl
  · rw [hag 6 (Or.inl (by decide))]; rfl
  · rw [hag 7 (Or.inl (by decide))]; rfl
  · rw [hag 8 (Or.inl (by decide))]; rfl
  · rw [hag 9 (Or.inl (by decide))]; rfl
  · rw [hag 10 (Or.inl (by decide))]; rfl
  · rw [hag 11 (Or.inl (by decide))]; rfl
  · rw [hag 101 (Or.inr (by decide))]; rfl

/-- A pair `k-v` of an atom and a tagged integer at address `f` has an accepted
shape. -/
theorem elemShape_pair (mem0 : Store) (lo hi head f k v : Nat)
    (hk : k % 8 = 4) (hv : v % 8 = 3)
    (hcells : ∀ mem, AgreeOff lo hi mem0 mem →
      mem head = compound f ∧ mem f = functor 2 2 ∧ mem (f + 1) = k ∧ mem (f + 2) = v) :
    ElemShape host mem0 lo hi head k v := by
  have hc0 := hcells mem0 (agreeOff_refl _ _ _)
  have hcomp7 : compound f % 8 ≠ 7 := by unfold compound; omega
  have hcomp6 : compound f % 8 = 6 := by unfold compound; omega
  have hcompd : compound f / 8 = f := by unfold compound; omega
  refine ⟨f, ?_, Or.inl ⟨Or.inl hc0.2.1, ?_, ?_⟩⟩
  · intro mem hag
    obtain ⟨h1, h2, -, -⟩ := hcells mem hag
    have hd : host.deRef mem head = head := deRefN_of_not_ref mem 16 head (by rw [h1]; exact hcomp7)
    rw [hd, h1]
    refine ⟨?_, hcompd, ?_⟩
    · show decide (compound f % 8 = 6) = true
      simp [hcomp6]
    · rw [h2, hc0.2.1]
  · simp [is_key, host, hk]
  · intro mem hag
    obtain ⟨-, -, h3, h4⟩ := hcells mem hag
    have hd1 : host.deRef mem (f + 1) = f + 1 :=
      deRefN_of_not_ref mem 16 _ (by rw [h3]; omega)
    have hd2 : host.deRef mem (f + 2) = f + 2 :=
      deRefN_of_not_ref mem 16 _ (by rw [h4]; omega)
    rw [hd1, hd2]
    refine ⟨h3, ?_⟩
    show linkVal mem (f + 2) = v
    unfold linkVal
    rw [h4]
    have hn : needsRef v = false := by
      unfold needsRef
      simp
      omega
    rw [hn]
    simp only [Bool.false_eq_true, if_false]
    exact linkValN_of_not_ref mem 16 v (by omega)

/-- The cells of `pairList` are a proper list of two pairs. -/
theorem listShape_pairList (k1 v1 k2 v2 : Nat) (hk1 : k1 % 8 = 4) (hv1 : v1 % 8 = 3)
    (hk2 : k2 % 8 = 4) (hv2 : v2 % 8 = 3) :
    ListShape host (pairList k1 v1 k2 v2) 12 64 101 [(k1, v1), (k2, v2)] := by
  refine ⟨10, 11, ?_, ?_, 7, 8, ?_, ?_, ?_⟩
  · intro mem hag
    obtain ⟨-, -, -, -, -, -, -, -, -, h9, -, h11, h101⟩ := pairList_cells k1 v1 k2 v2 mem hag
    refine ⟨?_, ?_, ?_⟩
    · show isList mem (mem 101) = true
      unfold isList
      rw [h101]
      simp [compound, h9]
    · show mem 101 / 8 + 1 = 10
      rw [h101]; rfl
    · show deRefN mem 16 (mem 101 / 8 + 2) = 11
      rw [h101]
      exact deRefN_of_not_ref mem 16 11 (by rw [h11]; decide)
  · apply elemShape_pair _ _ _ 10 0 k1 v1 hk1 hv1
    intro mem hag
    obtain ⟨h0, h1, h2, -, -, -, -, -, -, -, h10, -, -⟩ := pairList_cells k1 v1 k2 v2 mem hag
    exact ⟨h10, h0, h1, h2⟩
  · intro mem hag
    obtain ⟨-, -, -, -, -, -, h6, -, h8, -, -, h11, -⟩ := pairList_cells k1 v1 k2 v2 mem hag
    refine ⟨?_, ?_, ?_⟩
    · show isList mem (mem 11) = true
      unfold isList
      rw [h11]
      simp [compound, h6]
    · show mem 11 / 8 + 1 = 7
      rw [h11]; rfl
    · show deRefN mem 16 (mem 11 / 8 + 2) = 8
      rw [h11]
      exact deRefN_of_not_ref mem 16 8 (by rw [h8]; decide)
  · apply elemShape_pair _ _ _ 7 3 k2 v2 hk2 hv2
    intro mem hag
    obtain ⟨-, -, -, h3, h4, h5, -, h7, -, -, -, -, -⟩ := pairList_cells k1 v1 k2 v2 mem hag
    exact ⟨h7, h3, h4, h5⟩
  · intro mem hag
    obtain ⟨-, -, -, -, -, -, -, -, h8, -, -, -, -⟩ := pairList_cells k1 v1 k2 v2 mem hag
    show isList mem (mem 8) = false
    unfold isList
    rw [h8]
    simp [atom]

theorem deRef_pairList (k1 v1 k2 v2 : Nat) (mem : Store)
    (hag : AgreeOff 12 64 (pairList k1 v1 k2 v2) mem) :
    host.deRef mem (host.valTermRef 1) = 101 :=
  deRefN_of_not_ref mem 16 101
    (by rw [(pairList_cells k1 v1 k2 v2 mem hag).2.2.2.2.2.2.2.2.2.2.2.2]; decide)

end Demo

/-- C9 at the list `[b-2, a-1]`: the map is built, `a` before `b`. -/
theorem PL_get_map_ex_list_witness :
    ∃ st', PL_get_map_ex Demo.host
        (Demo.state (Demo.pairList (Demo.atom 8) (Demo.int 2) (Demo.atom 7) (Demo.int 1)) 12 64)
        1 0 2 = some (Outcome.TRUE, st') ∧
      st'.mem (Demo.host.valTermRef 2) = Demo.host.consPtr 12 ∧
      PL_is_map Demo.host st' 2 = true ∧
      Demo.host.arityFunctor (st'.mem 12) = 2 * 2 + 1 ∧
      (entriesOf st'.mem 12 2).Perm [(Demo.atom 8, Demo.int 2), (Demo.atom 7, Demo.int 1)] ∧
      List.Pairwise (· < ·) ((entriesOf st'.mem 12 2).map Prod.fst) ∧
      st'.mem (12 + 1) = Demo.host.setVar :=
  PL_get_map_ex_list Demo.host Demo.hostLaws
    (Demo.state (Demo.pairList (Demo.atom 8) (Demo.int 2) (Demo.atom 7) (Demo.int 1)) 12 64)
    1 0 2 101 [(Demo.atom 8, Demo.int 2), (Demo.atom 7, Demo.int 1)]
    (by decide) (by decide) (by decide) (by decide) (Demo.cacheOK_state _ _ _)
    (Demo.deRef_pairList _ _ _ _)
    (Demo.listShape_pairList _ _ _ _ (by decide) (by decide) (by decide) (by decide))
    (Or.inr (by decide)) (fun h => absurd rfl h) (by decide)

/-- C10 at the list `[a-1, a-2]`: the construction fails with the type error
`map-data` and the top of the stack is back at address 12. -/
theorem PL_get_map_ex_duplicate_witness :
    ∃ st', PL_get_map_ex Demo.host
        (Demo.state (Demo.pairList (Demo.atom 7) (Demo.int 1) (Demo.atom 7) (Demo.int 2)) 12 64)
        1 0 2 = some (Outcome.type_error "map-data" 1, st') ∧
      st'.gTop = 12 ∧ st'.gMax = 64 ∧
      AgreeOff 12 64 (Demo.pairList (Demo.atom 7) (Demo.int 1) (Demo.atom 7) (Demo.int 2))
        st'.mem ∧
      st'.mem (Demo.host.valTermRef 2) = 0 :=
  PL_get_map_ex_duplicate Demo.host Demo.hostLaws
    (Demo.state (Demo.pairList (Demo.atom 7) (Demo.int 1) (Demo.atom 7) (Demo.int 2)) 12 64)
    1 0 2 101 [(Demo.atom 7, Demo.int 1), (Demo.atom 7, Demo.int 2)]
    (by decide) (by decide) (by decide) (by decide) (Demo.cacheOK_state _ _ _)
    (Demo.deRef_pairList _ _ _ _)
    (Demo.listShape_pairList _ _ _ _ (by decide) (by decide) (by decide) (by decide))
    (Or.inr (by decide)) (by decide)

/-! ## `map_put`: the heap limit and the reserved region -/

theorem agreeOff_widen {lo hi hi1 : Nat} {m m1 : Store} (h : AgreeOff lo hi1 m m1)
    (hh : hi1 ≤ hi) : AgreeOff lo hi m m1 :=
  fun a ha => h a (by omega)

theorem keyStable_narrow {H : Host} {mem : Store} {lo hi hi1 p : Nat}
    (h : KeyStable H mem lo hi p) (hh : hi1 ≤ hi) : KeyStable H mem lo hi1 p :=
  { deRef_eq := fun m hag => h.deRef_eq m (agreeOff_widen hag hh)
    key_eq := fun m hag => h.key_eq m (agreeOff_widen hag hh)
    key_word := fun m q hag hq => h.key_word m q (agreeOff_widen hag hh) hq }

theorem valStable_narrow {H : Host} {mem : Store} {lo hi hi1 p : Nat}
    (h : ValStable H mem lo hi p) (hh : hi1 ≤ hi) : ValStable H mem lo hi1 p :=
  { linkVal_eq := fun m hag => h.linkVal_eq m (agreeOff_widen hag hh)
    link_word := fun m q hag hq => h.link_word m q (agreeOff_widen hag hh) hq }

/-- The operands stay well formed when the heap limit is lowered. -/
theorem putOperands_narrow {H : Host} {st : PlState} {map size nv N : Nat}
    (h : PutOperands H st map size nv N) (g : Nat) (hg : g ≤ st.gMax) :
    PutOperands H { st with gMax := g } map size nv N :=
  { arity := h.arity
    cache := h.cache
    cls := valStable_narrow h.cls hg
    base_key := fun i hi1 => keyStable_narrow (h.base_key i hi1) hg
    base_val := fun i hi1 => valStable_narrow (h.base_val i hi1) hg
    in_key := fun j hj => keyStable_narrow (h.in_key j hj) hg
    in_val := fun j hj => valStable_narrow (h.in_val j hj) hg }

/-- The function `map_functor` does not look at the heap limit. -/
theorem map_functor_gMax (H : Host) (st : PlState) (arity g : Nat) :
    map_functor H { st with gMax := g } arity =
      ((map_functor H st arity).1, { (map_functor H st arity).2 with gMax := g }) := by
  unfold map_functor
  by_cases h1 : arity < CACHED_MAP_FUNCTORS
  · by_cases h2 : st.map_functors arity ≠ 0
    · simp only [h1, h2, if_true, ne_eq, not_false_eq_true]
    · simp only [h1, h2, if_true, if_false]
  · simp only [h1, if_false]

/-- The end of `map_put` does not look at the heap limit. -/
theorem map_put_finish_gMax (H : Host) (st : PlState) (data new g : Nat) (s : MergeState) :
    map_put_finish H { st with gMax := g } data new s =
      { map_put_finish H st data new s with
        st := { (map_put_finish H st data new s).st with gMax := g } } := by
  unfold map_put_finish
  simp only
  have h := map_functor_gMax H
    { st with mem := store s.mem (new + 1) (H.linkVal s.mem (data + 1)), gTop := s.out }
    (s.out - (new + 1)) g
  simp only at h
  rw [h]

/-- Once there is room, the result of `map_put` depends on the heap limit in no
other way than that the state carries it. -/
theorem map_put_gMax (H : Host) (st : PlState) (map size nv new_map g : Nat)
    (h1 : size = 0 ∨ st.gTop + 1 + H.arityFunctor (st.mem (H.valueTerm map)) + 2 * size
      ≤ st.gMax)
    (h2 : size = 0 ∨ st.gTop + 1 + H.arityFunctor (st.mem (H.valueTerm map)) + 2 * size ≤ g) :
    map_put H { st with gMax := g } map size nv new_map =
      (map_put H st map size nv new_map).map
        (fun r => { r with st := { r.st with gMax := g } }) := by
  unfold map_put
  by_cases hs : size = 0
  · simp only [hs, if_true, Option.map_some']
  · have h1' := h1.resolve_left hs
    have h2' := h2.resolve_left hs
    have c1 : ¬ (st.gTop + 1 + H.arityFunctor (st.mem (H.valueTerm map)) + 2 * size
        > st.gMax) := by omega
    have c2 : ¬ (st.gTop + 1 + H.arityFunctor (st.mem (H.valueTerm map)) + 2 * size
        > g) := by omega
    simp only [hs, if_false, c1, c2]
    cases hscan : map_put_scan H
        (H.valueTerm map + 2 + H.arityFunctor (st.mem (H.valueTerm map)) - 1)
        (nv + size * 2) (H.arityFunctor (st.mem (H.valueTerm map)) / 2 + size)
        { mem := st.mem, out := st.gTop + 2, in_ := H.valueTerm map + 2, nv := nv,
          modified := false } with
    | none => simp only [Option.map_none']
    | some s =>
      simp only
      by_cases hnv : s.nv = nv + size * 2
      · by_cases hm : s.modified = true
        · simp only [hnv, hm, if_true, Bool.not_true, Bool.false_eq_true, if_false,
            Option.map_map]
          congr 1
          funext sf
          exact map_put_finish_gMax H st _ _ g sf
        · simp only [Bool.not_eq_true] at hm
          simp only [hnv, hm, if_true, Bool.not_false, Option.map_some']
      · simp only [hnv, if_false, Option.map_map]
        congr 1
        funext sf
        exact map_put_finish_gMax H st _ _ g sf

/-- What `map_put` does on well-formed operands when there is room: it returns
`TRUE`, changes no cell outside the cells it reserved, and either returns the
base map with the heap top where it was, or a new term at the old heap top
whose functor is `map` with `1 + 2L` arguments, whose class links to the class
of the base map and whose `L` entries are the merge of the entries of the base
map with the incoming entries, the heap top being behind the term. -/
theorem map_put_reserved (H : Host) (st : PlState) (map size nv new_map N : Nat)
    (hops : PutOperands H st map size nv N) (hsize : 0 < size)
    (hspace : st.gTop + 1 + (2 * N + 1) + 2 * size ≤ st.gMax) :
    ∃ r, map_put H st map size nv new_map = some r ∧ r.rc = PutRc.TRUE ∧
      r.st.gMax = st.gMax ∧ CacheOK H r.st ∧
      AgreeOff st.gTop (st.gTop + 1 + (2 * N + 1) + 2 * size) st.mem r.st.mem ∧
      ((r.new_map = map ∧ r.st.gTop = st.gTop) ∨
        (r.new_map = H.consPtr st.gTop ∧
          (mergeEntries (viewList H st.mem (H.valueTerm map + 2) N)
            (viewList H st.mem nv size)).length ≤ N + size ∧
          r.st.gTop = st.gTop + 2 + 2 * (mergeEntries (viewList H st.mem (H.valueTerm map + 2) N)
            (viewList H st.mem nv size)).length ∧
          r.st.mem st.gTop = H.lookupFunctorDef H.ATOM_map
            (1 + 2 * (mergeEntries (viewList H st.mem (H.valueTerm map + 2) N)
              (viewList H st.mem nv size)).length) ∧
          r.st.mem (st.gTop + 1) = H.linkVal st.mem (H.valueTerm map + 1) ∧
          rawList r.st.mem (st.gTop + 2)
            (mergeEntries (viewList H st.mem (H.valueTerm map + 2) N)
              (viewList H st.mem nv size)).length
            = mergeEntries (viewList H st.mem (H.valueTerm map + 2) N)
              (viewList H st.mem nv size))) := by
  have hn := putOperands_narrow hops (st.gTop + 1 + (2 * N + 1) + 2 * size) hspace
  obtain ⟨r, hr, hrc, _, hcache, hag, hcase⟩ :=
    map_put_spec H { st with gMax := st.gTop + 1 + (2 * N + 1) + 2 * size } map size nv new_map N
      hn.arity hsize (le_refl _) hn.cache hn.cls hn.base_key hn.base_val hn.in_key hn.in_val
  have hg := map_put_gMax H { st with gMax := st.gTop + 1 + (2 * N + 1) + 2 * size }
    map size nv new_map st.gMax
    (Or.inr (by simp only [hops.arity]; exact le_refl _))
    (Or.inr (by simp only [hops.arity]; exact hspace))
  simp only at hg
  rw [hr] at hg
  simp only [Option.map_some'] at hg
  refine ⟨_, hg, hrc, rfl, ?_, hag, ?_⟩
  · intro i hi1
    exact hcache i hi1
  · rcases hcase with ⟨h1, h2, _⟩ | h
    · exact Or.inl ⟨h1, h2⟩
    · exact Or.inr h

/-! ## The merge of strictly sorted sequences -/

theorem strictKeys_cons {e : Nat × Nat} {L : List (Nat × Nat)} :
    StrictKeys (e :: L) ↔ (∀ x ∈ L, e.1 < x.1) ∧ StrictKeys L := by
  unfold StrictKeys
  rw [List.map_cons, List.pairwise_cons]
  constructor
  · rintro ⟨h1, h2⟩
    exact ⟨fun x hx => h1 _ (List.mem_map_of_mem _ hx), h2⟩
  · rintro ⟨h1, h2⟩
    refine ⟨fun k hk => ?_, h2⟩
    obtain ⟨x, hx, rfl⟩ := List.mem_map.1 hk
    exact h1 x hx

/-- Every key of the merge is a key of one of the two sequences. -/
theorem mergeEntries_key_bound (B I : List (Nat × Nat)) (k : Nat)
    (hB : ∀ x ∈ B, k < x.1) (hI : ∀ x ∈ I, k < x.1) :
    ∀ x ∈ mergeEntries B I, k < x.1 := by
  intro x hx
  rcases (mem_mergeEntries B I x hx).1 with h | h
  · obtain ⟨y, hy, hxy⟩ := List.mem_map.1 h
    rw [← hxy]
    exact hB y hy
  · obtain ⟨y, hy, hxy⟩ := List.mem_map.1 h
    rw [← hxy]
    exact hI y hy

/-- The merge of two sequences with strictly increasing keys has strictly
increasing keys. -/
theorem strictKeys_mergeEntries (B I : List (Nat × Nat)) (hB : StrictKeys B)
    (hI : StrictKeys I) : StrictKeys (mergeEntries B I) := by
  induction B generalizing I with
  | nil => rw [mergeEntries_nil_left]; exact hI
  | cons b B ihB =>
    induction I with
    | nil => rw [mergeEntries_nil_right]; exact hB
    | cons i I ihI =>
      obtain ⟨hb1, hb2⟩ := strictKeys_cons.1 hB
      obtain ⟨hi1, hi2⟩ := strictKeys_cons.1 hI
      rw [mergeEntries_cons_cons]
      by_cases h1 : b.1 = i.1
      · rw [if_pos h1]
        refine strictKeys_cons.2 ⟨?_, ihB I hb2 hi2⟩
        refine mergeEntries_key_bound B I _ hb1 ?_
        intro x hx
        show b.1 < x.1
        rw [h1]
        exact hi1 x hx
      · rw [if_neg h1]
        by_cases h2 : b.1 < i.1
        · rw [if_pos h2]
          refine strictKeys_cons.2 ⟨?_, ihB (i :: I) hb2 hI⟩
          refine mergeEntries_key_bound B (i :: I) _ hb1 ?_
          intro x hx
          rcases List.mem_cons.1 hx with rfl | hx
          · exact h2
          · exact lt_trans h2 (hi1 x hx)
        · rw [if_neg h2]
          have h3 : i.1 < b.1 := by omega
          refine strictKeys_cons.2 ⟨?_, ihI hi2⟩
          refine mergeEntries_key_bound (b :: B) I _ ?_ hi1
          intro x hx
          rcases List.mem_cons.1 hx with rfl | hx
          · exact h3
          · exact lt_trans h3 (hb1 x hx)

/-- Every incoming entry is an entry of the merge. -/
theorem mergeEntries_incoming (B I : List (Nat × Nat)) (e : Nat × Nat) (he : e ∈ I) :
    e ∈ mergeEntries B I := by
  induction B generalizing I with
  | nil => rw [mergeEntries_nil_left]; exact he
  | cons b B ihB =>
    induction I with
    | nil => exact absurd he (List.not_mem_nil _)
    | cons i I ihI =>
      rw [mergeEntries_cons_cons]
      by_cases h1 : b.1 = i.1
      · rw [if_pos h1]
        rcases List.mem_cons.1 he with rfl | he
        · rw [h1]
          exact List.mem_cons_self _ _
        · exact List.mem_cons_of_mem _ (ihB I he)
      · rw [if_neg h1]
        by_cases h2 : b.1 < i.1
        · rw [if_pos h2]
          exact List.mem_cons_of_mem _ (ihB (i :: I) he)
        · rw [if_neg h2]
          rcases List.mem_cons.1 he with rfl | he
          · exact List.mem_cons_self _ _
          · exact List.mem_cons_of_mem _ (ihI he)

/-- Every entry of the base whose key is not an incoming key is an entry of
the merge. -/
theorem mergeEntries_base (B I : List (Nat × Nat)) (e : Nat × Nat) (he : e ∈ B)
    (hk : e.1 ∉ I.map Prod.fst) : e ∈ mergeEntries B I := by
  induction B generalizing I with
  | nil => exact absurd he (List.not_mem_nil _)
  | cons b B ihB =>
    induction I with
    | nil => rw [mergeEntries_nil_right]; exact he
    | cons i I ihI =>
      have hk1 : e.1 ≠ i.1 := by
        intro h
        apply hk
        rw [h]
        exact List.mem_map_of_mem _ (List.mem_cons_self _ _)
      have hk2 : e.1 ∉ I.map Prod.fst := by
        intro h
        apply hk
        rw [List.map_cons]
        exact List.mem_cons_of_mem _ h
      rw [mergeEntries_cons_cons]
      by_cases h1 : b.1 = i.1
      · rw [if_pos h1]
        rcases List.mem_cons.1 he with rfl | he
        · exact absurd h1 hk1
        · exact List.mem_cons_of_mem _ (ihB I he hk2)
      · rw [if_neg h1]
        by_cases h2 : b.1 < i.1
        · rw [if_pos h2]
          rcases List.mem_cons.1 he with rfl | he
          · exact List.mem_cons_self _ _
          · exact List.mem_cons_of_mem _ (ihB (i :: I) he hk)
        · rw [if_neg h2]
          exact List.mem_cons_of_mem _ (ihI hk2)

/-- The keys of the merge are the keys of the base together with the incoming
keys. -/
theorem mergeEntries_keys (B I : List (Nat × Nat)) (k : Nat) :
    k ∈ (mergeEntries B I).map Prod.fst ↔ k ∈ B.map Prod.fst ∨ k ∈ I.map Prod.fst := by
  constructor
  · intro h
    obtain ⟨e, he, rfl⟩ := List.mem_map.1 h
    exact (mem_mergeEntries B I e he).1
  · rintro (h | h)
    · by_cases hk : k ∈ I.map Prod.fst
      · obtain ⟨e, he, rfl⟩ := List.mem_map.1 hk
        exact List.mem_map_of_mem _ (mergeEntries_incoming B I e he)
      · obtain ⟨e, he, rfl⟩ := List.mem_map.1 h
        exact List.mem_map_of_mem _ (mergeEntries_base B I e he hk)
    · obtain ⟨e, he, rfl⟩ := List.mem_map.1 h
      exact List.mem_map_of_mem _ (mergeEntries_incoming B I e he)

theorem commonKeys_nil_left (I : List (Nat × Nat)) : commonKeys [] I = 0 := by
  unfold commonKeys
  simp

theorem commonKeys_nil_right (B : List (Nat × Nat)) : commonKeys B [] = 0 := by
  unfold commonKeys
  simp

theorem commonKeys_cons_right (B I : List (Nat × Nat)) (i : Nat × Nat) :
    commonKeys B (i :: I) = (if i.1 ∈ B.map Prod.fst then 1 else 0) + commonKeys B I := by
  unfold commonKeys
  by_cases h : i.1 ∈ B.map Prod.fst
  · rw [List.filter_cons_of_pos (by simpa using h), if_pos h, List.length_cons]
    omega
  · rw [List.filter_cons_of_neg (by simpa using h), if_neg h]
    omega

/-- A base entry whose key is below every incoming key is not a common key. -/
theorem commonKeys_cons_left (B I : List (Nat × Nat)) (b : Nat × Nat)
    (h : ∀ x ∈ I, b.1 < x.1) : commonKeys (b :: B) I = commonKeys B I := by
  unfold commonKeys
  congr 1
  apply List.filter_congr
  intro x hx
  have hne : x.1 ≠ b.1 := Nat.ne_of_gt (h x hx)
  simp [hne]

/-- The merge of two sequences with strictly increasing keys has as many
entries as the two sequences together, less the keys they have in common. -/
theorem mergeEntries_length (B I : List (Nat × Nat)) (hB : StrictKeys B)
    (hI : StrictKeys I) :
    (mergeEntries B I).length + commonKeys B I = B.length + I.length := by
  induction B generalizing I with
  | nil => rw [mergeEntries_nil_left, commonKeys_nil_left]; simp
  | cons b B ihB =>
    induction I with
    | nil => rw [mergeEntries_nil_right, commonKeys_nil_right]; simp
    | cons i I ihI =>
      obtain ⟨hb1, hb2⟩ := strictKeys_cons.1 hB
      obtain ⟨hi1, hi2⟩ := strictKeys_cons.1 hI
      rw [mergeEntries_cons_cons]
      by_cases h1 : b.1 = i.1
      · rw [if_pos h1, commonKeys_cons_right,
          if_pos (by rw [← h1, List.map_cons]; exact List.mem_cons_self _ _),
          commonKeys_cons_left B I b (fun x hx => by rw [h1]; exact hi1 x hx)]
        have := ihB I hb2 hi2
        simp only [List.length_cons]
        omega
      · rw [if_neg h1]
        by_cases h2 : b.1 < i.1
        · rw [if_pos h2, commonKeys_cons_left B (i :: I) b (fun x hx => by
            rcases List.mem_cons.1 hx with rfl | hx
            · exact h2
            · exact lt_trans h2 (hi1 x hx))]
          have := ihB (i :: I) hb2 hI
          simp only [List.length_cons] at this ⊢
          omega
        · rw [if_neg h2]
          have h3 : i.1 < b.1 := by omega
          have hnot : i.1 ∉ (b :: B).map Prod.fst := by
            intro hm
            obtain ⟨x, hx, hxi⟩ := List.mem_map.1 hm
            rcases List.mem_cons.1 hx with rfl | hx
            · omega
            · have := hb1 x hx
              omega
          rw [commonKeys_cons_right, if_neg hnot]
          have := ihI hi2
          simp only [List.length_cons] at this ⊢
          omega

/-! ## Put: overflow, heap top and class (C16, C20, C14) -/

/-- Strictly increasing words at the positions `0 .. n-1`. -/
theorem pairwise_range_map (key : Nat → Nat) (n : Nat) :
    List.Pairwise (· < ·) ((List.range n).map key) ↔
      ∀ i, i + 1 < n → key i < key (i + 1) := by
  rw [List.pairwise_map, List.pairwise_iff_getElem]
  constructor
  · intro h i hi
    have := h i (i + 1) (by rw [List.length_range]; omega) (by rw [List.length_range]; omega)
      (by omega)
    simpa using this
  · intro h i j hi hj hij
    rw [List.length_range] at hi hj
    have := keys_strict_mono key n h i j hij hj
    simpa using this

/-- The check `map_ordered` passes exactly if the keys, as `map_put` reads them,
increase strictly. -/
theorem strictKeys_viewList (H : Host) (mem : Store) (base n : Nat) :
    map_ordered H mem base n = true ↔ StrictKeys (viewList H mem base n) := by
  unfold map_ordered StrictKeys viewList
  rw [map_ordered_loop_iff, List.map_map]
  exact (pairwise_range_map (fun i => mem (H.deRef mem (base + 2 * i))) n).symm

/-- With no incoming pair `map_put` returns the base map and changes nothing. -/
theorem map_put_size_zero (H : Host) (st : PlState) (map nv new_map : Nat) :
    map_put H st map 0 nv new_map = some { rc := PutRc.TRUE, new_map := map, st := st } := by
  unfold map_put
  simp only [if_true]

/-- C16 (overflow is atomic and retry-safe).  The function `map_put` returns
`GLOBAL_OVERFLOW` exactly when `size > 0` and the heap limit lies below
`gTop + 1 + arity + 2 * size`.  When it does, the state (the cells, the heap top,
the cached functors) and `*new_map` are what they were before the call; and a
second run from the state it left, with a heap limit `g1` that gives room,
returns what a run from the original state with any heap limit `g2` that gives
room returns: the same return value, the same map and the same cells, only the
limit carried by the state being `g1`.  (The moving of the stacks by which the
caller makes room is not part of `pl-map.c` and is not modelled.) -/
theorem map_put_overflow (H : Host) (st : PlState) (map size nv new_map : Nat) :
    ((∃ r, map_put H st map size nv new_map = some r ∧ r.rc = PutRc.GLOBAL_OVERFLOW) ↔
      (0 < size ∧
        st.gMax < st.gTop + 1 + H.arityFunctor (st.mem (H.valueTerm map)) + 2 * size)) ∧
    (∀ r, map_put H st map size nv new_map = some r → r.rc = PutRc.GLOBAL_OVERFLOW →
      r.st = st ∧ r.new_map = new_map ∧
      ∀ g1 g2,
        st.gTop + 1 + H.arityFunctor (st.mem (H.valueTerm map)) + 2 * size ≤ g1 →
        st.gTop + 1 + H.arityFunctor (st.mem (H.valueTerm map)) + 2 * size ≤ g2 →
        map_put H { r.st with gMax := g1 } map size nv new_map =
          (map_put H { st with gMax := g2 } map size nv new_map).map
            (fun r2 => { r2 with st := { r2.st with gMax := g1 } })) := by
  have hkey : ∀ r, map_put H st map size nv new_map = some r →
      r.rc = PutRc.GLOBAL_OVERFLOW →
      (0 < size ∧
        st.gMax < st.gTop + 1 + H.arityFunctor (st.mem (H.valueTerm map)) + 2 * size) ∧
      r.st = st ∧ r.new_map = new_map := by
    intro r hr hrc
    unfold map_put at hr
    by_cases hs : size = 0
    · simp only [hs, if_true, Option.some.injEq] at hr
      rw [← hr] at hrc
      exact absurd hrc (fun h => PutRc.noConfusion h)
    · by_cases hc : st.gTop + 1 + H.arityFunctor (st.mem (H.valueTerm map)) + 2 * size
          > st.gMax
      · simp only [hs, if_false, hc, if_true, Option.some.injEq] at hr
        rw [← hr]
        exact ⟨⟨by omega, hc⟩, rfl, rfl⟩
      · exfalso
        simp only [hs, if_false, hc] at hr
        cases hscan : map_put_scan H
            (H.valueTerm map + 2 + H.arityFunctor (st.mem (H.valueTerm map)) - 1)
            (nv + size * 2) (H.arityFunctor (st.mem (H.valueTerm map)) / 2 + size)
            { mem := st.mem, out := st.gTop + 2, in_ := H.valueTerm map + 2, nv := nv,
              modified := false } with
        | none => rw [hscan] at hr; exact absurd hr (by simp)
        | some s =>
          rw [hscan] at hr
          simp only at hr
          by_cases hnv : s.nv = nv + size * 2
          · by_cases hm : s.modified = true
            · simp only [hnv, hm, if_true, Bool.not_true, Bool.false_eq_true, if_false,
                Option.map_eq_some'] at hr
              obtain ⟨sf, -, hsf⟩ := hr
              rw [← hsf] at hrc
              exact absurd hrc (by unfold map_put_finish; simp)
            · simp only [Bool.not_eq_true] at hm
              simp only [hnv, hm, if_true, Bool.not_false, Option.some.injEq] at hr
              rw [← hr] at hrc
              exact absurd hrc (fun h => PutRc.noConfusion h)
          · simp only [hnv, if_false, Option.map_eq_some'] at hr
            obtain ⟨sf, -, hsf⟩ := hr
            rw [← hsf] at hrc
            exact absurd hrc (by unfold map_put_finish; simp)
  refine ⟨⟨?_, ?_⟩, ?_⟩
  · rintro ⟨r, hr, hrc⟩
    exact (hkey r hr hrc).1
  · rintro ⟨hs, hc⟩
    refine ⟨{ rc := PutRc.GLOBAL_OVERFLOW, new_map := new_map, st := st }, ?_, rfl⟩
    unfold map_put
    rw [if_neg (by omega), if_pos hc]
  · intro r hr hrc
    obtain ⟨-, hst, hnm⟩ := hkey r hr hrc
    refine ⟨hst, hnm, ?_⟩
    intro g1 g2 h1 h2
    rw [hst]
    exact map_put_gMax H { st with gMax := g2 } map size nv new_map g1 (Or.inr h2) (Or.inr h1)

/-- C16 at the map `_{a:1, b:7, c:3}` and two incoming pairs, with 6 free
cells where 12 are asked for: `map_put` returns `GLOBAL_OVERFLOW`. -/
theorem map_put_overflow_witness :
    ∃ r, map_put Demo.host (Demo.state Demo.subMaps 14 20) (Demo.compound 0) 2 10 0 = some r ∧
      r.rc = PutRc.GLOBAL_OVERFLOW :=
  (map_put_overflow Demo.host (Demo.state Demo.subMaps 14 20) (Demo.compound 0) 2 10 0).1.2
    ⟨by decide, by decide⟩

/-- C20 (heap-top frame of put).  On well-formed operands, when there is no
incoming pair or there is room, `map_put` returns `TRUE` and has changed no
cell below the old heap top; and either it returns the base map and the heap
top is what it was on entry, or it returns a pointer to the old heap top, where
the new term starts, and the heap top has advanced by `2 + 2L` cells, `L` being
the number of entries of the new term (whose functor has arity `1 + 2L`). -/
theorem map_put_heap_top (H : Host) (st : PlState) (map size nv new_map N : Nat)
    (hfun : ∀ n, H.arityFunctor (H.lookupFunctorDef H.ATOM_map n) = n)
    (hops : PutOperands H st map size nv N)
    (hroom : size = 0 ∨ st.gTop + 1 + (2 * N + 1) + 2 * size ≤ st.gMax) :
    ∃ r, map_put H st map size nv new_map = some r ∧ r.rc = PutRc.TRUE ∧
      (∀ a, a < st.gTop → r.st.mem a = st.mem a) ∧
      ((r.new_map = map ∧ r.st.gTop = st.gTop) ∨
        (r.new_map = H.consPtr st.gTop ∧
          ∃ L, H.arityFunctor (r.st.mem st.gTop) = 1 + 2 * L ∧
            r.st.gTop = st.gTop + 2 + 2 * L)) := by
  by_cases hsize : size = 0
  · subst hsize
    exact ⟨_, map_put_size_zero H st map nv new_map, rfl, fun _ _ => rfl, Or.inl ⟨rfl, rfl⟩⟩
  · obtain ⟨r, hr, hrc, -, -, hag, hcase⟩ := map_put_reserved H st map size nv new_map N hops
      (by omega) (hroom.resolve_left hsize)
    refine ⟨r, hr, hrc, fun a ha => hag a (Or.inl ha), ?_⟩
    rcases hcase with h | ⟨hnew, -, htop, hf, -, -⟩
    · exact Or.inl h
    · exact Or.inr ⟨hnew, _, by rw [hf, hfun], htop⟩

/-- C14 (the class is unaffected by put).  On well-formed operands, when there
is no incoming pair or there is room, `map_put` returns `TRUE` with a map whose
class slot links to the same value as the class slot of the base map: `linkVal`
gives the same word for both, whether the map returned is the base map or a
new term. -/
theorem map_put_class (H : Host) (st : PlState) (map size nv new_map N : Nat)
    (hvt : ∀ p, H.valueTerm (H.consPtr p) = p)
    (hops : PutOperands H st map size nv N)
    (hroom : size = 0 ∨ st.gTop + 1 + (2 * N + 1) + 2 * size ≤ st.gMax) :
    ∃ r, map_put H st map size nv new_map = some r ∧ r.rc = PutRc.TRUE ∧
      H.linkVal r.st.mem (H.valueTerm r.new_map + 1)
        = H.linkVal st.mem (H.valueTerm map + 1) := by
  by_cases hsize : size = 0
  · subst hsize
    exact ⟨_, map_put_size_zero H st map nv new_map, rfl, rfl⟩
  · have hspace := hroom.resolve_left hsize
    obtain ⟨r, hr, hrc, -, -, hag, hcase⟩ := map_put_reserved H st map size nv new_map N hops
      (by omega) hspace
    have hag1 : AgreeOff st.gTop st.gMax st.mem r.st.mem := agreeOff_widen hag hspace
    refine ⟨r, hr, hrc, ?_⟩
    rcases hcase with ⟨hbase, -⟩ | ⟨hnew, -, -, -, hcls, -⟩
    · rw [hbase]
      exact hops.cls.linkVal_eq _ hag1
    · rw [hnew, hvt]
      exact hops.cls.link_word _ _ hag1 hcls

namespace Demo

/-- The map `_{a:1, b:7, c:3}` and the two incoming pairs `a:1, c:3` of
`subMaps` are well-formed operands. -/
theorem putOperands_subMaps :
    PutOperands host (state subMaps 14 64) (compound 0) 2 10 3 where
  arity := by decide
  cache := cacheOK_state _ _ _
  cls := valStable_var _ _ _ _ (Or.inl (by decide)) (by decide)
  base_key := fun i hi => keyStable _ _ _ _
    (Or.inl (by interval_cases i <;> decide)) (by interval_cases i <;> decide)
  base_val := fun i hi => valStable _ _ _ _
    (Or.inl (by interval_cases i <;> decide)) (by interval_cases i <;> decide)
    (by interval_cases i <;> decide) (by interval_cases i <;> decide)
  in_key := fun j hj => keyStable _ _ _ _
    (Or.inl (by interval_cases j <;> decide)) (by interval_cases j <;> decide)
  in_val := fun j hj => valStable _ _ _ _
    (Or.inl (by interval_cases j <;> decide)) (by interval_cases j <;> decide)
    (by interval_cases j <;> decide) (by interval_cases j <;> decide)

end Demo

/-- C20 at the map `_{a:1, b:7, c:3}` and the incoming pairs `a:1, c:3`. -/
theorem map_put_heap_top_witness :
    ∃ r, map_put Demo.host (Demo.state Demo.subMaps 14 64) (Demo.compound 0) 2 10 0
        = some r ∧ r.rc = PutRc.TRUE ∧
      (∀ a, a < 14 → r.st.mem a = Demo.subMaps a) ∧
      ((r.new_map = Demo.compound 0 ∧ r.st.gTop = 14) ∨
        (r.new_map = Demo.host.consPtr 14 ∧
          ∃ L, Demo.host.arityFunctor (r.st.mem 14) = 1 + 2 * L ∧
            r.st.gTop = 14 + 2 + 2 * L)) :=
  map_put_heap_top Demo.host (Demo.state Demo.subMaps 14 64) (Demo.compound 0) 2 10 0 3
    Demo.arityFunctor_lookup Demo.putOperands_subMaps (Or.inr (by decide))

/-- C14 at the map `_{a:1, b:7, c:3}` and the incoming pairs `a:1, c:3`. -/
theorem map_put_class_witness :
    ∃ r, map_put Demo.host (Demo.state Demo.subMaps 14 64) (Demo.compound 0) 2 10 0
        = some r ∧ r.rc = PutRc.TRUE ∧
      Demo.host.linkVal r.st.mem (Demo.host.valueTerm r.new_map + 1)
        = Demo.host.linkVal Demo.subMaps (Demo.host.valueTerm (Demo.compound 0) + 1) :=
  map_put_class Demo.host (Demo.state Demo.subMaps 14 64) (Demo.compound 0) 2 10 0 3
    Demo.valueTerm_consPtr Demo.putOperands_subMaps (Or.inr (by decide))

/-! ## Put: content, validity and extent of the new map (C17, C15, C18) -/

/-- The words of the merge are key words and link words. -/
theorem mergeEntries_words (H : Host) (st : PlState) (map size nv N : Nat)
    (hops : PutOperands H st map size nv N) :
    ∀ e ∈ mergeEntries (viewList H st.mem (H.valueTerm map + 2) N) (viewList H st.mem nv size),
      KeyWord H st.mem st.gTop st.gMax e.1 ∧ LinkWord H st.mem st.gTop st.gMax e.2 := by
  obtain ⟨hkw, hlw⟩ := viewList_words H st.mem st.gTop st.gMax (H.valueTerm map + 2) N
    hops.base_key hops.base_val
  obtain ⟨hkwI, hlwI⟩ := viewList_words H st.mem st.gTop st.gMax nv size hops.in_key hops.in_val
  intro e he
  obtain ⟨h1, h2⟩ := mem_mergeEntries _ _ e he
  constructor
  · rcases h1 with h | h
    · exact hkw _ h
    · exact hkwI _ h
  · rcases h2 with h | h
    · exact hlw _ h
    · exact hlwI _ h

/-- C17 (content of a newly built map).  On well-formed operands with a base
map of `N` entries `B` and `size > 0` incoming pairs `I`, both with strictly
increasing keys (as `map_put` reads them: key words through `deRef`, values as
the links `linkVal` makes), and with room, `map_put` returns `TRUE`; and if
the map returned is not the base map, the words in its entry slots are the
merge of `B` and `I`: its keys increase strictly and are the keys of `B`
together with the keys of `I`, every pair of `I` is an entry, and every entry
of `B` whose key is not a key of `I` is an entry.  Nothing of this depends on
the flag `modified`. -/
theorem map_put_content (H : Host) (st : PlState) (map size nv new_map N : Nat)
    (hvt : ∀ p, H.valueTerm (H.consPtr p) = p)
    (hfun : ∀ n, H.arityFunctor (H.lookupFunctorDef H.ATOM_map n) = n)
    (hops : PutOperands H st map size nv N) (hsize : 0 < size)
    (hspace : st.gTop + 1 + (2 * N + 1) + 2 * size ≤ st.gMax)
    (hB : map_ordered H st.mem (H.valueTerm map + 2) N = true)
    (hI : map_ordered H st.mem nv size = true) :
    ∃ r, map_put H st map size nv new_map = some r ∧ r.rc = PutRc.TRUE ∧
      (r.new_map ≠ map →
        entriesOf r.st.mem (H.valueTerm r.new_map)
            (H.arityFunctor (r.st.mem (H.valueTerm r.new_map)) / 2)
          = mergeEntries (viewList H st.mem (H.valueTerm map + 2) N)
              (viewList H st.mem nv size) ∧
        StrictKeys (mergeEntries (viewList H st.mem (H.valueTerm map + 2) N)
          (viewList H st.mem nv size)) ∧
        (∀ k, k ∈ (mergeEntries (viewList H st.mem (H.valueTerm map + 2) N)
              (viewList H st.mem nv size)).map Prod.fst ↔
            k ∈ (viewList H st.mem (H.valueTerm map + 2) N).map Prod.fst ∨
              k ∈ (viewList H st.mem nv size).map Prod.fst) ∧
        (∀ e ∈ viewList H st.mem nv size,
          e ∈ mergeEntries (viewList H st.mem (H.valueTerm map + 2) N)
            (viewList H st.mem nv size)) ∧
        (∀ e ∈ viewList H st.mem (H.valueTerm map + 2) N,
          e.1 ∉ (viewList H st.mem nv size).map Prod.fst →
          e ∈ mergeEntries (viewList H st.mem (H.valueTerm map + 2) N)
            (viewList H st.mem nv size))) := by
  obtain ⟨r, hr, hrc, -, -, -, hcase⟩ := map_put_reserved H st map size nv new_map N hops
    hsize hspace
  refine ⟨r, hr, hrc, ?_⟩
  intro hne
  rcases hcase with ⟨hbase, -⟩ | ⟨hnew, -, -, hf, -, hraw⟩
  · exact absurd hbase hne
  · have har : H.arityFunctor (r.st.mem (H.valueTerm r.new_map)) / 2
        = (mergeEntries (viewList H st.mem (H.valueTerm map + 2) N)
            (viewList H st.mem nv size)).length := by
      rw [hnew, hvt, hf, hfun]
      omega
    refine ⟨?_, strictKeys_mergeEntries _ _ ((strictKeys_viewList _ _ _ _).1 hB)
      ((strictKeys_viewList _ _ _ _).1 hI), mergeEntries_keys _ _,
      fun e he => mergeEntries_incoming _ _ e he,
      fun e he hk => mergeEntries_base _ _ e he hk⟩
    rw [har]
    unfold entriesOf
    rw [hnew, hvt]
    exact hraw

/-- C17 at the map `_{a:1, b:7, c:3}` and the incoming pairs `a:1, c:3`; the
map returned is a new term at address 14. -/
theorem map_put_content_witness :
    (∃ r, map_put Demo.host (Demo.state Demo.subMaps 14 64) (Demo.compound 0) 2 10 0
        = some r ∧ r.rc = PutRc.TRUE ∧
      (r.new_map ≠ Demo.compound 0 →
        entriesOf r.st.mem (Demo.host.valueTerm r.new_map)
            (Demo.host.arityFunctor (r.st.mem (Demo.host.valueTerm r.new_map)) / 2)
          = mergeEntries
              (viewList Demo.host Demo.subMaps (Demo.host.valueTerm (Demo.compound 0) + 2) 3)
              (viewList Demo.host Demo.subMaps 10 2) ∧
        StrictKeys (mergeEntries
          (viewList Demo.host Demo.subMaps (Demo.host.valueTerm (Demo.compound 0) + 2) 3)
          (viewList Demo.host Demo.subMaps 10 2)) ∧
        (∀ k, k ∈ (mergeEntries
              (viewList Demo.host Demo.subMaps (Demo.host.valueTerm (Demo.compound 0) + 2) 3)
              (viewList Demo.host Demo.subMaps 10 2)).map Prod.fst ↔
            k ∈ (viewList Demo.host Demo.subMaps
                (Demo.host.valueTerm (Demo.compound 0) + 2) 3).map Prod.fst ∨
              k ∈ (viewList Demo.host Demo.subMaps 10 2).map Prod.fst) ∧
        (∀ e ∈ viewList Demo.host Demo.subMaps 10 2,
          e ∈ mergeEntries
            (viewList Demo.host Demo.subMaps (Demo.host.valueTerm (Demo.compound 0) + 2) 3)
            (viewList Demo.host Demo.subMaps 10 2)) ∧
        (∀ e ∈ viewList Demo.host Demo.subMaps (Demo.host.valueTerm (Demo.compound 0) + 2) 3,
          e.1 ∉ (viewList Demo.host Demo.subMaps 10 2).map Prod.fst →
          e ∈ mergeEntries
            (viewList Demo.host Demo.subMaps (Demo.host.valueTerm (Demo.compound 0) + 2) 3)
            (viewList Demo.host Demo.subMaps 10 2)))) ∧
    (map_put Demo.host (Demo.state Demo.subMaps 14 64) (Demo.compound 0) 2 10 0).map
        (fun r => r.new_map) = some (Demo.compound 14) :=
  ⟨map_put_content Demo.host (Demo.state Demo.subMaps 14 64) (Demo.compound 0) 2 10 0 3
    Demo.valueTerm_consPtr Demo.arityFunctor_lookup Demo.putOperands_subMaps (by decide)
    (by decide) (by decide) (by decide), by decide⟩

/-- C15 (put preserves validity).  Let the base map be a valid map of `N`
entries below the heap top (a compound of name `map`, arity `2N + 1`, its keys
passing `map_ordered`), let the keys of the incoming pairs pass `map_ordered`,
the operands be well formed, and let there be no incoming pair or room.  Then
`map_put` returns `TRUE` with a compound whose functor has the name `map` and
the odd arity `1 + 2L`, whose `L` keys pass `map_ordered`; so `PL_is_map` holds
for every term reference that dereferences to the map returned. -/
theorem map_put_valid (H : Host) (hL : HostLaws H) (st : PlState)
    (map size nv new_map N : Nat)
    (hops : PutOperands H st map size nv N)
    (hroom : size = 0 ∨ st.gTop + 1 + (2 * N + 1) + 2 * size ≤ st.gMax)
    (hterm : H.isTerm map = true)
    (hname : H.nameFunctor (st.mem (H.valueTerm map)) = H.ATOM_map)
    (hbelow : H.valueTerm map < st.gTop)
    (hB : map_ordered H st.mem (H.valueTerm map + 2) N = true)
    (hI : map_ordered H st.mem nv size = true) :
    ∃ r, map_put H st map size nv new_map = some r ∧ r.rc = PutRc.TRUE ∧
      H.isTerm r.new_map = true ∧
      H.nameFunctor (r.st.mem (H.valueTerm r.new_map)) = H.ATOM_map ∧
      (∃ L, H.arityFunctor (r.st.mem (H.valueTerm r.new_map)) = 1 + 2 * L ∧
        map_ordered H r.st.mem (H.valueTerm r.new_map + 2) L = true) ∧
      ∀ t, r.st.mem (H.deRef r.st.mem (H.valTermRef t)) = r.new_map →
        PL_is_map H r.st t = true := by
  have hfinal : ∀ r : PutResult, H.isTerm r.new_map = true →
      H.nameFunctor (r.st.mem (H.valueTerm r.new_map)) = H.ATOM_map →
      (∃ L, H.arityFunctor (r.st.mem (H.valueTerm r.new_map)) = 1 + 2 * L ∧
        map_ordered H r.st.mem (H.valueTerm r.new_map + 2) L = true) →
      ∀ t, r.st.mem (H.deRef r.st.mem (H.valTermRef t)) = r.new_map →
        PL_is_map H r.st t = true := by
    intro r h1 h2 h3 t ht
    obtain ⟨L, hL1, hL2⟩ := h3
    unfold PL_is_map
    have e1 : (1 + 2 * L) % 2 = 1 := by omega
    have e2 : (1 + 2 * L) / 2 = L := by omega
    simp only [ht, h1, if_true, h2, hL1, e1, e2, hL2, decide_True, Bool.and_self]
  by_cases hsize : size = 0
  · subst hsize
    have h3 : ∃ L, H.arityFunctor (st.mem (H.valueTerm map)) = 1 + 2 * L ∧
        map_ordered H st.mem (H.valueTerm map + 2) L = true :=
      ⟨N, by rw [hops.arity]; omega, hB⟩
    exact ⟨_, map_put_size_zero H st map nv new_map, rfl, hterm, hname, h3,
      hfinal { rc := PutRc.TRUE, new_map := map, st := st } hterm hname h3⟩
  · have hspace := hroom.resolve_left hsize
    obtain ⟨r, hr, hrc, -, -, hag, hcase⟩ := map_put_reserved H st map size nv new_map N hops
      (by omega) hspace
    have hag1 : AgreeOff st.gTop st.gMax st.mem r.st.mem := agreeOff_widen hag hspace
    have hSB := (strictKeys_viewList _ _ _ _).1 hB
    have hSI := (strictKeys_viewList _ _ _ _).1 hI
    rcases hcase with ⟨hbase, -⟩ | ⟨hnew, -, -, hf, -, hraw⟩
    · have hcell : r.st.mem (H.valueTerm map) = st.mem (H.valueTerm map) :=
        hag _ (Or.inl hbelow)
      have h1 : H.isTerm r.new_map = true := by rw [hbase]; exact hterm
      have h2 : H.nameFunctor (r.st.mem (H.valueTerm r.new_map)) = H.ATOM_map := by
        rw [hbase, hcell]; exact hname
      have h3 : ∃ L, H.arityFunctor (r.st.mem (H.valueTerm r.new_map)) = 1 + 2 * L ∧
          map_ordered H r.st.mem (H.valueTerm r.new_map + 2) L = true := by
        refine ⟨N, by rw [hbase, hcell, hops.arity]; omega, ?_⟩
        rw [hbase, strictKeys_viewList,
          viewList_stable H st.mem r.st.mem st.gTop st.gMax _ N hops.base_key hops.base_val hag1]
        exact hSB
      exact ⟨r, hr, hrc, h1, h2, h3, hfinal r h1 h2 h3⟩
    · have h1 : H.isTerm r.new_map = true := by rw [hnew]; exact hL.isTerm_consPtr _
      have h2 : H.nameFunctor (r.st.mem (H.valueTerm r.new_map)) = H.ATOM_map := by
        rw [hnew, hL.valueTerm_consPtr, hf]; exact hL.name_lookup _
      have h3 : ∃ L, H.arityFunctor (r.st.mem (H.valueTerm r.new_map)) = 1 + 2 * L ∧
          map_ordered H r.st.mem (H.valueTerm r.new_map + 2) L = true := by
        refine ⟨_, by rw [hnew, hL.valueTerm_consPtr, hf]; exact hL.arity_lookup _, ?_⟩
        rw [hnew, hL.valueTerm_consPtr, strictKeys_viewList,
          viewList_eq_rawList H st.mem r.st.mem st.gTop st.gMax _ _ hag1
            (by rw [hraw]; exact mergeEntries_words H st map size nv N hops), hraw]
        exact strictKeys_mergeEntries _ _ hSB hSI
      exact ⟨r, hr, hrc, h1, h2, h3, hfinal r h1 h2 h3⟩

/-- C15 at the map `_{a:1, b:7, c:3}` and the incoming pairs `a:1, c:3`. -/
theorem map_put_valid_witness :
    ∃ r, map_put Demo.host (Demo.state Demo.subMaps 14 64) (Demo.compound 0) 2 10 0
        = some r ∧ r.rc = PutRc.TRUE ∧
      Demo.host.isTerm r.new_map = true ∧
      Demo.host.nameFunctor (r.st.mem (Demo.host.valueTerm r.new_map)) = Demo.host.ATOM_map ∧
      (∃ L, Demo.host.arityFunctor (r.st.mem (Demo.host.valueTerm r.new_map)) = 1 + 2 * L ∧
        map_ordered Demo.host r.st.mem (Demo.host.valueTerm r.new_map + 2) L = true) ∧
      ∀ t, r.st.mem (Demo.host.deRef r.st.mem (Demo.host.valTermRef t)) = r.new_map →
        PL_is_map Demo.host r.st t = true :=
  map_put_valid Demo.host Demo.hostLaws (Demo.state Demo.subMaps 14 64) (Demo.compound 0) 2 10 0 3
    Demo.putOperands_subMaps (Or.inr (by decide)) (by decide) (by decide) (by decide)
    (by decide) (by decide)

/-- C18 fails on the path that returns the base map.  At the map
`_{a:1, b:2}` (two entries, `N = 2`) with its own first entry `a:1` as the
incoming sequence (`M = 1`, one key in common): the operands pass
`map_ordered`, and `N + M - c = 2`; but the merge loop stops behind the one
entry it has written (`out` is 2 cells behind the first entry slot at address
8), and `map_put` returns the base map without writing a second entry, a
functor or a class. -/
theorem map_put_writes_one :
    map_ordered Demo.host Demo.abMap 2 2 = true ∧
    map_ordered Demo.host Demo.abMap 2 1 = true ∧
    commonKeys (viewList Demo.host Demo.abMap 2 2) (viewList Demo.host Demo.abMap 2 1) = 1 ∧
    (map_put_scan Demo.host 6 4 3
        { mem := Demo.abMap, out := 8, in_ := 2, nv := 2, modified := false }).map
      (fun s => (s.out, s.nv, s.modified)) = some (8 + 2 * 1, 4, false) ∧
    (map_put Demo.host (Demo.state Demo.abMap 6 64) (Demo.compound 0) 1 2 0).map
      (fun r => (r.rc, r.new_map, r.st.gTop)) = some (PutRc.TRUE, Demo.compound 0, 6) ∧
    (map_put Demo.host (Demo.state Demo.abMap 6 64) (Demo.compound 0) 1 2 0).map
      (fun r => [r.st.mem 6, r.st.mem 7, r.st.mem 8, r.st.mem 9, r.st.mem 10, r.st.mem 11])
      = some [0, 0, Demo.atom 7, Demo.int 1, 0, 0] :=
  ⟨by decide, by decide, by decide, by decide, by decide, by decide⟩

/-- The cells that `map_put` has written when it returns the base map after
the merge loop: some of the entry slots from `gTop + 2` on, `L` entries at most,
`L` being no more than the number of entries of the merge. -/
theorem map_put_scratch (H : Host) (st : PlState) (map size nv N : Nat)
    (hops : PutOperands H st map size nv N)
    (hspace : st.gTop + 1 + (2 * N + 1) + 2 * size ≤ st.gMax) (sf : MergeState)
    (hscan : map_put_scan H (H.valueTerm map + 2 + 2 * N) (nv + 2 * size) (N + size)
      { mem := st.mem, out := st.gTop + 2, in_ := H.valueTerm map + 2, nv := nv,
        modified := false } = some sf) :
    ∃ L, L ≤ (mergeEntries (viewList H st.mem (H.valueTerm map + 2) N)
          (viewList H st.mem nv size)).length ∧
      ∀ a, a < st.gTop + 2 ∨ st.gTop + 2 + 2 * L ≤ a → sf.mem a = st.mem a := by
  obtain ⟨s1, i1, j1, L, hs1, -, -, -, -, -, -, -, hout, -, -, hframe, hmerge⟩ :=
    map_put_scan_spec H st.mem st.gTop st.gMax (H.valueTerm map) nv N size
      hops.base_key hops.base_val hops.in_key hops.in_val (N + size)
      { mem := st.mem, out := st.gTop + 2, in_ := H.valueTerm map + 2, nv := nv,
        modified := false } 0 0 rfl rfl (Nat.zero_le _) (Nat.zero_le _)
      (agreeOff_refl _ _ _) (by show st.gTop ≤ st.gTop + 2; omega)
      (by show st.gTop + 2 + _ ≤ _; omega) (by omega)
  rw [hscan] at hs1
  have hsf : sf = s1 := Option.some.inj hs1
  subst hsf
  simp only [List.drop_zero] at hmerge
  refine ⟨L.length, ?_, ?_⟩
  · rw [← hmerge, List.length_append]
    omega
  · intro a ha
    simp only at hout hframe
    exact hframe a (by omega)

/-- C18, amended (writes stay inside the reserved region).  On well-formed
operands with a base map of `N` entries (arity `A = 1 + 2N`) and `M ≥ 1`
incoming pairs, both with strictly increasing keys, `c` of the incoming keys
being keys of the base map, and with the room that the check on entry asks
for: `map_put` returns `TRUE` and no cell outside the `1 + A + 2M` cells from
the old heap top on, which end at or below the heap limit, has changed.  If it
returns a new term, it has written exactly `L = N + M - c` entries: the term
has arity `1 + 2L` and the new heap top, `2 + 2L` cells behind the old one, is
at or below the heap limit.  If it returns the base map, the heap top has not
moved and it has written entry slots only, at most `N + M - c` entries from the
old heap top plus 2 on: the cells at the old heap top and behind it, where the
functor and the class of a new term go, are unchanged. -/
theorem map_put_writes (H : Host) (st : PlState) (map size nv new_map N : Nat)
    (hfun : ∀ n, H.arityFunctor (H.lookupFunctorDef H.ATOM_map n) = n)
    (hops : PutOperands H st map size nv N) (hsize : 0 < size)
    (hspace : st.gTop + 1 + (2 * N + 1) + 2 * size ≤ st.gMax)
    (hB : map_ordered H st.mem (H.valueTerm map + 2) N = true)
    (hI : map_ordered H st.mem nv size = true) :
    ∃ r, map_put H st map size nv new_map = some r ∧ r.rc = PutRc.TRUE ∧
      AgreeOff st.gTop (st.gTop + 1 + (2 * N + 1) + 2 * size) st.mem r.st.mem ∧
      st.gTop + 1 + (2 * N + 1) + 2 * size ≤ r.st.gMax ∧
      ((r.new_map = map ∧ r.st.gTop = st.gTop ∧
          ∃ L, L + commonKeys (viewList H st.mem (H.valueTerm map + 2) N)
                (viewList H st.mem nv size) ≤ N + size ∧
            ∀ a, a < st.gTop + 2 ∨ st.gTop + 2 + 2 * L ≤ a → r.st.mem a = st.mem a) ∨
        (r.new_map = H.consPtr st.gTop ∧
          ∃ L, L + commonKeys (viewList H st.mem (H.valueTerm map + 2) N)
                (viewList H st.mem nv size) = N + size ∧
            H.arityFunctor (r.st.mem st.gTop) = 1 + 2 * L ∧
            r.st.gTop = st.gTop + 2 + 2 * L ∧ r.st.gTop ≤ r.st.gMax)) := by
  obtain ⟨r, hr, hrc, hmax, -, -, hcase⟩ := map_put_spec H st map size nv new_map N
    hops.arity hsize hspace hops.cache hops.cls hops.base_key hops.base_val hops.in_key
    hops.in_val
  obtain ⟨r1, hr1, -, -, -, hag, -⟩ := map_put_reserved H st map size nv new_map N hops
    hsize hspace
  have hsame : r1 = r := Option.some.inj (hr1.symm.trans hr)
  subst hsame
  have hcount := mergeEntries_length _ _ ((strictKeys_viewList _ _ _ _).1 hB)
    ((strictKeys_viewList _ _ _ _).1 hI)
  rw [viewList_length, viewList_length] at hcount
  refine ⟨r1, hr, hrc, hag, by rw [hmax]; exact hspace, ?_⟩
  rcases hcase with ⟨hbase, htop, sf, hscan, -, -, hreq⟩ | ⟨hnew, hlen, htop, hf, -, -⟩
  · obtain ⟨L, hL, hframe⟩ := map_put_scratch H st map size nv N hops hspace sf hscan
    refine Or.inl ⟨hbase, htop, L, by omega, ?_⟩
    intro a ha
    rw [hreq]
    exact hframe a ha
  · refine Or.inr ⟨hnew, _, hcount, by rw [hf, hfun], htop, ?_⟩
    rw [htop, hmax]
    omega

/-- C18, amended, at the map `_{a:1, b:7, c:3}` and the incoming pairs
`a:1, c:3`. -/
theorem map_put_writes_witness :
    ∃ r, map_put Demo.host (Demo.state Demo.subMaps 14 64) (Demo.compound 0) 2 10 0
        = some r ∧ r.rc = PutRc.TRUE ∧
      AgreeOff 14 (14 + 1 + (2 * 3 + 1) + 2 * 2) Demo.subMaps r.st.mem ∧
      14 + 1 + (2 * 3 + 1) + 2 * 2 ≤ r.st.gMax ∧
      ((r.new_map = Demo.compound 0 ∧ r.st.gTop = 14 ∧
          ∃ L, L + commonKeys
                (viewList Demo.host Demo.subMaps (Demo.host.valueTerm (Demo.compound 0) + 2) 3)
                (viewList Demo.host Demo.subMaps 10 2) ≤ 3 + 2 ∧
            ∀ a, a < 14 + 2 ∨ 14 + 2 + 2 * L ≤ a → r.st.mem a = Demo.subMaps a) ∨
        (r.new_map = Demo.host.consPtr 14 ∧
          ∃ L, L + commonKeys
                (viewList Demo.host Demo.subMaps (Demo.host.valueTerm (Demo.compound 0) + 2) 3)
                (viewList Demo.host Demo.subMaps 10 2) = 3 + 2 ∧
            Demo.host.arityFunctor (r.st.mem 14) = 1 + 2 * L ∧
            r.st.gTop = 14 + 2 + 2 * L ∧ r.st.gTop ≤ r.st.gMax)) :=
  map_put_writes Demo.host (Demo.state Demo.subMaps 14 64) (Demo.compound 0) 2 10 0 3
    Demo.arityFunctor_lookup Demo.putOperands_subMaps (by decide) (by decide) (by decide)
    (by decide)

/-! ## Termination of the binary search (C19) -/

/-- The function `get_name_value` succeeds exactly on the accepted shapes, and leaves the
cells alone when it fails. -/
theorem get_name_value_iff (H : Host)
    (hthree : H.arityFunctor H.FUNCTOR_minus2 ≠ 1 ∧ H.arityFunctor H.FUNCTOR_equals2 ≠ 1 ∧
      H.arityFunctor H.FUNCTOR_colon2 ≠ 1)
    (mem : Store) (p name value : Nat) :
    ((get_name_value H mem p name value).1 = true ↔ Accepted H mem p) ∧
      ((get_name_value H mem p name value).1 = false →
        (get_name_value H mem p name value).2 = mem) := by
  unfold get_name_value Accepted
  simp only
  by_cases hterm : H.isTerm (mem (H.deRef mem p)) = true
  · simp only [hterm, if_true, true_and]
    by_cases hf : mem (H.valueTerm (mem (H.deRef mem p))) = H.FUNCTOR_minus2 ∨
        mem (H.valueTerm (mem (H.deRef mem p))) = H.FUNCTOR_equals2 ∨
        mem (H.valueTerm (mem (H.deRef mem p))) = H.FUNCTOR_colon2
    · have har : H.arityFunctor (mem (H.valueTerm (mem (H.deRef mem p)))) ≠ 1 := by
        rcases hf with h | h | h
        · rw [h]; exact hthree.1
        · rw [h]; exact hthree.2.1
        · rw [h]; exact hthree.2.2
      rw [if_pos hf]
      by_cases hk : is_key H (mem (H.deRef mem (H.valueTerm (mem (H.deRef mem p)) + 1))) = true
      · rw [if_pos hk]
        exact ⟨⟨fun _ => Or.inl ⟨hf, hk⟩, fun _ => rfl⟩, fun h => absurd h (by simp)⟩
      · rw [if_neg hk]
        refine ⟨⟨fun h => absurd h (by simp), ?_⟩, fun _ => rfl⟩
        rintro (⟨-, h⟩ | h)
        · exact absurd h hk
        · exact absurd h har
    · rw [if_neg hf]
      by_cases har : H.arityFunctor (mem (H.valueTerm (mem (H.deRef mem p)))) = 1
      · rw [if_pos har]
        exact ⟨⟨fun _ => Or.inr har, fun _ => rfl⟩, fun h => absurd h (by simp)⟩
      · rw [if_neg har]
        refine ⟨⟨fun h => absurd h (by simp), ?_⟩, fun _ => rfl⟩
        rintro (⟨h, -⟩ | h)
        · exact absurd h hf
        · exact absurd h har
  · simp only [hterm, if_false]
    exact ⟨⟨fun h => absurd h (by simp), fun h => absurd h.1 (by simp)⟩, fun _ => rfl⟩

/-- The loop over the list stops at the first element that has none of the
accepted shapes. -/
theorem PL_get_map_ex_loop_bad (H : Host)
    (hthree : H.arityFunctor H.FUNCTOR_minus2 ≠ 1 ∧ H.arityFunctor H.FUNCTOR_equals2 ≠ 1 ∧
      H.arityFunctor H.FUNCTOR_colon2 ≠ 1)
    (mem0 : Store) (lo hi bad : Nat) :
    ∀ (es : List (Nat × Nat)) (fuel : Nat) (mem : Store) (tail ap : Nat),
      ListBad H mem0 lo hi tail es bad → AgreeOff lo hi mem0 mem → lo ≤ ap →
      ap + 2 * es.length ≤ hi → es.length + 1 ≤ fuel →
      ∃ mem', PL_get_map_ex_loop H fuel mem tail ap = some (BuildLoop.bad bad mem') ∧
        ∀ a, a < ap ∨ ap + 2 * es.length ≤ a → mem' a = mem a := by
  intro es
  induction es with
  | nil =>
    intro fuel mem tail ap hshape hag _ _ hfuel
    obtain ⟨fuel, rfl⟩ : ∃ n, fuel = n + 1 := ⟨fuel - 1, by simp at hfuel; omega⟩
    obtain ⟨hl, hh, hbad⟩ := hshape mem hag
    obtain ⟨hiff, hsame⟩ := get_name_value_iff H hthree mem bad ap (ap + 1)
    have hfalse : (get_name_value H mem bad ap (ap + 1)).1 = false := by
      cases hb : (get_name_value H mem bad ap (ap + 1)).1
      · rfl
      · exact absurd (hiff.1 hb) hbad
    have hgnv : get_name_value H mem bad ap (ap + 1) = (false, mem) :=
      Prod.ext hfalse (hsame hfalse)
    refine ⟨mem, ?_, fun _ _ => rfl⟩
    rw [PL_get_map_ex_loop, if_pos hl, hh]
    simp only [hgnv]
  | cons e es ih =>
    intro fuel mem tail ap hshape hag hlo hhi hfuel
    obtain ⟨fuel, rfl⟩ : ∃ n, fuel = n + 1 := ⟨fuel - 1, by simp at hfuel; omega⟩
    obtain ⟨head, tail1, hcell, helem, hrest⟩ := hshape
    rw [List.length_cons] at hhi hfuel
    obtain ⟨hl, hh, -⟩ := hcell mem hag
    have hag1 : AgreeOff lo hi mem0 (store (store mem ap e.1) (ap + 1) e.2) :=
      agreeOff_store (agreeOff_store hag _ _ hlo (by omega)) _ _ (by omega) (by omega)
    obtain ⟨-, -, ht⟩ := hcell _ hag1
    have hgnv := get_name_value_shape H mem0 mem lo hi head e.1 e.2 ap (ap + 1) helem hag hlo
      (by omega)
    rw [PL_get_map_ex_loop, if_pos hl, hh]
    simp only [hgnv, ht]
    obtain ⟨mem', hloop, hframe⟩ := ih fuel _ tail1 (ap + 2) hrest hag1 (by omega)
      (by omega) (by omega)
    refine ⟨mem', hloop, ?_⟩
    intro a ha
    rw [List.length_cons] at ha
    rw [hframe a (by omega), store_other _ _ _ _ (by omega), store_other _ _ _ _ (by omega)]

/-- C11 (shape rejection).  The function `get_name_value` succeeds on an element if and
only if the element is a compound that either has the functor of `Key-Value`,
`Key=Value` or `Key:Value` and a first argument that dereferences to an atom
or a tagged integer, or has one argument.  And if `data` is a proper list of
`n` elements, not itself a map, with room for the new term, whose first
elements have accepted shapes and whose next element, in cell `bad`, has none,
then `PL_get_map_ex` raises the type error `name-value` on the element in cell
`bad`, the first such element in list order; the top of the global stack is
what it was before the call, no cell outside the free part of the global stack
has changed, and the term reference `map` has not been assigned. -/
theorem PL_get_map_ex_bad_element (H : Host) (st : PlState)
    (data cls map tail0 bad n : Nat) (es : List (Nat × Nat))
    (hthree : H.arityFunctor H.FUNCTOR_minus2 ≠ 1 ∧ H.arityFunctor H.FUNCTOR_equals2 ≠ 1 ∧
      H.arityFunctor H.FUNCTOR_colon2 ≠ 1)
    (hnm : PL_is_map H st data = false)
    (hlist : H.PL_is_list st.mem data = true)
    (hlen : H.lengthList st.mem data = (n : Int))
    (hn : es.length < n)
    (hspace : st.gTop + (n * 2 + 2) ≤ st.gMax)
    (hcache : CacheOK H st)
    (htail : ∀ mem, AgreeOff st.gTop st.gMax st.mem mem →
      H.deRef mem (H.valTermRef data) = tail0)
    (hshape : ListBad H st.mem st.gTop st.gMax tail0 es bad)
    (hmapref : H.valTermRef map < st.gTop ∨ st.gMax ≤ H.valTermRef map) :
    (∀ mem p name value,
      (get_name_value H mem p name value).1 = true ↔ Accepted H mem p) ∧
    ∃ st', PL_get_map_ex H st data cls map
        = some (Outcome.type_error_at "name-value" bad, st') ∧
      st'.gTop = st.gTop ∧ st'.gMax = st.gMax ∧
      AgreeOff st.gTop st.gMax st.mem st'.mem ∧
      st'.mem (H.valTermRef map) = st.mem (H.valTermRef map) := by
  refine ⟨fun mem p name value => (get_name_value_iff H hthree mem p name value).1, ?_⟩
  obtain ⟨hf1, -, hf3, hf4, hf5⟩ := map_functor_spec H
    (PlState.mk st.mem (st.gTop + (n * 2 + 2)) st.gMax st.map_functors)
    (n * 2 + 1) hcache
  simp only at hf3 hf4 hf5
  obtain ⟨f, hfdef⟩ : ∃ f, f = H.lookupFunctorDef H.ATOM_map (n * 2 + 1) := ⟨_, rfl⟩
  rw [← hfdef] at hf1
  obtain ⟨c, hcdef⟩ : ∃ c, c = (if cls ≠ 0 then
      H.linkVal (store st.mem st.gTop f) (H.valTermRef cls) else H.setVar) := ⟨_, rfl⟩
  have hag1 : AgreeOff st.gTop st.gMax st.mem (store st.mem st.gTop f) :=
    agreeOff_store (agreeOff_refl _ _ _) _ _ (le_refl _) (by omega)
  have hag2 : AgreeOff st.gTop st.gMax st.mem (store (store st.mem st.gTop f) (st.gTop + 1) c) :=
    agreeOff_store hag1 _ _ (by omega) (by omega)
  have hmem2 : (if cls ≠ 0 then store (store st.mem st.gTop f) (st.gTop + 1)
        (H.linkVal (store st.mem st.gTop f) (H.valTermRef cls))
      else store (store st.mem st.gTop f) (st.gTop + 1) H.setVar)
      = store (store st.mem st.gTop f) (st.gTop + 1) c := by
    by_cases hc : cls ≠ 0
    · rw [if_pos hc, hcdef, if_pos hc]
    · rw [if_neg hc, hcdef, if_neg hc]
  obtain ⟨mem3, hloop, hframe⟩ := PL_get_map_ex_loop_bad H hthree st.mem st.gTop st.gMax bad es
    (n + 1) _ tail0 (st.gTop + 2) hshape hag2 (by omega) (by omega) (by omega)
  have hag3 : AgreeOff st.gTop st.gMax st.mem mem3 := by
    intro a ha
    rw [hframe a (by omega)]
    exact hag2 a ha
  refine ⟨PlState.mk mem3 st.gTop st.gMax (map_functor H
    (PlState.mk st.mem (st.gTop + (n * 2 + 2)) st.gMax st.map_functors)
    (n * 2 + 1)).2.map_functors, ?_, rfl, rfl, hag3, hag3 _ hmapref⟩
  unfold PL_get_map_ex
  rw [hnm]
  simp only [Bool.false_eq_true, if_false, hlist, if_true, hlen, Int.toNat_ofNat]
  rw [if_neg (by omega), allocGlobal_ok st _ hspace]
  simp only [hf1, hf3, hf4, hf5, hmem2, htail _ hag2, hloop]

/-- C13 (build is the identity on valid maps).  If `PL_is_map` holds for `data`,
then, whatever the class argument, `PL_get_map_ex` returns `TRUE` and has
assigned to the term reference `map` the word to which `data` dereferences, the
pointer to the very term of `data`; no other cell has changed, so the class
slot and the entries of the term are what they were, and the heap top has not
moved.  The host is assumed to implement `PL_put_term(t1, t2)` as the
assignment of `linkVal(valTermRef(t2))` to the cell of `t1`, and `linkVal` to
give the word of the term for a cell that dereferences to this term. -/
theorem PL_get_map_ex_identity (H : Host) (st : PlState) (data cls map : Nat)
    (hmap : PL_is_map H st data = true)
    (hput : ∀ mem t1 t2, H.PL_put_term mem t1 t2
      = store mem (H.valTermRef t1) (H.linkVal mem (H.valTermRef t2)))
    (hlink : H.linkVal st.mem (H.valTermRef data)
      = st.mem (H.deRef st.mem (H.valTermRef data))) :
    ∃ st', PL_get_map_ex H st data cls map = some (Outcome.TRUE, st') ∧
      st'.gTop = st.gTop ∧ st'.gMax = st.gMax ∧ st'.map_functors = st.map_functors ∧
      st'.mem (H.valTermRef map) = st.mem (H.deRef st.mem (H.valTermRef data)) ∧
      ∀ a, a ≠ H.valTermRef map → st'.mem a = st.mem a := by
  refine ⟨{ st with mem := H.PL_put_term st.mem map data }, ?_, rfl, rfl, rfl, ?_, ?_⟩
  · unfold PL_get_map_ex
    rw [hmap, if_pos rfl]
  · show H.PL_put_term st.mem map data (H.valTermRef map) = _
    rw [hput, store_same, hlink]
  · intro a ha
    show H.PL_put_term st.mem map data a = _
    rw [hput, store_other _ _ _ _ ha]

/-- C13 at the map `_{a:1, b:2}` with a class argument (term reference 5) given:
term reference 2 gets the pointer to the term at address 0. -/
theorem PL_get_map_ex_identity_witness :
    ∃ st', PL_get_map_ex Demo.host (Demo.state Demo.abMap 6 64) 1 5 2
        = some (Outcome.TRUE, st') ∧
      st'.gTop = 6 ∧ st'.gMax = 64 ∧
      st'.map_functors = (Demo.state Demo.abMap 6 64).map_functors ∧
      st'.mem (Demo.host.valTermRef 2)
        = Demo.abMap (Demo.host.deRef Demo.abMap (Demo.host.valTermRef 1)) ∧
      ∀ a, a ≠ Demo.host.valTermRef 2 → st'.mem a = Demo.abMap a :=
  PL_get_map_ex_identity Demo.host (Demo.state Demo.abMap 6 64) 1 5 2 (by decide)
    (fun _ _ _ => rfl) (by decide)

namespace Demo

/-- The cells of `pairList` with an unbound variable as the key of the second
pair: the first element is accepted, the second, in cell 7, is not. -/
theorem listBad_pairList (k1 v1 v2 : Nat) (hk1 : k1 % 8 = 4) (hv1 : v1 % 8 = 3) :
    ListBad host (pairList k1 v1 0 v2) 12 64 101 [(k1, v1)] 7 := by
  refine ⟨10, 11, ?_, ?_, ?_⟩
  · intro mem hag
    obtain ⟨-, -, -, -, -, -, -, -, -, h9, -, h11, h101⟩ := pairList_cells k1 v1 0 v2 mem hag
    refine ⟨?_, ?_, ?_⟩
    · show isList mem (mem 101) = true
      unfold isList
      rw [h101]
      simp [compound, h9]
    · show mem 101 / 8 + 1 = 10
      rw [h101]; rfl
    · show deRefN mem 16 (mem 101 / 8 + 2) = 11
      rw [h101]
      exact deRefN_of_not_ref mem 16 11 (by rw [h11]; decide)
  · apply elemShape_pair _ _ _ 10 0 k1 v1 hk1 hv1
    intro mem hag
    obtain ⟨h0, h1, h2, -, -, -, -, -, -, -, h10, -, -⟩ := pairList_cells k1 v1 0 v2 mem hag
    exact ⟨h10, h0, h1, h2⟩
  · intro mem hag
    obtain ⟨-, -, -, h3, h4, -, h6, h7, -, -, -, h11, -⟩ := pairList_cells k1 v1 0 v2 mem hag
    refine ⟨?_, ?_, ?_⟩
    · show isList mem (mem 11) = true
      unfold isList
      rw [h11]
      simp [compound, h6]
    · show mem 11 / 8 + 1 = 7
      rw [h11]; rfl
    · have hd7 : host.deRef mem 7 = 7 :=
        deRefN_of_not_ref mem 16 7 (by rw [h7]; decide)
      have hd4 : host.deRef mem 4 = 4 :=
        deRefN_of_not_ref mem 16 4 (by rw [h4]; decide)
      have hv : host.valueTerm (compound 3) = 3 := by decide
      unfold Accepted
      rw [hd7, h7, hv, h3]
      show ¬ (_ ∧ ((_ ∧ is_key host (mem (host.deRef mem (3 + 1))) = true) ∨ _))
      rw [show (3 : Nat) + 1 = 4 from rfl, hd4, h4]
      decide

end Demo

/-- C11 at the list `[a-1, X-2]` with `X` unbound: the type error names the
second element, in cell 7, and the top of the stack is back at address 12. -/
theorem PL_get_map_ex_bad_element_witness :
    (∀ mem p name value,
      (get_name_value Demo.host mem p name value).1 = true ↔ Accepted Demo.host mem p) ∧
    ∃ st', PL_get_map_ex Demo.host
        (Demo.state (Demo.pairList (Demo.atom 7) (Demo.int 1) 0 (Demo.int 2)) 12 64) 1 0 2
        = some (Outcome.type_error_at "name-value" 7, st') ∧
      st'.gTop = 12 ∧ st'.gMax = 64 ∧
      AgreeOff 12 64 (Demo.pairList (Demo.atom 7) (Demo.int 1) 0 (Demo.int 2)) st'.mem ∧
      st'.mem (Demo.host.valTermRef 2)
        = Demo.pairList (Demo.atom 7) (Demo.int 1) 0 (Demo.int 2) (Demo.host.valTermRef 2) :=
  PL_get_map_ex_bad_element Demo.host
    (Demo.state (Demo.pairList (Demo.atom 7) (Demo.int 1) 0 (Demo.int 2)) 12 64)
    1 0 2 101 7 2 [(Demo.atom 7, Demo.int 1)]
    (by decide) (by decide) (by decide) (by decide) (by decide) (by decide)
    (Demo.cacheOK_state _ _ _) (Demo.deRef_pairList _ _ _ _)
    (Demo.listBad_pairList _ _ _ (by decide) (by decide)) (Or.inr (by decide))

/-! ## Enumeration by `map_get/3` (C12) -/

/-- With both unifications succeeding at entry `k`, and the key cell of entry
`k` still holding its key after the first, the search that starts at argument
`2k + 1` reports entry `k`: with a choice point if another entry follows, and
with `TRUE` at the last entry. -/
theorem map_get_search_entry (H : Host) (st fid : PlState) (map A2 A3 N k : Nat)
    (harity : H.arityFunctor (st.mem (H.valueTerm map)) = 2 * N + 1)
    (hopen : H.PL_open_foreign_frame st = some fid) (hk : k < N)
    (h1 : (H.unify_ptrs fid (H.valueTerm map + 2 + 2 * k + 1) (H.valTermRef A3)).1 = true)
    (hkeep : (H.unify_ptrs fid (H.valueTerm map + 2 + 2 * k + 1) (H.valTermRef A3)).2.mem
        (H.deRef fid.mem (H.valueTerm map + 2 + 2 * k)) = keyAt H fid.mem (H.valueTerm map) k)
    (h2 : (H._PL_unify_atomic
        (H.unify_ptrs fid (H.valueTerm map + 2 + 2 * k + 1) (H.valTermRef A3)).2 A2
        (keyAt H fid.mem (H.valueTerm map) k)).1 = true) :
    map_get_search H st map (2 * k + 1) A2 A3 =
      some (if k + 1 < N then ForeignRet.REDO (2 * k + 1) else ForeignRet.ret Outcome.TRUE,
        entrySolution H fid (H.valueTerm map) A2 A3 k) := by
  unfold map_get_search
  simp only [harity, hopen]
  have e1 : H.valueTerm map + 1 + (2 * k + 1) = H.valueTerm map + 2 + 2 * k := by omega
  have e2 : H.valueTerm map + 1 + (2 * k + 1 + 1) = H.valueTerm map + 2 + 2 * k + 1 := by omega
  rw [map_get_loop, if_pos (by omega)]
  simp only [e1, e2, h1, if_true, hkeep, h2]
  unfold entrySolution
  by_cases hlast : k + 1 < N
  · rw [if_pos (by omega), if_pos hlast]
  · rw [if_neg (by omega), if_neg hlast]

/-- On a term without entries the search reports nothing. -/
theorem map_get_search_empty (H : Host) (st : PlState) (map i A2 A3 : Nat)
    (harity : H.arityFunctor (st.mem (H.valueTerm map)) = 1) (hi : 1 ≤ i) :
    ∃ st1, map_get_search H st map i A2 A3 = some (ForeignRet.ret Outcome.FALSE, st1) := by
  unfold map_get_search
  simp only [harity]
  cases H.PL_open_foreign_frame st with
  | none => exact ⟨_, rfl⟩
  | some fid =>
    refine ⟨H.PL_close_foreign_frame fid fid, ?_⟩
    simp only
    rw [map_get_loop, if_neg (by omega)]

/-- From entry `k` on, the redo protocol reports the remaining entries in
array order, as long as no unification moves a key. -/
theorem map_get_solutions_from (H : Host) (lfuel : Nat) (st fid : PlState)
    (junk A1 A2 A3 map N : Nat)
    (hmap : st.mem (H.deRef st.mem (H.valTermRef A1)) = map)
    (harity : H.arityFunctor (st.mem (H.valueTerm map)) = 2 * N + 1)
    (hopen : H.PL_open_foreign_frame st = some fid)
    (hunify : ∀ k, k < N →
      (H.unify_ptrs fid (H.valueTerm map + 2 + 2 * k + 1) (H.valTermRef A3)).1 = true ∧
      (H.unify_ptrs fid (H.valueTerm map + 2 + 2 * k + 1) (H.valTermRef A3)).2.mem
        (H.deRef fid.mem (H.valueTerm map + 2 + 2 * k))
        = keyAt H fid.mem (H.valueTerm map) k ∧
      (H._PL_unify_atomic
        (H.unify_ptrs fid (H.valueTerm map + 2 + 2 * k + 1) (H.valTermRef A3)).2 A2
        (keyAt H fid.mem (H.valueTerm map) k)).1 = true) :
    ∀ m k fuel ctl, k + m + 1 = N → m + 1 ≤ fuel →
      map_get H lfuel st ctl junk A1 A2 A3 = map_get_search H st map (2 * k + 1) A2 A3 →
      map_get_solutions H lfuel st junk A1 A2 A3 fuel ctl =
        some ((List.range' k (m + 1)).map (entrySolution H fid (H.valueTerm map) A2 A3)) := by
  intro m
  induction m with
  | zero =>
    intro k fuel ctl hk hfuel hctl
    obtain ⟨fuel, rfl⟩ : ∃ n, fuel = n + 1 := ⟨fuel - 1, by omega⟩
    obtain ⟨hu1, hu2, hu3⟩ := hunify k (by omega)
    rw [map_get_solutions, hctl,
      map_get_search_entry H st fid map A2 A3 N k harity hopen (by omega) hu1 hu2 hu3,
      if_neg (by omega)]
    rfl
  | succ m ih =>
    intro k fuel ctl hk hfuel hctl
    obtain ⟨fuel, rfl⟩ : ∃ n, fuel = n + 1 := ⟨fuel - 1, by omega⟩
    obtain ⟨hu1, hu2, hu3⟩ := hunify k (by omega)
    have hredo : map_get H lfuel st (Control.FRG_REDO (2 * k + 1)) junk A1 A2 A3
        = map_get_search H st map (2 * (k + 1) + 1) A2 A3 := by
      unfold map_get
      simp only [hmap]
      rfl
    rw [map_get_solutions, hctl,
      map_get_search_entry H st fid map A2 A3 N k harity hopen (by omega) hu1 hu2 hu3,
      if_pos (by omega)]
    simp only
    rw [ih (k + 1) fuel _ (by omega) (by omega) hredo]
    rfl

/-- Enumeration when no unification moves a key.  Let the first argument be a
valid map with `N` entries, let the second argument dereference to an unbound
variable, let the frame be opened, and let, for each entry, the unification of
its value slot with the third argument succeed and leave the key cell of the
entry as it is, and the unification of its key with the second argument
succeed.  Then the first call of `map_get/3` followed by redos, each with the
index the call before returned, reports exactly `N` solutions: entry 0, entry
1, ... entry `N - 1`, each once and in array order, solution `k` being the
state in which the value slot and the key of entry `k` have been unified with
the arguments.  For the empty map it reports none. -/
theorem map_get_enumerates_unmoved (H : Host) (lfuel : Nat) (st fid : PlState)
    (junk A1 A2 A3 N : Nat)
    (hvalid : PL_is_map H st A1 = true)
    (harity : H.arityFunctor
      (st.mem (H.valueTerm (st.mem (H.deRef st.mem (H.valTermRef A1))))) = 2 * N + 1)
    (hkey : is_key H (st.mem (H.deRef st.mem (H.valTermRef A2))) = false)
    (hbind : H.canBind (st.mem (H.deRef st.mem (H.valTermRef A2))) = true)
    (hopen : H.PL_open_foreign_frame st = some fid)
    (hunify : ∀ k, k < N →
      (H.unify_ptrs fid
        (H.valueTerm (st.mem (H.deRef st.mem (H.valTermRef A1))) + 2 + 2 * k + 1)
        (H.valTermRef A3)).1 = true ∧
      (H.unify_ptrs fid
        (H.valueTerm (st.mem (H.deRef st.mem (H.valTermRef A1))) + 2 + 2 * k + 1)
        (H.valTermRef A3)).2.mem
        (H.deRef fid.mem
          (H.valueTerm (st.mem (H.deRef st.mem (H.valTermRef A1))) + 2 + 2 * k))
        = keyAt H fid.mem (H.valueTerm (st.mem (H.deRef st.mem (H.valTermRef A1)))) k ∧
      (H._PL_unify_atomic
        (H.unify_ptrs fid
          (H.valueTerm (st.mem (H.deRef st.mem (H.valTermRef A1))) + 2 + 2 * k + 1)
          (H.valTermRef A3)).2 A2
        (keyAt H fid.mem (H.valueTerm (st.mem (H.deRef st.mem (H.valTermRef A1)))) k)).1
        = true) :
    map_get_solutions H lfuel st junk A1 A2 A3 (N + 1) Control.FRG_FIRST_CALL =
      some ((List.range N).map
        (entrySolution H fid (H.valueTerm (st.mem (H.deRef st.mem (H.valTermRef A1))))
          A2 A3)) := by
  have htag : H.isTerm (st.mem (H.deRef st.mem (H.valTermRef A1))) = true ∧
      H.nameFunctor (st.mem (H.valueTerm (st.mem (H.deRef st.mem (H.valTermRef A1)))))
        = H.ATOM_map := by
    unfold PL_is_map at hvalid
    by_cases ht : H.isTerm (st.mem (H.deRef st.mem (H.valTermRef A1))) = true
    · simp only [ht, if_true, Bool.and_eq_true, decide_eq_true_eq] at hvalid
      exact ⟨ht, hvalid.1⟩
    · simp only [ht] at hvalid
      exact absurd hvalid (by simp)
  have hget : get_map_ex H st A1 0 false
      = some (Outcome.TRUE, st.mem (H.deRef st.mem (H.valTermRef A1)), st) := by
    unfold get_map_ex
    have e : (2 * N + 1) % 2 = 1 := by omega
    simp only [htag.1, htag.2, harity, e, decide_True, Bool.and_self, if_true]
  have hfirst : map_get H lfuel st Control.FRG_FIRST_CALL junk A1 A2 A3
      = map_get_search H st (st.mem (H.deRef st.mem (H.valTermRef A1))) 1 A2 A3 := by
    unfold map_get
    simp only [hget, hkey, hbind, if_true, Bool.false_eq_true, if_false]
  cases N with
  | zero =>
    obtain ⟨st1, hs⟩ := map_get_search_empty H st
      (st.mem (H.deRef st.mem (H.valTermRef A1))) 1 A2 A3 harity (le_refl _)
    rw [map_get_solutions, hfirst, hs]
    rfl
  | succ n =>
    have h := map_get_solutions_from H lfuel st fid junk A1 A2 A3
      (st.mem (H.deRef st.mem (H.valTermRef A1))) (n + 1) rfl harity hopen hunify n 0 (n + 1 + 1)
      Control.FRG_FIRST_CALL (by omega) (by omega) hfirst
    rw [h, List.range_eq_range']

/-- C12 (enumeration completeness) fails when `unify_ptrs` makes use of
`ALLOW_GC|ALLOW_SHIFT`.  The map `_{a:1, b:2}` lies at address 2 above two
cells of garbage and passes `PL_is_map`; the second and third argument are
unbound.  With a `unify_ptrs` that leaves the stack in place, the first call
of `map_get/3` reports the key `a` with the value 1 and the redos report `a:1`
and `b:2`.  With a `unify_ptrs` that collects the garbage after unifying the
value, so that the map slides down to address 0 (where it still holds `a:1`
and `b:2`, and to where term reference 1 now points), the first call reads the
key through the pointer `np` it took before the unification: the cell at
address 4, which now holds `b`.  It reports the key `b` with the value 1,
which is no entry of the map. -/
theorem map_get_stale_key :
    PL_is_map Demo.gcHost (Demo.state Demo.gcMap 8 64) 1 = true ∧
    entriesOf Demo.gcMap 2 2 = [(Demo.atom 7, Demo.int 1), (Demo.atom 8, Demo.int 2)] ∧
    (map_get Demo.host 0 (Demo.state Demo.gcMap 8 64) Control.FRG_FIRST_CALL 0 1 2 3).map
      (fun r => (r.1, r.2.mem 102, r.2.mem 103))
      = some (ForeignRet.REDO 1, Demo.atom 7, Demo.int 1) ∧
    (map_get_solutions Demo.host 0 (Demo.state Demo.gcMap 8 64) 0 1 2 3 3
        Control.FRG_FIRST_CALL).map (fun l => l.map (fun s => (s.mem 102, s.mem 103)))
      = some [(Demo.atom 7, Demo.int 1), (Demo.atom 8, Demo.int 2)] ∧
    (map_get Demo.gcHost 0 (Demo.state Demo.gcMap 8 64) Control.FRG_FIRST_CALL 0 1 2 3).map
      (fun r => (r.2.mem 101, r.2.gTop, entriesOf r.2.mem 0 2))
      = some (Demo.compound 0, 6, [(Demo.atom 7, Demo.int 1), (Demo.atom 8, Demo.int 2)]) ∧
    (map_get Demo.gcHost 0 (Demo.state Demo.gcMap 8 64) Control.FRG_FIRST_CALL 0 1 2 3).map
      (fun r => (r.1, r.2.mem 102, r.2.mem 103))
      = some (ForeignRet.REDO 1, Demo.atom 8, Demo.int 1) :=
  ⟨by decide, by decide, by decide, by decide, by decide, by decide⟩

end PlMap
